import Mathlib

/-!
# nucliadb `lru.c` : a pointer-level model of the LRU cache and its properties

The C extension keeps a Python dict `key -> Node*` together with an intrusive
doubly linked list of the nodes (`first` is the most recently used node,
`last` the least recently used one).  The model below keeps that shape:

* node addresses are natural numbers, `NULL` is `none`;
* node storage is a map from addresses to `Node` records, `PyObject_NEW`
  hands out the address `brk` and bumps it (addresses are never reused);
* the dict is an association list in insertion order;
* `Py_ssize_t` fields are integers.  The functions compute on them without a
  bound; the copies of the sized set under `Ssize` store every result at 64 bits,
  and `get_size()` converts its field with the 32-bit format `i`;
* the conversion of an integer argument by the format `l` is `PyArg_Parse_l`,
  applied by the `_args` entry points;
* reference counting is not modelled;
* the eviction callback is modelled by the list `calls` of the `(key, value)`
  pairs it was invoked with.

The `while` loops that walk or shrink the linked list (`collect`, `lru_vacuum`,
`set_size`, `clear`) take their iteration bound from `lru_length`; `Fault.fuel`
marks a run that would exceed it, and `Fault.nullDeref` marks the read of
`self->last->size` through a `NULL` `last`.  On well-formed states the bound is
never reached.
-/

namespace Lru

/-- Address of a `Node` object. -/
abbrev Ptr := Nat

/-- Mirror of `struct _Node` (the object header is left out). -/
structure Node (K V : Type) where
  value : V
  key : K
  size : Int
  prev : Option Ptr
  next : Option Ptr

/-- Mirror of the `LRU` struct, extended with the node storage (`heap`, `brk`)
and with the record `calls` of callback invocations. -/
structure LRU (K V : Type) where
  dict : List (K × Ptr)
  first : Option Ptr
  last : Option Ptr
  memory : Int
  size : Int
  hits : Int
  clean : Int
  misses : Int
  callback : Bool
  heap : Ptr → Node K V
  brk : Ptr
  calls : List (K × V)

/-- Ways in which a run of the model can stop without a result. -/
inductive Fault where
  | nullDeref
  | fuel
  deriving DecidableEq, Repr

/-- Python exceptions raised by the functions modelled here. -/
inductive PyErr where
  | TypeError
  | ValueError
  | KeyError
  | OverflowError
  deriving DecidableEq, Repr

/-- Largest value of a C `long`, which is also the largest `Py_ssize_t` (64-bit
platforms with 64-bit `long`). -/
def LONG_MAX : Int := 9223372036854775807

/-- Smallest value of a C `long`. -/
def LONG_MIN : Int := -9223372036854775808

/-- Format unit `l` of `PyArg_ParseTuple`: the Python integer `x` is stored in a
C `long`; `OverflowError` is raised when it does not fit. -/
def PyArg_Parse_l (x : Int) : Except PyErr Int :=
  if LONG_MIN ≤ x ∧ x ≤ LONG_MAX then .ok x else .error PyErr.OverflowError

/-- Format unit `i` of `Py_BuildValue`: the argument is read as a C `int`, so of
a `Py_ssize_t` only the low 32 bits arrive, as a signed value. -/
def Py_BuildValue_i (x : Int) : Int := (x + 2147483648) % 4294967296 - 2147483648

/-- The value a `Py_ssize_t` holds once the mathematical result `x` is stored in
it: two-complement wrap-around at 64 bits. -/
def Py_ssize_t (x : Int) : Int :=
  (x + 9223372036854775808) % 18446744073709551616 - 9223372036854775808

/-- What a caller may pass as the `callback` argument. -/
inductive CallbackArg where
  | pyNone
  | callable
  | notCallable
  deriving DecidableEq, Repr

variable {K V : Type}

/-- Store `n` at address `p`. -/
def upd (h : Ptr → Node K V) (p : Ptr) (n : Node K V) : Ptr → Node K V :=
  fun q => if q = p then n else h q

/-- The store `node->prev = x`. -/
def setPrev (h : Ptr → Node K V) (node : Ptr) (x : Option Ptr) : Ptr → Node K V :=
  upd h node { h node with prev := x }

/-- The store `node->next = x`. -/
def setNext (h : Ptr → Node K V) (node : Ptr) (x : Option Ptr) : Ptr → Node K V :=
  upd h node { h node with next := x }

/-- The store `node->value = x`. -/
def setValue (h : Ptr → Node K V) (node : Ptr) (x : V) : Ptr → Node K V :=
  upd h node { h node with value := x }

/-- The store `node->size = x`. -/
def setSize (h : Ptr → Node K V) (node : Ptr) (x : Int) : Ptr → Node K V :=
  upd h node { h node with size := x }

/-- The macro `GET_NODE(d, key)`: dict subscript, `NULL` on a miss. -/
def GET_NODE [DecidableEq K] (d : List (K × Ptr)) (key : K) : Option Ptr :=
  match d with
  | [] => none
  | (k, p) :: rest => if k = key then some p else GET_NODE rest key

/-- Dict item assignment of a non-`NULL` node: replace in place or append. -/
def dictSet [DecidableEq K] (d : List (K × Ptr)) (key : K) (node : Ptr) : List (K × Ptr) :=
  match d with
  | [] => [(key, node)]
  | (k, p) :: rest => if k = key then (k, node) :: rest else (k, p) :: dictSet rest key node

/-- Dict item deletion. -/
def dictDel [DecidableEq K] (d : List (K × Ptr)) (key : K) : List (K × Ptr) :=
  d.filter (fun kp => decide (kp.1 ≠ key))

/-- The macro `PUT_NODE(d, key, node)`: dict item assignment; with a `NULL`
node it deletes the key and answers `-1` (KeyError) when the key is missing. -/
def PUT_NODE [DecidableEq K] (d : List (K × Ptr)) (key : K) (node : Option Ptr) :
    List (K × Ptr) × Int :=
  match node with
  | some n => (dictSet d key n, 0)
  | none =>
    match GET_NODE d key with
    | some _ => (dictDel d key, 0)
    | none => (d, -1)

/-- Unlink `node` from the list. -/
def lru_remove_node (self : LRU K V) (node : Ptr) : LRU K V :=
  let self := if self.first = some node then { self with first := (self.heap node).next } else self
  let self := if self.last = some node then { self with last := (self.heap node).prev } else self
  let self :=
    match (self.heap node).prev with
    | some p => { self with heap := setNext self.heap p (self.heap node).next }
    | none => self
  let self :=
    match (self.heap node).next with
    | some n => { self with heap := setPrev self.heap n (self.heap node).prev }
    | none => self
  { self with heap := setNext (setPrev self.heap node none) node none }

/-- Link `node` in front of the list. -/
def lru_add_node_at_head (self : LRU K V) (node : Ptr) : LRU K V :=
  let self := { self with heap := setPrev self.heap node none }
  match self.first with
  | none =>
    let self := { self with first := some node, last := some node }
    { self with heap := setNext self.heap node none }
  | some f =>
    let self := { self with heap := setNext self.heap node (some f) }
    let self :=
      match (self.heap node).next with
      | some n => { self with heap := setPrev self.heap n (some node) }
      | none => self
    { self with first := some node }

/-- Evict the least recently used node: tell the callback, unlink the node and
delete its key from the dict. -/
def lru_delete_last [DecidableEq K] (self : LRU K V) : LRU K V :=
  match self.last with
  | none => self
  | some n =>
    let self :=
      if self.callback then
        { self with calls := self.calls ++ [((self.heap n).key, (self.heap n).value)] }
      else self
    let self := lru_remove_node self n
    { self with dict := (PUT_NODE self.dict (self.heap n).key none).1 }

/-- Number of keys in the dict. -/
def lru_length (self : LRU K V) : Nat := self.dict.length

/-- Method `get_memory()`: `Py_BuildValue("l", self->memory)`, exact for a
`Py_ssize_t`. -/
def LRU_memory (self : LRU K V) : Int := self.memory

/-- Membership test behind `__contains__`, `has_key` and `key in L`. -/
def LRU_contains_key [DecidableEq K] (self : LRU K V) (key : K) : Bool :=
  (GET_NODE self.dict key).isSome

/-- Method `has_key(key)`: the parsed argument is handed to `LRU_contains_key`. -/
def LRU_contains [DecidableEq K] (self : LRU K V) (key : K) : Bool :=
  LRU_contains_key self key

/-- Slot `sq_contains` behind `key in L`: the integer answered by `PyDict_Contains`. -/
def LRU_seq_contains [DecidableEq K] (self : LRU K V) (key : K) : Int :=
  if (GET_NODE self.dict key).isSome then 1 else 0

/-- Subscript `L[key]`: on a hit the node moves to the head and the answer is
the value.  On a miss `GET_NODE` has set `KeyError`, and the function returns
`NULL` without clearing it: the answer is that exception. -/
def lru_subscript [DecidableEq K] (self : LRU K V) (key : K) : LRU K V × Except PyErr V :=
  match GET_NODE self.dict key with
  | none => ({ self with misses := self.misses + 1 }, .error PyErr.KeyError)
  | some node =>
    let self :=
      if some node ≠ self.first then lru_add_node_at_head (lru_remove_node self node) node
      else self
    let self := { self with hits := self.hits + 1 }
    (self, .ok (self.heap node).value)

/-- Method `get(key, instead)`: the exception left by `lru_subscript` is cleared,
and a `NULL` result is replaced by `instead`.  `instead = none` stands for an
omitted second argument, and the answer `none` for `Py_None`. -/
def LRU_get [DecidableEq K] (self : LRU K V) (key : K) (instead : Option V) :
    LRU K V × Option V :=
  let r := lru_subscript self key
  match r.2 with
  | .ok v => (r.1, some v)
  | .error _ => (r.1, instead)

/-- The body of the loop of `lru_vacuum`, `last` being the non-`NULL` `self->last`. -/
def lru_vacuum_body [DecidableEq K] (self : LRU K V) (last : Ptr) : LRU K V :=
  let self := { self with memory := self.memory - (self.heap last).size }
  let self := lru_delete_last self
  { self with clean := self.clean + 1 }

/-- The loop of `lru_vacuum`, at most `fuel` iterations. -/
def lru_vacuum_loop [DecidableEq K] : Nat → LRU K V → Except Fault (LRU K V)
  | 0, self => if self.memory > self.size then .error .fuel else .ok self
  | fuel + 1, self =>
    if self.memory > self.size then
      match self.last with
      | none => .error .nullDeref
      | some l => lru_vacuum_loop fuel (lru_vacuum_body self l)
    else .ok self

/-- Evict from the tail while the accounted memory exceeds the capacity. -/
def lru_vacuum [DecidableEq K] (self : LRU K V) : Except Fault (LRU K V) :=
  lru_vacuum_loop (lru_length self + 1) self

/-- Assignment core: `value = none` is the `NULL` value of a deletion.  The
answer pairs the new state with the C return code. -/
def _lru_ass_sub [DecidableEq K] (self : LRU K V) (key : K) (value : Option V) (memory : Int) :
    Except Fault (LRU K V × Int) :=
  if memory > self.size then .ok (self, 0)
  else
    let node := GET_NODE self.dict key
    match value with
    | some v =>
      match node with
      | some n =>
        let self := { self with heap := setValue self.heap n v }
        let self := { self with memory := self.memory - (self.heap n).size + memory }
        let self := { self with heap := setSize self.heap n memory }
        let self := lru_remove_node self n
        let self := lru_add_node_at_head self n
        match lru_vacuum self with
        | .ok self => .ok (self, 0)
        | .error e => .error e
      | none =>
        let n := self.brk
        let self := { self with
          brk := n + 1
          heap := upd self.heap n
            { key := key, value := v, next := none, prev := none, size := memory } }
        let self := { self with memory := self.memory + memory }
        let r := PUT_NODE self.dict key (some n)
        let self := { self with dict := r.1 }
        let self := lru_add_node_at_head self n
        match lru_vacuum self with
        | .ok self => .ok (self, r.2)
        | .error e => .error e
    | none =>
      let r := PUT_NODE self.dict key none
      let self := { self with dict := r.1 }
      if r.2 = 0 then
        match node with
        | some n =>
          let self := { self with memory := self.memory - (self.heap n).size }
          .ok (lru_remove_node self n, r.2)
        | none => .error .nullDeref
      else .ok (self, r.2)

/-- Dict-style assignment `L[key] = value` / `del L[key]`: size 0. -/
def lru_ass_sub [DecidableEq K] (self : LRU K V) (key : K) (value : Option V) :
    Except Fault (LRU K V × Int) :=
  _lru_ass_sub self key value 0

/-- Method `set(key, value, size)`; the return code is dropped. -/
def LRU_set [DecidableEq K] (self : LRU K V) (key : K) (value : V) (mem : Int) :
    Except Fault (LRU K V) :=
  match _lru_ass_sub self key (some value) mem with
  | .ok r => .ok r.1
  | .error e => .error e

/-! ## The sized set at the width of `Py_ssize_t`

The functions above compute `memory` and `clean` on mathematical integers.  The
copies in `Ssize` make every store to these fields at the width of the C type, as
the compiled code does; they are what the statements on sums near `LONG_MAX` are
about. -/

namespace Ssize

/-- The body of the loop of `lru_vacuum`, `last` being the non-`NULL` `self->last`. -/
def lru_vacuum_body [DecidableEq K] (self : LRU K V) (last : Ptr) : LRU K V :=
  let self := { self with memory := Py_ssize_t (self.memory - (self.heap last).size) }
  let self := lru_delete_last self
  { self with clean := Py_ssize_t (self.clean + 1) }

/-- The loop of `lru_vacuum`, at most `fuel` iterations. -/
def lru_vacuum_loop [DecidableEq K] : Nat → LRU K V → Except Fault (LRU K V)
  | 0, self => if self.memory > self.size then .error .fuel else .ok self
  | fuel + 1, self =>
    if self.memory > self.size then
      match self.last with
      | none => .error .nullDeref
      | some l => lru_vacuum_loop fuel (lru_vacuum_body self l)
    else .ok self

/-- Evict from the tail while the accounted memory exceeds the capacity. -/
def lru_vacuum [DecidableEq K] (self : LRU K V) : Except Fault (LRU K V) :=
  lru_vacuum_loop (lru_length self + 1) self

/-- Assignment core: `value = none` is the `NULL` value of a deletion.  The
answer pairs the new state with the C return code. -/
def _lru_ass_sub [DecidableEq K] (self : LRU K V) (key : K) (value : Option V) (memory : Int) :
    Except Fault (LRU K V × Int) :=
  if memory > self.size then .ok (self, 0)
  else
    let node := GET_NODE self.dict key
    match value with
    | some v =>
      match node with
      | some n =>
        let self := { self with heap := setValue self.heap n v }
        let self :=
          { self with memory := Py_ssize_t (self.memory - (self.heap n).size + memory) }
        let self := { self with heap := setSize self.heap n memory }
        let self := lru_remove_node self n
        let self := lru_add_node_at_head self n
        match lru_vacuum self with
        | .ok self => .ok (self, 0)
        | .error e => .error e
      | none =>
        let n := self.brk
        let self := { self with
          brk := n + 1
          heap := upd self.heap n
            { key := key, value := v, next := none, prev := none, size := memory } }
        let self := { self with memory := Py_ssize_t (self.memory + memory) }
        let r := PUT_NODE self.dict key (some n)
        let self := { self with dict := r.1 }
        let self := lru_add_node_at_head self n
        match lru_vacuum self with
        | .ok self => .ok (self, r.2)
        | .error e => .error e
    | none =>
      let r := PUT_NODE self.dict key none
      let self := { self with dict := r.1 }
      if r.2 = 0 then
        match node with
        | some n =>
          let self := { self with memory := Py_ssize_t (self.memory - (self.heap n).size) }
          .ok (lru_remove_node self n, r.2)
        | none => .error .nullDeref
      else .ok (self, r.2)

/-- Method `set(key, value, size)` from the point where the arguments have been
converted: `mem` is the C variable; the return code is dropped. -/
def LRU_set [DecidableEq K] (self : LRU K V) (key : K) (value : V) (mem : Int) :
    Except Fault (LRU K V) :=
  match _lru_ass_sub self key (some value) mem with
  | .ok r => .ok r.1
  | .error e => .error e

end Ssize

/-- The loop of `collect`: at most `fuel` items are written. -/
def collect_loop {α : Type} (h : Ptr → Node K V) (getterfunc : Node K V → α) :
    Nat → Option Ptr → List α
  | 0, _ => []
  | _ + 1, none => []
  | fuel + 1, some curr => getterfunc (h curr) :: collect_loop h getterfunc fuel (h curr).next

/-- Walk the list from `first`, applying `getterfunc` to every node; the result
list has room for `lru_length` items. -/
def collect {α : Type} (self : LRU K V) (getterfunc : Node K V → α) : List α :=
  collect_loop self.heap getterfunc (lru_length self) self.first

/-- Getter used by `keys()`. -/
def get_key (node : Node K V) : K := node.key

/-- Getter used by `values()`. -/
def get_value (node : Node K V) : V := node.value

/-- Getter used by `items()`. -/
def get_item (node : Node K V) : K × V := (node.key, node.value)

/-- Method `keys()`. -/
def LRU_keys (self : LRU K V) : List K := collect self get_key

/-- Method `values()`. -/
def LRU_values (self : LRU K V) : List V := collect self get_value

/-- Method `items()`. -/
def LRU_items (self : LRU K V) : List (K × V) := collect self get_item

/-- Method `peek_first_item()`; `none` stands for `Py_None`. -/
def LRU_peek_first_item (self : LRU K V) : Option (K × V) :=
  match self.first with
  | some f => some ((self.heap f).key, (self.heap f).value)
  | none => none

/-- Method `peek_last_item()`; `none` stands for `Py_None`. -/
def LRU_peek_last_item (self : LRU K V) : Option (K × V) :=
  match self.last with
  | some l => some ((self.heap l).key, (self.heap l).value)
  | none => none

/-- Method `get_size()`: `Py_BuildValue("i", self->size)`. -/
def LRU_get_size (self : LRU K V) : Int := Py_BuildValue_i self.size

/-- Method `get_stats()`. -/
def LRU_get_stats (self : LRU K V) : Int × Int × Int := (self.hits, self.misses, self.clean)

/-- The loop of `set_size`: evict the last node while the dict holds more than
`newSize` keys, at most `fuel` iterations. -/
def LRU_set_size_loop [DecidableEq K] : Nat → LRU K V → Int → Except Fault (LRU K V)
  | 0, self, newSize =>
    if (lru_length self : Int) > newSize then .error .fuel else .ok self
  | fuel + 1, self, newSize =>
    if (lru_length self : Int) > newSize then
      LRU_set_size_loop fuel (lru_delete_last self) newSize
    else .ok self

/-- Method `set_size(newSize)` from the point where the argument has been
converted: `newSize` is the C variable.  The answer pairs the state with the
exception raised, `none` when the method returns `None`. -/
def LRU_set_size [DecidableEq K] (self : LRU K V) (newSize : Int) :
    Except Fault (LRU K V × Option PyErr) :=
  if newSize ≤ 0 then .ok (self, some PyErr.ValueError)
  else
    match LRU_set_size_loop (lru_length self) self newSize with
    | .ok self => .ok ({ self with size := newSize }, none)
    | .error e => .error e

/-- The call `L.set_size(x)` on a Python integer `x`: the conversion
`PyArg_ParseTuple(args, "l", &newSize)` at the head of `LRU_set_size`, which
returns with the exception when it fails, and then the rest of the function. -/
def LRU_set_size_args [DecidableEq K] (self : LRU K V) (x : Int) :
    Except Fault (LRU K V × Option PyErr) :=
  match PyArg_Parse_l x with
  | .error e => .ok (self, some e)
  | .ok newSize => LRU_set_size self newSize

/-- The loop of `clear`: unlink every node met from `c` on, at most `fuel` of them. -/
def LRU_clear_loop : Nat → LRU K V → Option Ptr → Except Fault (LRU K V)
  | _, self, none => .ok self
  | 0, _, some _ => .error .fuel
  | fuel + 1, self, some n =>
    let c := (self.heap n).next
    LRU_clear_loop fuel (lru_remove_node self n) c

/-- Method `clear()`. -/
def LRU_clear (self : LRU K V) : Except Fault (LRU K V) :=
  match LRU_clear_loop (lru_length self) self self.first with
  | .ok self => .ok { self with dict := [], hits := 0, misses := 0, memory := 0 }
  | .error e => .error e

/-- Constructor `LRU(size, callback)` from the point where the arguments have
been converted: `size` is the C field `self->size`; `callback = none` is an
omitted argument. -/
def LRU_init [Inhabited K] [Inhabited V] (size : Int) (callback : Option CallbackArg) :
    Except PyErr (LRU K V) :=
  if callback = some CallbackArg.notCallable then .error .TypeError
  else if size ≤ 0 then .error .ValueError
  else .ok
    { dict := []
      first := none
      last := none
      memory := 0
      size := size
      hits := 0
      clean := 0
      misses := 0
      callback := decide (callback = some CallbackArg.callable)
      heap := fun _ => { value := default, key := default, size := 0, prev := none, next := none }
      brk := 0
      calls := [] }

/-- The call `LRU(x, callback)` on a Python integer `x`: the conversion
`PyArg_ParseTupleAndKeywords(args, kwds, "l|O", ...)` at the head of `LRU_init`,
which returns with the exception when it fails, and then the rest of the
function. -/
def LRU_init_args [Inhabited K] [Inhabited V] (x : Int) (callback : Option CallbackArg) :
    Except PyErr (LRU K V) :=
  match PyArg_Parse_l x with
  | .error e => .error e
  | .ok size => LRU_init size callback

/-- Addresses reached from `curr` by following `next`, at most `fuel` of them. -/
def walk (h : Ptr → Node K V) : Nat → Option Ptr → List Ptr
  | 0, _ => []
  | _ + 1, none => []
  | fuel + 1, some curr => curr :: walk h fuel (h curr).next

/-- The address list `l` is doubly linked in `h`, the node before it being `pv`
and the last node having a `NULL` successor. -/
def Seg (h : Ptr → Node K V) : Option Ptr → List Ptr → Prop
  | _, [] => True
  | pv, p :: rest => (h p).prev = pv ∧ (h p).next = rest.head? ∧ Seg h (some p) rest

instance decSeg (h : Ptr → Node K V) : (pv : Option Ptr) → (l : List Ptr) → Decidable (Seg h pv l)
  | _, [] => isTrue trivial
  | pv, p :: rest =>
    have := decSeg h (some p) rest
    inferInstanceAs (Decidable ((h p).prev = pv ∧ (h p).next = rest.head? ∧ Seg h (some p) rest))

/-- The addresses `l` form the doubly linked list between `first` and `last`. -/
structure IsList (h : Ptr → Node K V) (first last : Option Ptr) (l : List Ptr) : Prop where
  first_eq : first = l.head?
  last_eq : last = l.getLast?
  seg : Seg h none l
  nodup : l.Nodup

/-- Two heaps hold the same key, value and size at every address. -/
def SameData (h h' : Ptr → Node K V) : Prop :=
  ∀ q, (h' q).key = (h q).key ∧ (h' q).value = (h q).value ∧ (h' q).size = (h q).size

/-- The node storage after `lru_remove_node`. -/
def removeHeap (h : Ptr → Node K V) (node : Ptr) : Ptr → Node K V :=
  let h1 := match (h node).prev with
    | some p => setNext h p (h node).next
    | none => h
  let h2 := match (h1 node).next with
    | some n => setPrev h1 n (h1 node).prev
    | none => h1
  setNext (setPrev h2 node none) node none

/-- The node storage after `lru_add_node_at_head`, `first` being the old head. -/
def addHeap (h : Ptr → Node K V) (first : Option Ptr) (node : Ptr) : Ptr → Node K V :=
  match first with
  | none => setNext (setPrev h node none) node none
  | some f => setPrev (setNext (setPrev h node none) node (some f)) f (some node)

/-! ## The cache invariant -/

/-- The cache invariant, with the list `l` of node addresses made explicit: the
nodes form the doubly linked list, the dict has one entry per node, filed under
the key stored in the node, and every node was handed out by the allocator. -/
structure Inv (s : LRU K V) (l : List Ptr) : Prop where
  list : IsList s.heap s.first s.last l
  keys_nodup : (s.dict.map Prod.fst).Nodup
  dict_sub : ∀ kp ∈ s.dict, kp.2 ∈ l ∧ (s.heap kp.2).key = kp.1
  list_sub : ∀ p ∈ l, ((s.heap p).key, p) ∈ s.dict
  lt_brk : ∀ p ∈ l, p < s.brk

/-- The node addresses met by walking from `first`. -/
def chain (s : LRU K V) : List Ptr := walk s.heap (lru_length s) s.first

/-- Well-formed cache state: the invariant holds of the walk from `first`. -/
def WF [DecidableEq K] (s : LRU K V) : Prop :=
  (s.first = (chain s).head? ∧ s.last = (chain s).getLast? ∧
    Seg s.heap none (chain s) ∧ (chain s).Nodup) ∧
  (s.dict.map Prod.fst).Nodup ∧
  (∀ kp ∈ s.dict, kp.2 ∈ chain s ∧ (s.heap kp.2).key = kp.1) ∧
  (∀ p ∈ chain s, ((s.heap p).key, p) ∈ s.dict) ∧
  (∀ p ∈ chain s, p < s.brk)

instance decWF [DecidableEq K] (s : LRU K V) : Decidable (WF s) := by
  unfold WF
  infer_instance

/-- Getter for the whole entry: key, value and accounted size. -/
def get_entry (node : Node K V) : K × V × Int := (node.key, node.value, node.size)

/-- The entries from head to tail. -/
def entries (s : LRU K V) : List (K × V × Int) := collect s get_entry

/-! ## The cache as a sequence of entries

The definitions of this section restate the cache operations on the head-to-tail
sequence of `(key, value, size)` entries; the theorems below show that the
pointer-level functions above compute the same thing on well-formed states. -/

/-- The cache seen as its entry sequence and its counters. -/
structure Abs (K V : Type) where
  entries : List (K × V × Int)
  memory : Int
  size : Int
  hits : Int
  clean : Int
  misses : Int
  callback : Bool
  calls : List (K × V)

/-- The abstract view of a pointer-level state. -/
def absOf (s : LRU K V) : Abs K V :=
  { entries := entries s
    memory := s.memory
    size := s.size
    hits := s.hits
    clean := s.clean
    misses := s.misses
    callback := s.callback
    calls := s.calls }

/-- Sum of the accounted sizes. -/
def total (es : List (K × V × Int)) : Int := (es.map (fun e => e.2.2)).sum

/-- The sequence without the entries filed under `key`. -/
def remKey [DecidableEq K] (key : K) (es : List (K × V × Int)) : List (K × V × Int) :=
  es.filter (fun e => decide (e.1 ≠ key))

/-- The first entry filed under `key`. -/
def findKey [DecidableEq K] (key : K) (es : List (K × V × Int)) : Option (K × V × Int) :=
  es.find? (fun e => decide (e.1 = key))

/-- One eviction on entry sequences, `e` being the last entry. -/
def Abs.vacuumBody (a : Abs K V) (e : K × V × Int) : Abs K V :=
  { a with
    entries := a.entries.dropLast
    memory := a.memory - e.2.2
    clean := a.clean + 1
    calls := if a.callback then a.calls ++ [(e.1, e.2.1)] else a.calls }

/-- Vacuum on entry sequences: drop the last entry while memory exceeds size. -/
def Abs.vacuumLoop : Nat → Abs K V → Except Fault (Abs K V)
  | 0, a => if a.memory > a.size then .error .fuel else .ok a
  | fuel + 1, a =>
    if a.memory > a.size then
      match a.entries.getLast? with
      | none => .error .nullDeref
      | some e => Abs.vacuumLoop fuel (Abs.vacuumBody a e)
    else .ok a

/-- Vacuum on entry sequences. -/
def Abs.vacuum (a : Abs K V) : Except Fault (Abs K V) :=
  Abs.vacuumLoop (a.entries.length + 1) a

/-- Sized assignment of a value on entry sequences. -/
def Abs.assign [DecidableEq K] (a : Abs K V) (key : K) (v : V) (m : Int) :
    Except Fault (Abs K V) :=
  if m > a.size then .ok a
  else
    match findKey key a.entries with
    | some e =>
      Abs.vacuum
        { a with
          entries := (key, v, m) :: remKey key a.entries
          memory := a.memory - e.2.2 + m }
    | none =>
      Abs.vacuum { a with entries := (key, v, m) :: a.entries, memory := a.memory + m }

/-- Lookup with promotion on entry sequences. -/
def Abs.lookup [DecidableEq K] (a : Abs K V) (key : K) : Abs K V × Except PyErr V :=
  match findKey key a.entries with
  | none => ({ a with misses := a.misses + 1 }, .error PyErr.KeyError)
  | some e => ({ a with entries := e :: remKey key a.entries, hits := a.hits + 1 }, .ok e.2.1)

/-- The pointer-level result `r` and the sequence-level result `ra` agree: both
fail alike, or both succeed, on a well-formed state whose view is `ra`. -/
def Sim [DecidableEq K] (r : Except Fault (LRU K V)) (ra : Except Fault (Abs K V)) : Prop :=
  match r, ra with
  | .ok s, .ok a => WF s ∧ absOf s = a
  | .error e, .error e' => e = e'
  | _, _ => False

/-! ## Predicates and sample states used in the statements -/

/-- The accounted memory is the sum of the sizes of the live entries, and no
size is negative. -/
def Accounted (s : LRU K V) : Prop :=
  s.memory = total (entries s) ∧ ∀ e ∈ entries s, 0 ≤ e.2.2

instance decAccounted (s : LRU K V) : Decidable (Accounted s) := by
  unfold Accounted
  infer_instance

/-- A cache of capacity 10 after `set('a', 1, 4)` and `set('b', 2, 4)`. -/
def demoAB : LRU String Nat :=
  { dict := [("a", 0), ("b", 1)]
    first := some 1
    last := some 0
    memory := 8
    size := 10
    hits := 0
    clean := 0
    misses := 0
    callback := false
    heap := fun p =>
      if p = 0 then { value := 1, key := "a", size := 4, prev := some 1, next := none }
      else if p = 1 then { value := 2, key := "b", size := 4, prev := none, next := some 0 }
      else { value := 0, key := "", size := 0, prev := none, next := none }
    brk := 2
    calls := [] }

/-- Successive calls `set(k, v, m)` for the triples of a list, in order. -/
def setAll [DecidableEq K] (s : LRU K V) : List (K × V × Int) → Except Fault (LRU K V)
  | [] => .ok s
  | (k, v, m) :: rest =>
    match LRU_set s k v m with
    | .ok s' => setAll s' rest
    | .error e => .error e

/-- A cache of capacity 10 holding the single entry `('a', 1, 6)`. -/
def demoA : LRU String Nat :=
  { dict := [("a", 0)]
    first := some 0
    last := some 0
    memory := 6
    size := 10
    hits := 0
    clean := 0
    misses := 0
    callback := false
    heap := fun p =>
      if p = 0 then { value := 1, key := "a", size := 6, prev := none, next := none }
      else { value := 0, key := "", size := 0, prev := none, next := none }
    brk := 1
    calls := [] }

/-- Successive dict-style assignments `L[k] = v` for the pairs of a list, in order. -/
def assignAll [DecidableEq K] (s : LRU K V) : List (K × V) → Except Fault (LRU K V)
  | [] => .ok s
  | (k, v) :: rest =>
    match lru_ass_sub s k (some v) with
    | .ok r => assignAll r.1 rest
    | .error e => .error e

/-- The triple given by the last `set` of key `k` in a list of sets. -/
def lastSet [DecidableEq K] (k : K) (ops : List (K × V × Int)) : Option (K × V × Int) :=
  findKey k ops.reverse

/-- The sum, over the keys set so far, of the size given by the last set of each. -/
def currentTotal [DecidableEq K] (ops : List (K × V × Int)) : Int :=
  (((ops.map Prod.fst).dedup).map (fun k =>
    match lastSet k ops with
    | some e => e.2.2
    | none => 0)).sum

/-- The bindings in force after a list of sets, most recent first. -/
def latest [DecidableEq K] (ops : List (K × V × Int)) : List (K × V × Int) :=
  ops.foldl (fun acc op => op :: remKey op.1 acc) []

/-- The public operations that change or query a cache. -/
inductive Op (K V : Type) where
  | set (key : K) (value : V) (size : Int)
  | assign (key : K) (value : V)
  | remove (key : K)
  | lookup (key : K)
  | get (key : K) (instead : Option V)
  | set_size (newSize : Int)
  | clear

/-- The arguments of an operation meet its documented precondition: a `set` has
a non-negative size and a `set_size` a positive argument. -/
def Op.valid : Op K V → Prop
  | .set _ _ size => 0 ≤ size
  | .set_size newSize => 0 < newSize
  | _ => True

instance decOpValid (op : Op K V) : Decidable op.valid := by
  cases op <;> unfold Op.valid <;> infer_instance

/-- The state after one operation (`assign` is `L[key] = value`, `remove` is
`del L[key]`, `lookup` is `L[key]`). -/
def step [DecidableEq K] (s : LRU K V) : Op K V → Except Fault (LRU K V)
  | .set key value size => LRU_set s key value size
  | .assign key value =>
    match lru_ass_sub s key (some value) with
    | .ok r => .ok r.1
    | .error e => .error e
  | .remove key =>
    match lru_ass_sub s key none with
    | .ok r => .ok r.1
    | .error e => .error e
  | .lookup key => .ok (lru_subscript s key).1
  | .get key instead => .ok (LRU_get s key instead).1
  | .set_size newSize =>
    match LRU_set_size s newSize with
    | .ok r => .ok r.1
    | .error e => .error e
  | .clear => LRU_clear s

/-- The state after a list of operations, in order. -/
def run [DecidableEq K] (s : LRU K V) : List (Op K V) → Except Fault (LRU K V)
  | [] => .ok s
  | op :: rest =>
    match step s op with
    | .ok s' => run s' rest
    | .error e => .error e

/-- A sample run that uses every operation. -/
def demoOps : List (Op String Nat) :=
  [Op.set "a" 1 5, Op.assign "b" 2, Op.lookup "a", Op.set_size 1, Op.set "c" 3 4,
    Op.remove "a", Op.get "z" none, Op.clear, Op.set "d" 4 1]

/-- A well-formed doubly linked list in pointer terms, `l` being its
head-to-tail sequence: `l` starts at `first`, ends at `last` and repeats no
node, each node's `next` is the node that follows, `last.next` and `first.prev`
are `NULL`, and `x.next.prev == x` for every linked `x`. -/
def WellLinked (h : Ptr → Node K V) (first last : Option Ptr) (l : List Ptr) : Prop :=
  l.Nodup ∧ first = l.head? ∧ last = l.getLast? ∧
  (∀ xy ∈ l.zip l.tail, (h xy.1).next = some xy.2) ∧
  (∀ x ∈ last, (h x).next = none) ∧
  (∀ x ∈ first, (h x).prev = none) ∧
  (∀ x ∈ l, ∀ y ∈ (h x).next, (h y).prev = some x)

instance decWellLinked (h : Ptr → Node K V) (first last : Option Ptr) (l : List Ptr) :
    Decidable (WellLinked h first last l) := by
  unfold WellLinked
  infer_instance

/-- The entry sequence handed to the vacuum by an accepted `set(key, value, m)`:
the new entry followed by the old entries without `key`. -/
def setSeq [DecidableEq K] (s : LRU K V) (key : K) (value : V) (m : Int) : List (K × V × Int) :=
  (key, value, m) :: remKey key (entries s)

/-- The accounted memory handed to the vacuum by an accepted `set(key, _, m)`. -/
def setMem [DecidableEq K] (s : LRU K V) (key : K) (m : Int) : Int :=
  s.memory - (match findKey key (entries s) with
    | some e => e.2.2
    | none => 0) + m

@[simp] theorem setPrev_prev (h : Ptr → Node K V) (p q : Ptr) (x : Option Ptr) :
    ((setPrev h p x) q).prev = if q = p then x else (h q).prev := by
  unfold setPrev upd; split <;> simp_all

@[simp] theorem setPrev_next (h : Ptr → Node K V) (p q : Ptr) (x : Option Ptr) :
    ((setPrev h p x) q).next = (h q).next := by
  unfold setPrev upd; split <;> simp_all

@[simp] theorem setPrev_key (h : Ptr → Node K V) (p q : Ptr) (x : Option Ptr) :
    ((setPrev h p x) q).key = (h q).key := by
  unfold setPrev upd; split <;> simp_all

@[simp] theorem setPrev_value (h : Ptr → Node K V) (p q : Ptr) (x : Option Ptr) :
    ((setPrev h p x) q).value = (h q).value := by
  unfold setPrev upd; split <;> simp_all

@[simp] theorem setPrev_size (h : Ptr → Node K V) (p q : Ptr) (x : Option Ptr) :
    ((setPrev h p x) q).size = (h q).size := by
  unfold setPrev upd; split <;> simp_all

@[simp] theorem setNext_next (h : Ptr → Node K V) (p q : Ptr) (x : Option Ptr) :
    ((setNext h p x) q).next = if q = p then x else (h q).next := by
  unfold setNext upd; split <;> simp_all

@[simp] theorem setNext_prev (h : Ptr → Node K V) (p q : Ptr) (x : Option Ptr) :
    ((setNext h p x) q).prev = (h q).prev := by
  unfold setNext upd; split <;> simp_all

@[simp] theorem setNext_key (h : Ptr → Node K V) (p q : Ptr) (x : Option Ptr) :
    ((setNext h p x) q).key = (h q).key := by
  unfold setNext upd; split <;> simp_all

@[simp] theorem setNext_value (h : Ptr → Node K V) (p q : Ptr) (x : Option Ptr) :
    ((setNext h p x) q).value = (h q).value := by
  unfold setNext upd; split <;> simp_all

@[simp] theorem setNext_size (h : Ptr → Node K V) (p q : Ptr) (x : Option Ptr) :
    ((setNext h p x) q).size = (h q).size := by
  unfold setNext upd; split <;> simp_all

@[simp] theorem setValue_prev (h : Ptr → Node K V) (p q : Ptr) (x : V) :
    ((setValue h p x) q).prev = (h q).prev := by
  unfold setValue upd; split <;> simp_all

@[simp] theorem setValue_next (h : Ptr → Node K V) (p q : Ptr) (x : V) :
    ((setValue h p x) q).next = (h q).next := by
  unfold setValue upd; split <;> simp_all

@[simp] theorem setValue_key (h : Ptr → Node K V) (p q : Ptr) (x : V) :
    ((setValue h p x) q).key = (h q).key := by
  unfold setValue upd; split <;> simp_all

@[simp] theorem setValue_value (h : Ptr → Node K V) (p q : Ptr) (x : V) :
    ((setValue h p x) q).value = if q = p then x else (h q).value := by
  unfold setValue upd; split <;> simp_all

@[simp] theorem setValue_size (h : Ptr → Node K V) (p q : Ptr) (x : V) :
    ((setValue h p x) q).size = (h q).size := by
  unfold setValue upd; split <;> simp_all

@[simp] theorem setSize_prev (h : Ptr → Node K V) (p q : Ptr) (x : Int) :
    ((setSize h p x) q).prev = (h q).prev := by
  unfold setSize upd; split <;> simp_all

@[simp] theorem setSize_next (h : Ptr → Node K V) (p q : Ptr) (x : Int) :
    ((setSize h p x) q).next = (h q).next := by
  unfold setSize upd; split <;> simp_all

@[simp] theorem setSize_key (h : Ptr → Node K V) (p q : Ptr) (x : Int) :
    ((setSize h p x) q).key = (h q).key := by
  unfold setSize upd; split <;> simp_all

@[simp] theorem setSize_value (h : Ptr → Node K V) (p q : Ptr) (x : Int) :
    ((setSize h p x) q).value = (h q).value := by
  unfold setSize upd; split <;> simp_all

@[simp] theorem setSize_size (h : Ptr → Node K V) (p q : Ptr) (x : Int) :
    ((setSize h p x) q).size = if q = p then x else (h q).size := by
  unfold setSize upd; split <;> simp_all

theorem lru_remove_node_eq (s : LRU K V) (node : Ptr) :
    lru_remove_node s node =
      { s with
        first := if s.first = some node then (s.heap node).next else s.first
        last := if s.last = some node then (s.heap node).prev else s.last
        heap := removeHeap s.heap node } := by
  unfold lru_remove_node removeHeap
  by_cases h1 : s.first = some node <;> by_cases h2 : s.last = some node <;>
    cases h3 : (s.heap node).prev <;> simp [h1, h2, h3] <;> split <;> simp_all

theorem removeHeap_sameData (h : Ptr → Node K V) (p : Ptr) : SameData h (removeHeap h p) := by
  intro q
  unfold removeHeap
  cases h1 : (h p).prev <;> cases h2 : (h p).next <;> simp [h1, h2]

theorem removeHeap_self (h : Ptr → Node K V) (p : Ptr) :
    ((removeHeap h p) p).prev = none ∧ ((removeHeap h p) p).next = none := by
  simp [removeHeap]

theorem removeHeap_next (h : Ptr → Node K V) (p q : Ptr) (hq : q ≠ p) :
    ((removeHeap h p) q).next = if some q = (h p).prev then (h p).next else (h q).next := by
  unfold removeHeap
  cases h1 : (h p).prev <;> cases h2 : (h p).next <;> simp_all

theorem removeHeap_prev (h : Ptr → Node K V) (p q : Ptr) (hq : q ≠ p) :
    ((removeHeap h p) q).prev = if some q = (h p).next then (h p).prev else (h q).prev := by
  unfold removeHeap
  cases h1 : (h p).prev <;> cases h2 : (h p).next <;> simp_all

theorem seg_congr (h h' : Ptr → Node K V) :
    ∀ (l : List Ptr) (pv : Option Ptr),
      (∀ q ∈ l, (h' q).prev = (h q).prev ∧ (h' q).next = (h q).next) →
      Seg h pv l → Seg h' pv l := by
  intro l
  induction l with
  | nil => intro pv _ _; trivial
  | cons p rest ih =>
    intro pv hq hs
    obtain ⟨h1, h2, h3⟩ := hs
    have hp := hq p (List.mem_cons_self _ _)
    refine ⟨by rw [hp.1, h1], by rw [hp.2, h2], ?_⟩
    exact ih (some p) (fun q hqm => hq q (List.mem_cons_of_mem _ hqm)) h3

theorem seg_mid_next (h : Ptr → Node K V) (p : Ptr) (l2 : List Ptr) :
    ∀ (l1 : List Ptr) (pv : Option Ptr), Seg h pv (l1 ++ p :: l2) → (h p).next = l2.head? := by
  intro l1
  induction l1 with
  | nil => intro pv hs; exact hs.2.1
  | cons a l1 ih => intro pv hs; exact ih (some a) hs.2.2

theorem seg_mid_prev (h : Ptr → Node K V) (p : Ptr) (l2 : List Ptr) :
    ∀ (l1 : List Ptr) (pv : Option Ptr) (c : Ptr),
      Seg h pv ((l1 ++ [c]) ++ p :: l2) → (h p).prev = some c := by
  intro l1
  induction l1 with
  | nil => intro pv c hs; exact hs.2.2.1
  | cons a l1 ih => intro pv c hs; exact ih (some a) c hs.2.2

theorem seg_remove (h : Ptr → Node K V) (p : Ptr) (l2 : List Ptr) :
    ∀ (l1 : List Ptr) (pv : Option Ptr),
      (l1 ++ p :: l2).Nodup → (∀ a, pv = some a → a ∉ l1 ++ p :: l2) →
      Seg h pv (l1 ++ p :: l2) → Seg (removeHeap h p) pv (l1 ++ l2) := by
  intro l1
  induction l1 with
  | nil =>
    intro pv hnd hpv hs
    obtain ⟨hp1, hp2, hs2⟩ := hs
    simp only [List.nil_append] at hnd hpv ⊢
    cases l2 with
    | nil => trivial
    | cons b r =>
      obtain ⟨hb1, hb2, hs3⟩ := hs2
      have hnd' := List.nodup_cons.mp hnd
      have hbp : b ≠ p := fun e => hnd'.1 (e ▸ List.mem_cons_self _ _)
      have hnd2 := List.nodup_cons.mp hnd'.2
      have hpvb : pv ≠ some b := fun e => hpv b e (by simp)
      refine ⟨?_, ?_, ?_⟩
      · rw [removeHeap_prev h p b hbp, hp2, hp1]; simp
      · rw [removeHeap_next h p b hbp, hp1, hb2]
        simp [Ne.symm hpvb]
      · refine seg_congr h _ r (some b) ?_ hs3
        intro q hq
        have hqp : q ≠ p := fun e => hnd'.1 (e ▸ List.mem_cons_of_mem _ hq)
        have hqb : q ≠ b := fun e => hnd2.1 (e ▸ hq)
        have hpvq : pv ≠ some q := fun e => hpv q e (by simp [hq])
        rw [removeHeap_prev h p q hqp, removeHeap_next h p q hqp, hp1, hp2]
        simp [hqb, Ne.symm hpvq]
  | cons a l1 ih =>
    intro pv hnd hpv hs
    obtain ⟨ha1, ha2, hs2⟩ := hs
    have hnd' := List.nodup_cons.mp (by simpa using hnd : (a :: (l1 ++ p :: l2)).Nodup)
    have hap : a ≠ p := fun e => hnd'.1 (by simp [e])
    have hal2 : a ∉ l2 := fun e => hnd'.1 (by simp [e])
    have hal1 : a ∉ l1 := fun e => hnd'.1 (by simp [e])
    have ih' := ih (some a) hnd'.2 (fun c hc => by cases hc; exact hnd'.1) hs2
    have hnext := seg_mid_next h p l2 l1 (some a) hs2
    refine ⟨?_, ?_, ih'⟩
    · rw [removeHeap_prev h p a hap, hnext]
      have : some a ≠ l2.head? := by
        intro e
        exact hal2 (List.mem_of_mem_head? e.symm)
      simp [this, ha1]
    · rw [removeHeap_next h p a hap]
      rcases List.eq_nil_or_concat l1 with hl | ⟨L, c, hl⟩
      · subst hl
        have : (h p).prev = some a := hs2.1
        simp [this, hnext]
      · subst hl
        have hc : (h p).prev = some c :=
          seg_mid_prev h p l2 L (some a) c (by simpa [List.concat_eq_append] using hs2)
        have hac : a ≠ c := fun e => hal1 (by simp [e])
        rw [hc, ha2]
        simp [hac]

theorem lru_add_node_at_head_eq (s : LRU K V) (node : Ptr) :
    lru_add_node_at_head s node =
      { s with
        first := some node
        last := if s.first = none then some node else s.last
        heap := addHeap s.heap s.first node } := by
  unfold lru_add_node_at_head addHeap
  cases h1 : s.first <;> simp [h1]

theorem addHeap_sameData (h : Ptr → Node K V) (first : Option Ptr) (p : Ptr) :
    SameData h (addHeap h first p) := by
  intro q
  unfold addHeap
  cases first <;> simp

theorem sameData_refl (h : Ptr → Node K V) : SameData h h := fun _ => ⟨rfl, rfl, rfl⟩

theorem sameData_trans {h1 h2 h3 : Ptr → Node K V} (a : SameData h1 h2) (b : SameData h2 h3) :
    SameData h1 h3 := fun q =>
  ⟨(b q).1.trans (a q).1, (b q).2.1.trans (a q).2.1, (b q).2.2.trans (a q).2.2⟩

theorem isList_remove (h : Ptr → Node K V) (first last : Option Ptr) (l : List Ptr) (p : Ptr)
    (hl : IsList h first last l) (hp : p ∈ l) :
    IsList (removeHeap h p) (if first = some p then (h p).next else first)
      (if last = some p then (h p).prev else last) (l.erase p) := by
  obtain ⟨l1, l2, rfl⟩ := List.append_of_mem hp
  have hnd := hl.nodup
  have hp1 : p ∉ l1 := by
    intro hm
    have := List.nodup_append.mp hnd
    exact this.2.2 hm (List.mem_cons_self _ _)
  have hp2 : p ∉ l2 := by
    have := (List.nodup_append.mp hnd).2.1
    exact (List.nodup_cons.mp this).1
  have herase : (l1 ++ p :: l2).erase p = l1 ++ l2 := by
    rw [List.erase_append_right _ hp1]; simp
  have hnext := seg_mid_next h p l2 l1 none hl.seg
  rw [herase]
  refine ⟨?_, ?_, ?_, ?_⟩
  · rw [hl.first_eq]
    cases l1 with
    | nil => simp [hnext]
    | cons a l1 =>
      have : a ≠ p := fun e => hp1 (by simp [e])
      simp [this]
  · rw [hl.last_eq]
    rcases List.eq_nil_or_concat l2 with h2 | ⟨L, c, h2⟩
    · subst h2
      rcases List.eq_nil_or_concat l1 with h1 | ⟨L1, c1, h1⟩
      · subst h1
        have : (h p).prev = none := hl.seg.1
        simp [this]
      · subst h1
        have hc : (h p).prev = some c1 :=
          seg_mid_prev h p [] L1 none c1 (by simpa [List.concat_eq_append] using hl.seg)
        simp [hc, List.concat_eq_append]
    · subst h2
      have hcp : c ≠ p := fun e => hp2 (by simp [e, List.concat_eq_append])
      have e1 : (l1 ++ p :: L.concat c).getLast? = some c := by
        rw [List.concat_eq_append, show l1 ++ p :: (L ++ [c]) = (l1 ++ p :: L) ++ [c] by simp]
        exact List.getLast?_concat _
      have e2 : (l1 ++ L.concat c).getLast? = some c := by
        rw [List.concat_eq_append, ← List.append_assoc]
        exact List.getLast?_concat _
      rw [e1, e2]
      simp [hcp]
  · exact seg_remove h p l2 l1 none hnd (fun a ha => by cases ha) hl.seg
  · have := List.nodup_append.mp hnd
    refine List.nodup_append.mpr ⟨this.1, (List.nodup_cons.mp this.2.1).2, ?_⟩
    intro a ha1 ha2
    exact this.2.2 ha1 (List.mem_cons_of_mem _ ha2)

theorem isList_add (h : Ptr → Node K V) (first last : Option Ptr) (l : List Ptr) (p : Ptr)
    (hl : IsList h first last l) (hp : p ∉ l) :
    IsList (addHeap h first p) (some p) (if first = none then some p else last) (p :: l) := by
  cases l with
  | nil =>
    have hf : first = none := hl.first_eq
    subst hf
    refine ⟨rfl, by simp, ?_, by simp⟩
    simp [Seg, addHeap]
  | cons a r =>
    have hf : first = some a := hl.first_eq
    subst hf
    have hap : a ≠ p := fun e => hp (by simp [e])
    have hnd := List.nodup_cons.mp hl.nodup
    refine ⟨rfl, ?_, ?_, List.nodup_cons.mpr ⟨hp, hl.nodup⟩⟩
    · simp [hl.last_eq, List.getLast?_cons_cons]
    · obtain ⟨h1, h2, h3⟩ := hl.seg
      refine ⟨by simp [addHeap, Ne.symm hap], by simp [addHeap, Ne.symm hap], ?_, ?_, ?_⟩
      · simp [addHeap]
      · simp [addHeap, hap, h2]
      · refine seg_congr h _ r (some a) ?_ h3
        intro q hq
        have hqa : q ≠ a := fun e => hnd.1 (e ▸ hq)
        have hqp : q ≠ p := fun e => hp (by simp [← e, hq])
        simp [addHeap, hqa, hqp]

/-! ## The invariant and the walk -/

theorem collect_loop_eq_walk {α : Type} (h : Ptr → Node K V) (g : Node K V → α) :
    ∀ (fuel : Nat) (c : Option Ptr),
      collect_loop h g fuel c = (walk h fuel c).map (fun p => g (h p)) := by
  intro fuel
  induction fuel with
  | zero => intro c; simp [collect_loop, walk]
  | succ n ih =>
    intro c
    cases c with
    | none => simp [collect_loop, walk]
    | some p => simp [collect_loop, walk, ih]

theorem walk_of_seg (h : Ptr → Node K V) :
    ∀ (l : List Ptr) (pv : Option Ptr) (fuel : Nat),
      Seg h pv l → l.length ≤ fuel → walk h fuel l.head? = l := by
  intro l
  induction l with
  | nil => intro pv fuel _ _; cases fuel <;> simp [walk]
  | cons p rest ih =>
    intro pv fuel hs hlen
    cases fuel with
    | zero => simp at hlen
    | succ n =>
      simp only [List.head?_cons, walk]
      rw [hs.2.1, ih (some p) n hs.2.2 (by simpa using hlen)]

theorem Inv.snd_nodup {s : LRU K V} {l : List Ptr} (hi : Inv s l) :
    (s.dict.map Prod.snd).Nodup := by
  have hd : s.dict.Nodup := List.Nodup.of_map _ hi.keys_nodup
  refine List.Nodup.map_on ?_ hd
  intro x hx y hy hxy
  have h1 := (hi.dict_sub x hx).2
  have h2 := (hi.dict_sub y hy).2
  have hk : x.1 = y.1 := by rw [← h1, ← h2, hxy]
  have := List.inj_on_of_nodup_map hi.keys_nodup hx hy hk
  exact this

theorem Inv.length_eq {s : LRU K V} {l : List Ptr} (hi : Inv s l) :
    l.length = s.dict.length := by
  have hp : (s.dict.map Prod.snd).Perm l := by
    refine (List.perm_ext_iff_of_nodup hi.snd_nodup hi.list.nodup).mpr ?_
    intro a
    constructor
    · intro ha
      obtain ⟨kp, hkp, rfl⟩ := List.mem_map.mp ha
      exact (hi.dict_sub kp hkp).1
    · intro ha
      exact List.mem_map.mpr ⟨_, hi.list_sub a ha, rfl⟩
  simpa using hp.length_eq.symm

theorem Inv.chain_eq {s : LRU K V} {l : List Ptr} (hi : Inv s l) : chain s = l := by
  unfold chain lru_length
  rw [hi.list.first_eq]
  exact walk_of_seg s.heap l none _ hi.list.seg (le_of_eq hi.length_eq)

theorem wf_iff [DecidableEq K] (s : LRU K V) : WF s ↔ ∃ l, Inv s l := by
  constructor
  · rintro ⟨⟨h1, h2, h3, h4⟩, h5, h6, h7, h8⟩
    exact ⟨chain s, ⟨⟨h1, h2, h3, h4⟩, h5, h6, h7, h8⟩⟩
  · rintro ⟨l, hi⟩
    have := hi.chain_eq
    subst this
    exact ⟨⟨hi.list.first_eq, hi.list.last_eq, hi.list.seg, hi.list.nodup⟩, hi.keys_nodup,
      hi.dict_sub, hi.list_sub, hi.lt_brk⟩

theorem Inv.wf [DecidableEq K] {s : LRU K V} {l : List Ptr} (hi : Inv s l) : WF s :=
  (wf_iff s).mpr ⟨l, hi⟩

theorem WF.inv [DecidableEq K] {s : LRU K V} (hw : WF s) : Inv s (chain s) := by
  obtain ⟨l, hi⟩ := (wf_iff s).mp hw
  rw [hi.chain_eq]; exact hi

theorem Inv.collect_eq {α : Type} {s : LRU K V} {l : List Ptr} (hi : Inv s l)
    (g : Node K V → α) : collect s g = l.map (fun p => g (s.heap p)) := by
  unfold collect
  rw [collect_loop_eq_walk]
  have := hi.chain_eq
  unfold chain at this
  rw [this]

theorem Inv.entries_eq {s : LRU K V} {l : List Ptr} (hi : Inv s l) :
    entries s = l.map (fun p => get_entry (s.heap p)) := hi.collect_eq get_entry

/-! ## The dict -/

theorem getNode_eq_none_iff [DecidableEq K] (d : List (K × Ptr)) (k : K) :
    GET_NODE d k = none ↔ ∀ p, (k, p) ∉ d := by
  induction d with
  | nil => simp [GET_NODE]
  | cons kp rest ih =>
    obtain ⟨k', p'⟩ := kp
    unfold GET_NODE
    by_cases hk : k' = k
    · subst hk
      simp only [if_true]
      constructor
      · intro h; cases h
      · intro h; exact absurd (List.mem_cons_self _ _) (h p')
    · simp only [hk, if_false, ih]
      constructor
      · intro h p hm
        rcases List.mem_cons.mp hm with e | hm'
        · exact hk (by cases e; rfl)
        · exact h p hm'
      · intro h p hm
        exact h p (List.mem_cons_of_mem _ hm)

theorem getNode_eq_some_iff [DecidableEq K] (d : List (K × Ptr)) (k : K) (p : Ptr)
    (hnd : (d.map Prod.fst).Nodup) : GET_NODE d k = some p ↔ (k, p) ∈ d := by
  induction d with
  | nil => simp [GET_NODE]
  | cons kp rest ih =>
    obtain ⟨k', p'⟩ := kp
    have hnd' := List.nodup_cons.mp (by simpa using hnd : (k' :: rest.map Prod.fst).Nodup)
    unfold GET_NODE
    by_cases hk : k' = k
    · subst hk
      simp only [if_true]
      constructor
      · intro h; cases h; exact List.mem_cons_self _ _
      · intro hm
        rcases List.mem_cons.mp hm with e | hm'
        · cases e; rfl
        · exact absurd (List.mem_map.mpr ⟨_, hm', rfl⟩) hnd'.1
    · simp only [hk, if_false, ih hnd'.2]
      constructor
      · intro h; exact List.mem_cons_of_mem _ h
      · intro hm
        rcases List.mem_cons.mp hm with e | hm'
        · exact absurd (by cases e; rfl) hk
        · exact hm'

theorem dictSet_of_absent [DecidableEq K] (d : List (K × Ptr)) (k : K) (n : Ptr)
    (h : GET_NODE d k = none) : dictSet d k n = d ++ [(k, n)] := by
  induction d with
  | nil => simp [dictSet]
  | cons kp rest ih =>
    obtain ⟨k', p'⟩ := kp
    unfold GET_NODE at h
    by_cases hk : k' = k
    · simp [hk] at h
    · simp only [hk, if_false] at h
      simp [dictSet, hk, ih h]

theorem mem_dictDel [DecidableEq K] (d : List (K × Ptr)) (k : K) (kp : K × Ptr) :
    kp ∈ dictDel d k ↔ kp ∈ d ∧ kp.1 ≠ k := by
  simp [dictDel]

theorem dictDel_keys_nodup [DecidableEq K] (d : List (K × Ptr)) (k : K)
    (hnd : (d.map Prod.fst).Nodup) : ((dictDel d k).map Prod.fst).Nodup :=
  List.Nodup.sublist (List.Sublist.map _ (List.filter_sublist _)) hnd

/-! ## Steps that keep the invariant -/

theorem Inv.key_inj {s : LRU K V} {l : List Ptr} (hi : Inv s l) {p q : Ptr}
    (hp : p ∈ l) (hq : q ∈ l) (hk : (s.heap p).key = (s.heap q).key) : p = q := by
  have h1 := hi.list_sub p hp
  have h2 := hi.list_sub q hq
  rw [hk] at h1
  have := List.inj_on_of_nodup_map hi.keys_nodup h1 h2 rfl
  exact congrArg Prod.snd this

theorem inv_promote {s : LRU K V} {l : List Ptr} (hi : Inv s l) {n : Ptr} (hn : n ∈ l) :
    Inv (lru_add_node_at_head (lru_remove_node s n) n) (n :: l.erase n) := by
  rw [lru_add_node_at_head_eq, lru_remove_node_eq]
  have hsd : SameData s.heap (addHeap (removeHeap s.heap n)
      (if s.first = some n then (s.heap n).next else s.first) n) :=
    sameData_trans (removeHeap_sameData _ _) (addHeap_sameData _ _ _)
  have hmem : ∀ p, p ∈ n :: l.erase n ↔ p ∈ l := by
    intro p
    constructor
    · intro hp
      rcases List.mem_cons.mp hp with e | hp'
      · exact e ▸ hn
      · exact List.mem_of_mem_erase hp'
    · intro hp
      by_cases e : p = n
      · exact e ▸ List.mem_cons_self _ _
      · exact List.mem_cons_of_mem _ ((List.mem_erase_of_ne e).mpr hp)
  refine ⟨?_, hi.keys_nodup, ?_, ?_, ?_⟩
  · exact isList_add _ _ _ _ n (isList_remove _ _ _ l n hi.list hn)
      (fun hm => (List.Nodup.mem_erase_iff hi.list.nodup).mp hm |>.1 rfl)
  · intro kp hkp
    have := hi.dict_sub kp hkp
    exact ⟨(hmem _).mpr this.1, (hsd kp.2).1.trans this.2⟩
  · intro p hp
    have := hi.list_sub p ((hmem p).mp hp)
    show ((addHeap _ _ n p).key, p) ∈ s.dict
    rw [(hsd p).1]; exact this
  · intro p hp
    exact hi.lt_brk p ((hmem p).mp hp)

/-! ## Entry sequences of well-formed states -/

theorem find_map_unique {α : Type} [DecidableEq K] (g : α → K × V × Int) (k : K) (n : α) :
    ∀ (l : List α), n ∈ l → (g n).1 = k → (∀ q ∈ l, (g q).1 = k → q = n) →
      findKey k (l.map g) = some (g n) := by
  intro l
  induction l with
  | nil => intro hn; cases hn
  | cons a r ih =>
    intro hn hk hu
    unfold findKey
    rw [List.map_cons, List.find?_cons]
    by_cases ha : (g a).1 = k
    · have := hu a (List.mem_cons_self _ _) ha
      subst this
      simp [ha]
    · have hna : n ≠ a := fun e => ha (e ▸ hk)
      have hn' : n ∈ r := by
        rcases List.mem_cons.mp hn with e | h
        · exact absurd e hna
        · exact h
      simp only [ha, decide_False]
      exact ih hn' hk (fun q hq => hu q (List.mem_cons_of_mem _ hq))

theorem find_map_none {α : Type} [DecidableEq K] (g : α → K × V × Int) (k : K)
    (l : List α) (h : ∀ q ∈ l, (g q).1 ≠ k) : findKey k (l.map g) = none := by
  unfold findKey
  rw [List.find?_eq_none]
  intro e he
  obtain ⟨q, hq, rfl⟩ := List.mem_map.mp he
  simpa using h q hq

theorem erase_map_unique [DecidableEq K] (g : Ptr → K × V × Int) (k : K) (n : Ptr)
    (l : List Ptr) (hnd : l.Nodup) (hu : ∀ q ∈ l, ((g q).1 = k ↔ q = n)) :
    (l.erase n).map g = remKey k (l.map g) := by
  unfold remKey
  rw [List.Nodup.erase_eq_filter hnd, List.filter_map]
  congr 1
  apply List.filter_congr
  intro q hq
  have := hu q hq
  by_cases e : q = n
  · have h1 : (g q).1 = k := this.mpr e
    simp [e, e ▸ h1]
  · have h2 : (g q).1 ≠ k := fun h => e (this.mp h)
    simp [e, h2]

theorem Inv.findKey_eq [DecidableEq K] {s : LRU K V} {l : List Ptr} (hi : Inv s l) (key : K) :
    findKey key (entries s) = (GET_NODE s.dict key).map (fun n => get_entry (s.heap n)) := by
  rw [hi.entries_eq]
  cases hg : GET_NODE s.dict key with
  | none =>
    rw [getNode_eq_none_iff] at hg
    simp only [Option.map_none']
    apply find_map_none
    intro q hq hk
    have := hi.list_sub q hq
    exact hg q (by simpa [get_entry] using hk ▸ this)
  | some n =>
    rw [getNode_eq_some_iff _ _ _ hi.keys_nodup] at hg
    have hn := hi.dict_sub _ hg
    simp only [Option.map_some']
    apply find_map_unique (fun p => get_entry (s.heap p)) key n l hn.1 hn.2
    intro q hq hk
    exact hi.key_inj hq hn.1 (hk.trans hn.2.symm)

theorem Inv.contains_eq [DecidableEq K] {s : LRU K V} {l : List Ptr} (hi : Inv s l) (key : K) :
    LRU_contains_key s key = (findKey key (entries s)).isSome := by
  rw [hi.findKey_eq]
  unfold LRU_contains_key
  cases GET_NODE s.dict key <;> rfl

theorem Inv.peek_first_eq {s : LRU K V} {l : List Ptr} (hi : Inv s l) :
    LRU_peek_first_item s = (entries s).head?.map (fun e => (e.1, e.2.1)) := by
  rw [hi.entries_eq]
  unfold LRU_peek_first_item
  rw [hi.list.first_eq]
  cases l <;> simp [get_entry]

theorem Inv.of_eq {s s' : LRU K V} {l : List Ptr} (hi : Inv s l) (h1 : s'.heap = s.heap)
    (h2 : s'.first = s.first) (h3 : s'.last = s.last) (h4 : s'.dict = s.dict)
    (h5 : s'.brk = s.brk) : Inv s' l := by
  obtain ⟨⟨a1, a2, a3, a4⟩, b, c, d, e⟩ := hi
  refine ⟨⟨?_, ?_, ?_, a4⟩, ?_, ?_, ?_, ?_⟩
  · rw [h2]; exact a1
  · rw [h3]; exact a2
  · rw [h1]; exact a3
  · rw [h4]; exact b
  · rw [h4, h1]; exact c
  · rw [h4, h1]; exact d
  · rw [h5]; exact e

theorem get_entry_sameData {h h' : Ptr → Node K V} (hsd : SameData h h') (q : Ptr) :
    get_entry (h' q) = get_entry (h q) := by
  unfold get_entry
  rw [(hsd q).1, (hsd q).2.1, (hsd q).2.2]

theorem promote_sameData (s : LRU K V) (n : Ptr) :
    SameData s.heap (lru_add_node_at_head (lru_remove_node s n) n).heap := by
  rw [lru_add_node_at_head_eq, lru_remove_node_eq]
  exact sameData_trans (removeHeap_sameData _ _) (addHeap_sameData _ _ _)

theorem promote_fields (s : LRU K V) (n : Ptr) :
    let s' := lru_add_node_at_head (lru_remove_node s n) n
    s'.dict = s.dict ∧ s'.memory = s.memory ∧ s'.size = s.size ∧ s'.hits = s.hits ∧
      s'.clean = s.clean ∧ s'.misses = s.misses ∧ s'.callback = s.callback ∧
      s'.brk = s.brk ∧ s'.calls = s.calls := by
  rw [lru_add_node_at_head_eq, lru_remove_node_eq]
  simp

/-- Entries of a state whose node list is `n :: l.erase n`, the data being that of `s`. -/
theorem entries_promoted [DecidableEq K] {s s' : LRU K V} {l : List Ptr} (hi : Inv s l)
    {n : Ptr} (hn : n ∈ l) (hi' : Inv s' (n :: l.erase n)) (hsd : SameData s.heap s'.heap) :
    entries s' = get_entry (s.heap n) :: remKey (s.heap n).key (entries s) := by
  rw [hi'.entries_eq, hi.entries_eq, List.map_cons, get_entry_sameData hsd]
  congr 1
  rw [← erase_map_unique (fun p => get_entry (s.heap p)) (s.heap n).key n l hi.list.nodup]
  · apply List.map_congr_left
    intro q _
    exact get_entry_sameData hsd q
  · intro q hq
    constructor
    · intro hk
      exact hi.key_inj hq hn hk
    · intro e
      rw [e]; rfl

theorem absOf_eq {s' : LRU K V} {a : Abs K V} (h1 : entries s' = a.entries)
    (h2 : s'.memory = a.memory) (h3 : s'.size = a.size) (h4 : s'.hits = a.hits)
    (h5 : s'.clean = a.clean) (h6 : s'.misses = a.misses) (h7 : s'.callback = a.callback)
    (h8 : s'.calls = a.calls) : absOf s' = a := by
  cases a
  simp only [absOf] at *
  simp [h1, h2, h3, h4, h5, h6, h7, h8]

theorem sim_lookup [DecidableEq K] {s : LRU K V} (hw : WF s) (key : K) :
    WF (lru_subscript s key).1 ∧ absOf (lru_subscript s key).1 = (Abs.lookup (absOf s) key).1 ∧
      (lru_subscript s key).2 = (Abs.lookup (absOf s) key).2 := by
  have hi := hw.inv
  have hf := hi.findKey_eq key
  unfold lru_subscript Abs.lookup
  rw [show (absOf s).entries = entries s from rfl, hf]
  cases hg : GET_NODE s.dict key with
  | none =>
    have hi' : Inv { s with misses := s.misses + 1 } (chain s) := hi.of_eq rfl rfl rfl rfl rfl
    exact ⟨hi'.wf, absOf_eq rfl rfl rfl rfl rfl rfl rfl rfl, rfl⟩
  | some n =>
    have hn : n ∈ chain s ∧ (s.heap n).key = key :=
      hi.dict_sub _ ((getNode_eq_some_iff _ _ _ hi.keys_nodup).mp hg)
    simp only [Option.map_some']
    by_cases hfst : some n = s.first
    · simp only [hfst, ne_eq, not_true_eq_false, if_false]
      have hl : n :: (chain s).erase n = chain s := by
        have h1 := hi.list.first_eq
        rw [← hfst] at h1
        cases hc : chain s with
        | nil => rw [hc] at h1; cases h1
        | cons a r =>
          rw [hc] at h1
          simp only [List.head?_cons, Option.some.injEq] at h1
          subst h1
          simp
      have hi0 : Inv s (n :: (chain s).erase n) := by rw [hl]; exact hi
      have hi' : Inv { s with hits := s.hits + 1 } (n :: (chain s).erase n) :=
        hi0.of_eq rfl rfl rfl rfl rfl
      have he := entries_promoted hi hn.1 hi0 (sameData_refl _)
      rw [hn.2] at he
      exact ⟨hi'.wf, absOf_eq he rfl rfl rfl rfl rfl rfl rfl, rfl⟩
    · simp only [ne_eq, hfst, not_false_eq_true, if_true]
      have hp := inv_promote hi hn.1
      have hsd := promote_sameData s n
      obtain ⟨f1, f2, f3, f4, f5, f6, f7, f8, f9⟩ := promote_fields s n
      have hi' : Inv { lru_add_node_at_head (lru_remove_node s n) n with hits :=
          (lru_add_node_at_head (lru_remove_node s n) n).hits + 1 } (n :: (chain s).erase n) :=
        hp.of_eq rfl rfl rfl rfl rfl
      have he := entries_promoted hi hn.1 hp hsd
      rw [hn.2] at he
      refine ⟨hi'.wf, absOf_eq he f2 f3 ?_ f5 f6 f7 f9, ?_⟩
      · show (lru_add_node_at_head (lru_remove_node s n) n).hits + 1 = s.hits + 1
        rw [f4]
      · show Except.ok ((lru_add_node_at_head (lru_remove_node s n) n).heap n).value = _
        rw [(hsd n).2.1]
        rfl

/-! ## Eviction of the last node -/

theorem Inv.getNode_eq [DecidableEq K] {s : LRU K V} {l : List Ptr} (hi : Inv s l) {p : Ptr}
    (hp : p ∈ l) : GET_NODE s.dict (s.heap p).key = some p :=
  (getNode_eq_some_iff _ _ _ hi.keys_nodup).mpr (hi.list_sub p hp)

theorem lru_delete_last_eq [DecidableEq K] (s : LRU K V) (x : Ptr) (hx : s.last = some x)
    (hg : GET_NODE s.dict (s.heap x).key = some x) :
    lru_delete_last s =
      { s with
        dict := dictDel s.dict (s.heap x).key
        first := if s.first = some x then (s.heap x).next else s.first
        last := (s.heap x).prev
        heap := removeHeap s.heap x
        calls := if s.callback then s.calls ++ [((s.heap x).key, (s.heap x).value)]
          else s.calls } := by
  have hkey : (removeHeap s.heap x x).key = (s.heap x).key := (removeHeap_sameData s.heap x x).1
  unfold lru_delete_last
  rw [hx]
  by_cases hcb : s.callback = true <;>
    simp [lru_remove_node_eq, hkey, PUT_NODE, hg, hx, hcb]

theorem inv_delete_last [DecidableEq K] {s : LRU K V} {l : List Ptr} (hi : Inv s l) {x : Ptr}
    (hx : s.last = some x) : Inv (lru_delete_last s) l.dropLast := by
  obtain ⟨l', hl⟩ := List.getLast?_eq_some_iff.mp (hx ▸ hi.list.last_eq).symm
  subst hl
  have hnd := List.nodup_append.mp hi.list.nodup
  have hxl' : x ∉ l' := fun hm => hnd.2.2 hm (List.mem_singleton_self x)
  have hxl : x ∈ l' ++ [x] := by simp
  have herase : (l' ++ [x]).erase x = l' := by
    rw [List.erase_append_right _ hxl']; simp
  have hsd : SameData s.heap (removeHeap s.heap x) := removeHeap_sameData _ _
  have hget := hi.getNode_eq hxl
  rw [List.dropLast_concat, lru_delete_last_eq s x hx hget]
  have hlist := isList_remove _ _ _ _ x hi.list hxl
  rw [herase, hx] at hlist
  simp only [if_true] at hlist
  refine ⟨hlist, dictDel_keys_nodup _ _ hi.keys_nodup, ?_, ?_, ?_⟩
  · intro kp hkp
    have hkp' := (mem_dictDel _ _ _).mp hkp
    have h1 := hi.dict_sub kp hkp'.1
    refine ⟨?_, (hsd kp.2).1.trans h1.2⟩
    rcases List.mem_append.mp h1.1 with hm | hm
    · exact hm
    · exfalso
      rw [List.mem_singleton] at hm
      rw [hm] at h1
      exact hkp'.2 h1.2.symm
  · intro p hp
    have hpl : p ∈ l' ++ [x] := List.mem_append_left _ hp
    refine (mem_dictDel _ _ _).mpr ⟨?_, ?_⟩
    · show ((removeHeap s.heap x p).key, p) ∈ s.dict
      rw [(hsd p).1]; exact hi.list_sub p hpl
    · show (removeHeap s.heap x p).key ≠ (s.heap x).key
      rw [(hsd p).1]
      intro hk
      have := hi.key_inj hpl hxl hk
      exact hxl' (this ▸ hp)
  · intro p hp
    exact hi.lt_brk p (List.mem_append_left _ hp)

theorem Inv.getLast_entries {s : LRU K V} {l : List Ptr} (hi : Inv s l) :
    (entries s).getLast? = s.last.map (fun x => get_entry (s.heap x)) := by
  rw [hi.entries_eq, List.getLast?_map, hi.list.last_eq]

theorem vacuum_body_spec [DecidableEq K] {s : LRU K V} {l : List Ptr} (hi : Inv s l) {x : Ptr}
    (hx : s.last = some x) :
    Inv (lru_vacuum_body s x) l.dropLast ∧
      absOf (lru_vacuum_body s x) = Abs.vacuumBody (absOf s) (get_entry (s.heap x)) := by
  have hxl : x ∈ l := List.mem_of_mem_getLast? (by rw [← hi.list.last_eq, hx]; rfl)
  have hget := hi.getNode_eq hxl
  have hi1 : Inv { s with memory := s.memory - (s.heap x).size } l := hi.of_eq rfl rfl rfl rfl rfl
  have hi2 := inv_delete_last hi1 hx
  have heq := lru_delete_last_eq { s with memory := s.memory - (s.heap x).size } x hx hget
  have hi3 : Inv (lru_vacuum_body s x) l.dropLast := by
    unfold lru_vacuum_body
    exact hi2.of_eq rfl rfl rfl rfl rfl
  refine ⟨hi3, ?_⟩
  have hent : entries (lru_vacuum_body s x) = (entries s).dropLast := by
    rw [hi3.entries_eq, hi.entries_eq, ← List.map_dropLast]
    apply List.map_congr_left
    intro q _
    unfold lru_vacuum_body
    simp only [heq]
    exact get_entry_sameData (removeHeap_sameData s.heap x) q
  unfold Abs.vacuumBody
  refine absOf_eq hent ?_ ?_ ?_ ?_ ?_ ?_ ?_ <;> unfold lru_vacuum_body <;> simp only [heq] <;> rfl

theorem sim_vacuum_loop [DecidableEq K] :
    ∀ (fuel : Nat) (s : LRU K V), WF s → Sim (lru_vacuum_loop fuel s) (Abs.vacuumLoop fuel (absOf s)) := by
  intro fuel
  induction fuel with
  | zero =>
    intro s hw
    unfold lru_vacuum_loop Abs.vacuumLoop
    show Sim (if s.memory > s.size then _ else _) (if s.memory > s.size then _ else _)
    by_cases hm : s.memory > s.size
    · simp only [hm, if_true]; exact rfl
    · simp only [hm, if_false]; exact ⟨hw, rfl⟩
  | succ n ih =>
    intro s hw
    have hi := hw.inv
    unfold lru_vacuum_loop Abs.vacuumLoop
    show Sim (if s.memory > s.size then _ else _) (if s.memory > s.size then _ else _)
    by_cases hm : s.memory > s.size
    · simp only [hm, if_true]
      rw [show (absOf s).entries = entries s from rfl, hi.getLast_entries]
      cases hx : s.last with
      | none => exact rfl
      | some x =>
        obtain ⟨h1, h2⟩ := vacuum_body_spec hi hx
        simp only [Option.map_some']
        rw [← h2]
        exact ih _ h1.wf
    · simp only [hm, if_false]; exact ⟨hw, rfl⟩

theorem sim_vacuum [DecidableEq K] {s : LRU K V} (hw : WF s) :
    Sim (lru_vacuum s) (Abs.vacuum (absOf s)) := by
  unfold lru_vacuum Abs.vacuum
  have hi := hw.inv
  have : (absOf s).entries.length = lru_length s := by
    show (entries s).length = s.dict.length
    rw [hi.entries_eq, List.length_map, hi.length_eq]
  rw [this]
  exact sim_vacuum_loop _ s hw

theorem lru_add_node_at_head_heap (s : LRU K V) (n : Ptr) :
    (lru_add_node_at_head s n).heap = addHeap s.heap s.first n := by
  rw [lru_add_node_at_head_eq]

theorem lru_add_node_at_head_first (s : LRU K V) (n : Ptr) :
    (lru_add_node_at_head s n).first = some n := by
  rw [lru_add_node_at_head_eq]

theorem lru_add_node_at_head_last (s : LRU K V) (n : Ptr) :
    (lru_add_node_at_head s n).last = if s.first = none then some n else s.last := by
  rw [lru_add_node_at_head_eq]

theorem lru_remove_node_heap (s : LRU K V) (n : Ptr) :
    (lru_remove_node s n).heap = removeHeap s.heap n := by
  rw [lru_remove_node_eq]

theorem lru_remove_node_first (s : LRU K V) (n : Ptr) :
    (lru_remove_node s n).first = if s.first = some n then (s.heap n).next else s.first := by
  rw [lru_remove_node_eq]

theorem lru_remove_node_last (s : LRU K V) (n : Ptr) :
    (lru_remove_node s n).last = if s.last = some n then (s.heap n).prev else s.last := by
  rw [lru_remove_node_eq]

@[simp] theorem lru_add_node_at_head_dict (s : LRU K V) (n : Ptr) :
    (lru_add_node_at_head s n).dict = s.dict := by
  rw [lru_add_node_at_head_eq]

@[simp] theorem lru_add_node_at_head_memory (s : LRU K V) (n : Ptr) :
    (lru_add_node_at_head s n).memory = s.memory := by
  rw [lru_add_node_at_head_eq]

@[simp] theorem lru_add_node_at_head_size (s : LRU K V) (n : Ptr) :
    (lru_add_node_at_head s n).size = s.size := by
  rw [lru_add_node_at_head_eq]

@[simp] theorem lru_add_node_at_head_hits (s : LRU K V) (n : Ptr) :
    (lru_add_node_at_head s n).hits = s.hits := by
  rw [lru_add_node_at_head_eq]

@[simp] theorem lru_add_node_at_head_clean (s : LRU K V) (n : Ptr) :
    (lru_add_node_at_head s n).clean = s.clean := by
  rw [lru_add_node_at_head_eq]

@[simp] theorem lru_add_node_at_head_misses (s : LRU K V) (n : Ptr) :
    (lru_add_node_at_head s n).misses = s.misses := by
  rw [lru_add_node_at_head_eq]

@[simp] theorem lru_add_node_at_head_callback (s : LRU K V) (n : Ptr) :
    (lru_add_node_at_head s n).callback = s.callback := by
  rw [lru_add_node_at_head_eq]

@[simp] theorem lru_add_node_at_head_brk (s : LRU K V) (n : Ptr) :
    (lru_add_node_at_head s n).brk = s.brk := by
  rw [lru_add_node_at_head_eq]

@[simp] theorem lru_add_node_at_head_calls (s : LRU K V) (n : Ptr) :
    (lru_add_node_at_head s n).calls = s.calls := by
  rw [lru_add_node_at_head_eq]

@[simp] theorem lru_remove_node_dict (s : LRU K V) (n : Ptr) :
    (lru_remove_node s n).dict = s.dict := by
  rw [lru_remove_node_eq]

@[simp] theorem lru_remove_node_memory (s : LRU K V) (n : Ptr) :
    (lru_remove_node s n).memory = s.memory := by
  rw [lru_remove_node_eq]

@[simp] theorem lru_remove_node_size (s : LRU K V) (n : Ptr) :
    (lru_remove_node s n).size = s.size := by
  rw [lru_remove_node_eq]

@[simp] theorem lru_remove_node_hits (s : LRU K V) (n : Ptr) :
    (lru_remove_node s n).hits = s.hits := by
  rw [lru_remove_node_eq]

@[simp] theorem lru_remove_node_clean (s : LRU K V) (n : Ptr) :
    (lru_remove_node s n).clean = s.clean := by
  rw [lru_remove_node_eq]

@[simp] theorem lru_remove_node_misses (s : LRU K V) (n : Ptr) :
    (lru_remove_node s n).misses = s.misses := by
  rw [lru_remove_node_eq]

@[simp] theorem lru_remove_node_callback (s : LRU K V) (n : Ptr) :
    (lru_remove_node s n).callback = s.callback := by
  rw [lru_remove_node_eq]

@[simp] theorem lru_remove_node_brk (s : LRU K V) (n : Ptr) :
    (lru_remove_node s n).brk = s.brk := by
  rw [lru_remove_node_eq]

@[simp] theorem lru_remove_node_calls (s : LRU K V) (n : Ptr) :
    (lru_remove_node s n).calls = s.calls := by
  rw [lru_remove_node_eq]

/-! ## Assignment -/

theorem entries_promoted_of [DecidableEq K] {s s' : LRU K V} {l : List Ptr} (hi : Inv s l)
    {n : Ptr} (hn : n ∈ l) (hi' : Inv s' (n :: l.erase n))
    (hsd : ∀ q, q ≠ n → get_entry (s'.heap q) = get_entry (s.heap q)) :
    entries s' = get_entry (s'.heap n) :: remKey (s.heap n).key (entries s) := by
  rw [hi'.entries_eq, hi.entries_eq, List.map_cons]
  congr 1
  rw [← erase_map_unique (fun p => get_entry (s.heap p)) (s.heap n).key n l hi.list.nodup]
  · apply List.map_congr_left
    intro q hq
    exact hsd q (fun e => ((List.Nodup.mem_erase_iff hi.list.nodup).mp (e ▸ hq)).1 rfl)
  · intro q hq
    constructor
    · intro hk
      exact hi.key_inj hq hn hk
    · intro e
      rw [e]; rfl

/-- The state of `_lru_ass_sub` before the vacuum, for a key found at node `n`. -/
theorem assign_existing_spec [DecidableEq K] {s : LRU K V} {l : List Ptr} (hi : Inv s l)
    {n : Ptr} (hn : n ∈ l) (v : V) (m mem' : Int) :
    let s3 : LRU K V := { s with heap := setSize (setValue s.heap n v) n m, memory := mem' }
    let s5 := lru_add_node_at_head (lru_remove_node s3 n) n
    Inv s5 (n :: l.erase n) ∧
      absOf s5 = { absOf s with
        entries := ((s.heap n).key, v, m) :: remKey (s.heap n).key (entries s)
        memory := mem' } := by
  intro s3 s5
  have hi3 : Inv s3 l := by
    refine ⟨⟨hi.list.first_eq, hi.list.last_eq, ?_, hi.list.nodup⟩, hi.keys_nodup, ?_, ?_,
      hi.lt_brk⟩
    · exact seg_congr s.heap _ l none (fun q _ => by simp [s3]) hi.list.seg
    · intro kp hkp
      have := hi.dict_sub kp hkp
      exact ⟨this.1, by simpa [s3] using this.2⟩
    · intro p hp
      have := hi.list_sub p hp
      simpa [s3] using this
  have hi5 : Inv s5 (n :: l.erase n) := inv_promote hi3 hn
  have hsd := promote_sameData s3 n
  obtain ⟨f1, f2, f3, f4, f5, f6, f7, f8, f9⟩ := promote_fields s3 n
  refine ⟨hi5, ?_⟩
  have he := entries_promoted_of hi hn hi5 (fun q hq => by
    rw [get_entry_sameData hsd q]
    simp [get_entry, s3, hq])
  have hn5 : get_entry (s5.heap n) = ((s.heap n).key, v, m) := by
    rw [get_entry_sameData hsd n]
    simp [get_entry, s3]
  rw [hn5] at he
  exact absOf_eq he f2 f3 f4 f5 f6 f7 f9

/-- The state of `_lru_ass_sub` before the vacuum, for a key not in the dict. -/
theorem assign_new_spec [DecidableEq K] {s : LRU K V} {l : List Ptr} (hi : Inv s l)
    (key : K) (hg : GET_NODE s.dict key = none) (v : V) (m mem' : Int) :
    let s3 : LRU K V := { s with
      brk := s.brk + 1
      heap := upd s.heap s.brk { key := key, value := v, next := none, prev := none, size := m }
      memory := mem'
      dict := (PUT_NODE s.dict key (some s.brk)).1 }
    let s4 := lru_add_node_at_head s3 s.brk
    Inv s4 (s.brk :: l) ∧
      absOf s4 = { absOf s with entries := (key, v, m) :: entries s, memory := mem' } := by
  intro s3 s4
  have hnl : s.brk ∉ l := fun hm => Nat.lt_irrefl _ (hi.lt_brk _ hm)
  have hne : ∀ q ∈ l, q ≠ s.brk := fun q hq e => hnl (e ▸ hq)
  have hdict : s3.dict = s.dict ++ [(key, s.brk)] := by
    show (PUT_NODE s.dict key (some s.brk)).1 = _
    unfold PUT_NODE
    exact dictSet_of_absent _ _ _ hg
  have hl3 : IsList s3.heap s3.first s3.last l := by
    refine ⟨hi.list.first_eq, hi.list.last_eq, ?_, hi.list.nodup⟩
    refine seg_congr s.heap _ l none (fun q hq => ?_) hi.list.seg
    simp [s3, upd, hne q hq]
  have hsd := addHeap_sameData s3.heap s3.first s.brk
  have hh4 : s4.heap = addHeap s3.heap s3.first s.brk := lru_add_node_at_head_heap s3 s.brk
  have hkey : ∀ q, (s4.heap q).key = if q = s.brk then key else (s.heap q).key := by
    intro q
    rw [hh4, (hsd q).1]
    simp only [s3, upd]
    split <;> rfl
  have hent : ∀ q, get_entry (s4.heap q) =
      if q = s.brk then (key, v, m) else get_entry (s.heap q) := by
    intro q
    rw [hh4, get_entry_sameData hsd q]
    simp only [s3, upd]
    split <;> rfl
  have hd4 : s4.dict = s.dict ++ [(key, s.brk)] :=
    (lru_add_node_at_head_dict s3 s.brk).trans hdict
  have hb4 : s4.brk = s.brk + 1 := lru_add_node_at_head_brk s3 s.brk
  have hi4 : Inv s4 (s.brk :: l) := by
    refine ⟨?_, ?_, ?_, ?_, ?_⟩
    · show IsList (lru_add_node_at_head s3 s.brk).heap (lru_add_node_at_head s3 s.brk).first
        (lru_add_node_at_head s3 s.brk).last _
      rw [lru_add_node_at_head_heap, lru_add_node_at_head_first, lru_add_node_at_head_last]
      exact isList_add _ _ _ l s.brk hl3 hnl
    · rw [hd4, List.map_append, List.nodup_append]
      refine ⟨hi.keys_nodup, by simp, ?_⟩
      intro k hk hk'
      simp only [List.map_cons, List.map_nil, List.mem_singleton] at hk'
      subst hk'
      obtain ⟨kp, hkp, rfl⟩ := List.mem_map.mp hk
      exact (getNode_eq_none_iff _ _).mp hg kp.2 hkp
    · intro kp hkp
      rw [hd4] at hkp
      rcases List.mem_append.mp hkp with hm | hm
      · have := hi.dict_sub kp hm
        refine ⟨List.mem_cons_of_mem _ this.1, ?_⟩
        rw [hkey, if_neg (hne _ this.1)]; exact this.2
      · rw [List.mem_singleton] at hm
        subst hm
        exact ⟨List.mem_cons_self _ _, by rw [hkey]; simp⟩
    · intro p hp
      rw [hd4, hkey]
      rcases List.mem_cons.mp hp with e | hm
      · subst e; simp
      · rw [if_neg (hne _ hm)]
        exact List.mem_append_left _ (hi.list_sub p hm)
    · intro p hp
      rw [hb4]
      rcases List.mem_cons.mp hp with e | hm
      · subst e; exact Nat.lt_succ_self _
      · exact Nat.lt_succ_of_lt (hi.lt_brk p hm)
  refine ⟨hi4, ?_⟩
  have he : entries s4 = (key, v, m) :: entries s := by
    rw [hi4.entries_eq, hi.entries_eq, List.map_cons, hent, if_pos rfl]
    congr 1
    apply List.map_congr_left
    intro q hq
    rw [hent, if_neg (hne q hq)]
  exact absOf_eq he (lru_add_node_at_head_memory s3 _) (lru_add_node_at_head_size s3 _)
    (lru_add_node_at_head_hits s3 _) (lru_add_node_at_head_clean s3 _)
    (lru_add_node_at_head_misses s3 _) (lru_add_node_at_head_callback s3 _)
    (lru_add_node_at_head_calls s3 _)

@[simp] theorem absOf_entries (s : LRU K V) : (absOf s).entries = entries s := rfl

@[simp] theorem absOf_memory (s : LRU K V) : (absOf s).memory = s.memory := rfl

@[simp] theorem absOf_size (s : LRU K V) : (absOf s).size = s.size := rfl

@[simp] theorem absOf_hits (s : LRU K V) : (absOf s).hits = s.hits := rfl

@[simp] theorem absOf_clean (s : LRU K V) : (absOf s).clean = s.clean := rfl

@[simp] theorem absOf_misses (s : LRU K V) : (absOf s).misses = s.misses := rfl

@[simp] theorem absOf_callback (s : LRU K V) : (absOf s).callback = s.callback := rfl

@[simp] theorem absOf_calls (s : LRU K V) : (absOf s).calls = s.calls := rfl

theorem sim_of_vacuum [DecidableEq K] {s : LRU K V} {a : Abs K V} (hw : WF s) (ha : absOf s = a)
    (c : Int) :
    Sim (match (match lru_vacuum s with
          | .ok self => (Except.ok (self, c) : Except Fault (LRU K V × Int))
          | .error e => .error e) with
        | .ok r => .ok r.1
        | .error e => .error e) (Abs.vacuum a) := by
  have h := sim_vacuum hw
  rw [ha] at h
  cases hv : lru_vacuum s with
  | ok s' => rw [hv] at h; exact h
  | error e => rw [hv] at h; exact h

theorem sim_set [DecidableEq K] {s : LRU K V} (hw : WF s) (key : K) (v : V) (m : Int) :
    Sim (LRU_set s key v m) (Abs.assign (absOf s) key v m) := by
  have hi := hw.inv
  unfold LRU_set _lru_ass_sub Abs.assign
  simp only [absOf_size, absOf_entries, absOf_memory]
  by_cases hm : m > s.size
  · simp only [hm, if_true]
    exact ⟨hw, rfl⟩
  · simp only [hm, if_false]
    rw [hi.findKey_eq key]
    cases hg : GET_NODE s.dict key with
    | some n =>
      have hn : n ∈ chain s ∧ (s.heap n).key = key :=
        hi.dict_sub _ ((getNode_eq_some_iff _ _ _ hi.keys_nodup).mp hg)
      obtain ⟨h5, ha5⟩ := assign_existing_spec hi hn.1 v m (s.memory - (s.heap n).size + m)
      rw [hn.2] at ha5
      simp only [Option.map_some', setValue_size]
      exact sim_of_vacuum h5.wf ha5 0
    | none =>
      obtain ⟨h4, ha4⟩ := assign_new_spec hi key hg v m (s.memory + m)
      simp only [Option.map_none']
      exact sim_of_vacuum h4.wf ha4 _

/-! ## Vacuum on entry sequences -/

theorem total_nil : total ([] : List (K × V × Int)) = 0 := rfl

theorem total_cons (e : K × V × Int) (es : List (K × V × Int)) :
    total (e :: es) = e.2.2 + total es := by
  simp [total]

theorem total_append (es fs : List (K × V × Int)) : total (es ++ fs) = total es + total fs := by
  simp [total]

theorem Abs.vacuumLoop_of_le (n : Nat) (a : Abs K V) (h : a.memory ≤ a.size) :
    Abs.vacuumLoop n a = .ok a := by
  cases n <;> simp [Abs.vacuumLoop, not_lt.mpr h]

theorem Abs.vacuum_of_le (a : Abs K V) (h : a.memory ≤ a.size) : Abs.vacuum a = .ok a :=
  Abs.vacuumLoop_of_le _ a h

/-- Vacuum in an accounted state keeps the longest prefix that fits. -/
theorem Abs.vacuumLoop_accounted :
    ∀ (n : Nat) (a : Abs K V), a.entries.length < n → a.memory = total a.entries →
      (∀ e ∈ a.entries, 0 ≤ e.2.2) → 0 ≤ a.size → (∀ e ∈ a.entries.head?, e.2.2 ≤ a.size) →
      ∃ j, j ≤ a.entries.length ∧ (a.entries ≠ [] → 1 ≤ j) ∧
        Abs.vacuumLoop n a = .ok
          { a with
            entries := a.entries.take j
            memory := total (a.entries.take j)
            clean := a.clean + ((a.entries.length - j : Nat) : Int)
            calls := a.calls ++
              (if a.callback then ((a.entries.drop j).reverse.map (fun e => (e.1, e.2.1)))
                else []) } ∧
        total (a.entries.take j) ≤ a.size ∧
        ∀ i, i ≤ a.entries.length → total (a.entries.take i) ≤ a.size → i ≤ j := by
  intro n
  induction n with
  | zero => intro a h; exact absurd h (Nat.not_lt_zero _)
  | succ n ih =>
    intro a hlen hmem hnn hsz hhead
    by_cases hm : a.memory > a.size
    · -- at least one eviction
      rcases List.eq_nil_or_concat a.entries with hnil | ⟨es, e, hes⟩
      · rw [hnil, total_nil] at hmem
        omega
      · rw [List.concat_eq_append] at hes
        have hes_ne : es ≠ [] := by
          rintro rfl
          have h1 : e.2.2 ≤ a.size := hhead e (by rw [hes]; rfl)
          rw [hes] at hmem
          simp [total] at hmem
          omega
        have hlast : a.entries.getLast? = some e := by rw [hes]; exact List.getLast?_concat _
        have hdrop : a.entries.dropLast = es := by rw [hes]; exact List.dropLast_concat
        have hlen' : a.entries.length = es.length + 1 := by rw [hes]; simp
        have hb : (Abs.vacuumBody a e).entries = es := hdrop
        obtain ⟨j, hj, hj1, hrun, htot, hmax⟩ := ih (Abs.vacuumBody a e)
          (by rw [hb]; omega)
          (by
            show a.memory - e.2.2 = total (Abs.vacuumBody a e).entries
            rw [hb, hmem, hes, total_append, total_cons, total_nil]; ring)
          (by
            rw [hb]; intro x hx
            exact hnn x (by rw [hes]; exact List.mem_append_left _ hx))
          hsz
          (by
            rw [hb]; intro x hx
            refine hhead x ?_
            rw [hes]
            cases es with
            | nil => exact absurd rfl hes_ne
            | cons y ys => exact hx)
        rw [hb] at hj hj1 hrun htot hmax
        have htake : ∀ i, i ≤ es.length → a.entries.take i = es.take i := by
          intro i hi
          rw [hes, List.take_append_of_le_length hi]
        refine ⟨j, by omega, fun _ => hj1 hes_ne, ?_, by rw [htake j hj]; exact htot, ?_⟩
        · unfold Abs.vacuumLoop
          simp only [hm, if_true, hlast]
          rw [hrun, htake j hj]
          have hd : a.entries.drop j = es.drop j ++ [e] := by
            rw [hes, List.drop_append_of_le_length hj]
          congr 1
          simp only [Abs.vacuumBody, hdrop, hd, hlen']
          congr 1
          · have : ((es.length + 1 - j : Nat) : Int) = ((es.length - j : Nat) : Int) + 1 := by
              omega
            rw [this]; ring
          · cases a.callback <;> simp
        · intro i hi hti
          by_cases hie : i ≤ es.length
          · rw [htake i hie] at hti
            exact hmax i hie hti
          · have : i = a.entries.length := by omega
            rw [this, List.take_length, ← hmem] at hti
            omega
    · refine ⟨a.entries.length, le_refl _, ?_, ?_, ?_, ?_⟩
      · intro hne
        cases h : a.entries with
        | nil => exact absurd h hne
        | cons x xs => simp
      · rw [Abs.vacuumLoop_of_le _ _ (not_lt.mp hm)]
        congr 1
        cases a
        simp only [List.take_length, List.drop_length, Nat.sub_self] at *
        simp [hmem]
      · rw [List.take_length, ← hmem]; exact not_lt.mp hm
      · intro i hi _; exact hi

/-- With more fuel than entries the vacuum on entry sequences never runs out of fuel. -/
theorem Abs.vacuumLoop_ne_fuel :
    ∀ (n : Nat) (a : Abs K V), a.entries.length < n → Abs.vacuumLoop n a ≠ .error .fuel := by
  intro n
  induction n with
  | zero => intro a h; exact absurd h (Nat.not_lt_zero _)
  | succ n ih =>
    intro a hlen
    unfold Abs.vacuumLoop
    by_cases hm : a.memory > a.size
    · simp only [hm, if_true]
      cases hl : a.entries.getLast? with
      | none => simp
      | some e =>
        simp only []
        apply ih
        show a.entries.dropLast.length < n
        rw [List.length_dropLast]
        have : a.entries ≠ [] := by
          intro h0
          rw [h0] at hl
          cases hl
        have := List.length_pos.mpr this
        omega
    · simp [hm]

/-- On a well-formed state the bound `lru_length + 1` on the iterations of the
vacuum loop is never reached: the loop ends normally or stops at a `NULL` last. -/
theorem lru_vacuum_ne_fuel [DecidableEq K] {s : LRU K V} (hw : WF s) :
    lru_vacuum s ≠ .error .fuel := by
  intro h
  have hsim := sim_vacuum hw
  rw [h] at hsim
  have hne := Abs.vacuumLoop_ne_fuel ((absOf s).entries.length + 1) (absOf s) (Nat.lt_succ_self _)
  unfold Abs.vacuum at hsim
  cases hv : Abs.vacuumLoop ((absOf s).entries.length + 1) (absOf s) with
  | ok a => rw [hv] at hsim; exact hsim
  | error e =>
    rw [hv] at hsim hne
    have : Fault.fuel = e := hsim
    exact hne (by rw [this])

/-! ## Keys of entry sequences -/

theorem Inv.entries_keys_nodup {s : LRU K V} {l : List Ptr} (hi : Inv s l) :
    ((entries s).map Prod.fst).Nodup := by
  rw [hi.entries_eq, List.map_map]
  refine List.Nodup.map_on ?_ hi.list.nodup
  intro p hp q hq hk
  exact hi.key_inj hp hq hk

theorem remKey_of_findKey_none [DecidableEq K] (k : K) (es : List (K × V × Int))
    (h : findKey k es = none) : remKey k es = es := by
  unfold findKey at h
  unfold remKey
  rw [List.find?_eq_none] at h
  rw [List.filter_eq_self]
  intro e he
  simpa using h e he

theorem findKey_none_of_not_mem [DecidableEq K] (k : K) (es : List (K × V × Int))
    (h : k ∉ es.map Prod.fst) : findKey k es = none := by
  unfold findKey
  rw [List.find?_eq_none]
  intro e he
  simp only [decide_eq_true_eq]
  intro hk
  exact h (List.mem_map.mpr ⟨e, he, hk⟩)

theorem findKey_cons [DecidableEq K] (k : K) (e : K × V × Int) (es : List (K × V × Int)) :
    findKey k (e :: es) = if e.1 = k then some e else findKey k es := by
  unfold findKey
  rw [List.find?_cons]
  by_cases h : e.1 = k <;> simp [h]

theorem remKey_cons [DecidableEq K] (k : K) (e : K × V × Int) (es : List (K × V × Int)) :
    remKey k (e :: es) = if e.1 = k then remKey k es else e :: remKey k es := by
  unfold remKey
  rw [List.filter_cons]
  by_cases h : e.1 = k <;> simp [h]

theorem findKey_some_key [DecidableEq K] {k : K} {es : List (K × V × Int)} {e : K × V × Int}
    (h : findKey k es = some e) : e.1 = k ∧ e ∈ es := by
  unfold findKey at h
  exact ⟨by simpa using List.find?_some h, List.mem_of_find?_eq_some h⟩

/-- With distinct keys, removing a key takes out exactly the entry found under it. -/
theorem remKey_split [DecidableEq K] (k : K) :
    ∀ (es : List (K × V × Int)), (es.map Prod.fst).Nodup →
      total es = total (remKey k es) + (match findKey k es with
        | some e => e.2.2
        | none => 0) ∧
      es.length = (remKey k es).length + (match findKey k es with
        | some _ => 1
        | none => 0) ∧
      (∀ e, findKey k es = some e → (e :: remKey k es).Perm es) := by
  intro es
  induction es with
  | nil => intro _; simp [remKey, findKey, total]
  | cons a r ih =>
    intro hnd
    have hnd' := List.nodup_cons.mp (by simpa using hnd : (a.1 :: r.map Prod.fst).Nodup)
    obtain ⟨ih1, ih2, ih3⟩ := ih hnd'.2
    rw [findKey_cons, remKey_cons]
    by_cases ha : a.1 = k
    · have hnone : findKey k r = none := findKey_none_of_not_mem k r (ha ▸ hnd'.1)
      have hrem : remKey k r = r := remKey_of_findKey_none k r hnone
      simp only [ha, if_true, hrem, total_cons]
      refine ⟨by ring, rfl, ?_⟩
      intro e he
      cases he
      exact List.Perm.refl _
    · simp only [ha, if_false, total_cons, List.length_cons]
      refine ⟨by rw [ih1]; ring, by rw [ih2]; ring, ?_⟩
      intro e he
      exact (List.Perm.swap a e _).trans (List.Perm.cons a (ih3 e he))

theorem mem_remKey [DecidableEq K] (k : K) (es : List (K × V × Int)) (e : K × V × Int) :
    e ∈ remKey k es ↔ e ∈ es ∧ e.1 ≠ k := by
  simp [remKey]

theorem remKey_keys_nodup [DecidableEq K] (k : K) (es : List (K × V × Int))
    (h : (es.map Prod.fst).Nodup) : ((remKey k es).map Prod.fst).Nodup :=
  List.Nodup.sublist (List.Sublist.map _ (List.filter_sublist _)) h

theorem sim_ok [DecidableEq K] {r : Except Fault (LRU K V)} {a : Abs K V}
    (h : Sim r (.ok a)) : ∃ s', r = .ok s' ∧ WF s' ∧ absOf s' = a := by
  cases r with
  | ok s' => exact ⟨s', rfl, h⟩
  | error e => exact absurd h (by simp [Sim])

/-! ## Assignment on entry sequences -/

/-- The state handed to the vacuum by an accepted assignment. -/
theorem Abs.assign_eq [DecidableEq K] (a : Abs K V) (key : K) (v : V) (m : Int)
    (hm : m ≤ a.size) :
    Abs.assign a key v m =
      Abs.vacuum { a with
        entries := (key, v, m) :: remKey key a.entries
        memory := a.memory - (match findKey key a.entries with
          | some e => e.2.2
          | none => 0) + m } := by
  unfold Abs.assign
  rw [if_neg (not_lt.mpr hm)]
  cases h : findKey key a.entries with
  | some e => rfl
  | none => simp only [remKey_of_findKey_none key _ h, sub_zero]

theorem Abs.assign_accounted [DecidableEq K] (a : Abs K V) (key : K) (v : V) (m : Int)
    (hk : (a.entries.map Prod.fst).Nodup) (hmem : a.memory = total a.entries)
    (hnn : ∀ e ∈ a.entries, 0 ≤ e.2.2) (h0 : 0 ≤ m) (hm : m ≤ a.size) :
    ∃ j, 1 ≤ j ∧ j ≤ ((key, v, m) :: remKey key a.entries).length ∧
      Abs.assign a key v m = .ok
        { a with
          entries := ((key, v, m) :: remKey key a.entries).take j
          memory := total (((key, v, m) :: remKey key a.entries).take j)
          clean := a.clean + ((((key, v, m) :: remKey key a.entries).length - j : Nat) : Int)
          calls := a.calls ++
            (if a.callback then
              ((((key, v, m) :: remKey key a.entries).drop j).reverse.map (fun e => (e.1, e.2.1)))
              else []) } ∧
      total (((key, v, m) :: remKey key a.entries).take j) ≤ a.size ∧
      ∀ i, i ≤ ((key, v, m) :: remKey key a.entries).length →
        total (((key, v, m) :: remKey key a.entries).take i) ≤ a.size → i ≤ j := by
  rw [Abs.assign_eq a key v m hm]
  have hsplit := (remKey_split key a.entries hk).1
  obtain ⟨j, hj, hj1, hrun, htot, hmax⟩ := Abs.vacuumLoop_accounted
    (((key, v, m) :: remKey key a.entries).length + 1)
    { a with
      entries := (key, v, m) :: remKey key a.entries
      memory := a.memory - (match findKey key a.entries with
        | some e => e.2.2
        | none => 0) + m }
    (Nat.lt_succ_self _)
    (by
      show a.memory - _ + m = total ((key, v, m) :: remKey key a.entries)
      rw [total_cons, hmem, hsplit]; ring)
    (by
      intro e he
      rcases List.mem_cons.mp he with rfl | h
      · exact h0
      · exact hnn e ((mem_remKey _ _ _).mp h).1)
    (le_trans h0 hm)
    (by
      intro e he
      cases he
      exact hm)
  exact ⟨j, hj1 (by simp), hj, hrun, htot, hmax⟩

/-! ## Sized assignment in accounted states -/

/-- An accepted `set` in an accounted, well-formed state: the result keeps the
longest prefix of the new entry followed by the other old entries that fits. -/
theorem set_accounted [DecidableEq K] {s : LRU K V} (hw : WF s) (ha : Accounted s)
    (key : K) (value : V) (size : Int) (h0 : 0 ≤ size) (hm : size ≤ s.size) :
    ∃ s' j, LRU_set s key value size = .ok s' ∧ WF s' ∧ 1 ≤ j ∧
      j ≤ ((key, value, size) :: remKey key (entries s)).length ∧
      absOf s' =
        { absOf s with
          entries := ((key, value, size) :: remKey key (entries s)).take j
          memory := total (((key, value, size) :: remKey key (entries s)).take j)
          clean := s.clean +
            ((((key, value, size) :: remKey key (entries s)).length - j : Nat) : Int)
          calls := s.calls ++
            (if s.callback then
              ((((key, value, size) :: remKey key (entries s)).drop j).reverse.map
                (fun e => (e.1, e.2.1)))
              else []) } ∧
      total (((key, value, size) :: remKey key (entries s)).take j) ≤ s.size ∧
      ∀ i, i ≤ ((key, value, size) :: remKey key (entries s)).length →
        total (((key, value, size) :: remKey key (entries s)).take i) ≤ s.size → i ≤ j := by
  have hi := hw.inv
  obtain ⟨j, hj1, hj, hrun, htot, hmax⟩ := Abs.assign_accounted (absOf s) key value size
    hi.entries_keys_nodup ha.1 ha.2 h0 hm
  have hsim := sim_set hw key value size
  rw [hrun] at hsim
  obtain ⟨s', hs', hw', habs⟩ := sim_ok hsim
  exact ⟨s', j, hs', hw', hj1, hj, habs, htot, hmax⟩

/-! ## The claims -/

/-- C1: a `set` whose size exceeds the capacity returns at once with the very
same state, whatever the key: entries, memory, capacity, hit, miss and eviction
counters and the record of callback invocations are all as before. -/
theorem C1_oversize_set_unchanged [DecidableEq K] (s : LRU K V) (key : K) (value : V)
    (size : Int) (h : size > s.size) :
    LRU_set s key value size = .ok s ∧ _lru_ass_sub s key (some value) size = .ok (s, 0) := by
  unfold LRU_set _lru_ass_sub
  simp [h]

theorem C1_oversize_set_unchanged_witness :
    (11 : Int) > demoAB.size ∧ LRU_contains_key demoAB "a" = true ∧
      LRU_set demoAB "a" 7 11 = .ok demoAB ∧
      _lru_ass_sub demoAB "a" (some 7) 11 = .ok (demoAB, 0) :=
  ⟨by decide, by decide, C1_oversize_set_unchanged demoAB "a" 7 11 (by decide)⟩

/-- C3: in a well-formed accounted state, `set(key, value, size)` with
`0 ≤ size ≤ capacity` never evicts the entry it has just written: afterwards
the key is in the dict, its node is the head of the list and holds `value` and
`size`, `contains(key)` is true and `peek_first_item()` is `(key, value)`. -/
theorem C3_set_keeps_new_entry [DecidableEq K] (s : LRU K V) (key : K) (value : V)
    (size : Int) (hw : WF s) (ha : Accounted s) (h0 : 0 ≤ size) (hm : size ≤ s.size) :
    ∃ s', LRU_set s key value size = .ok s' ∧ LRU_contains_key s' key = true ∧
      LRU_peek_first_item s' = some (key, value) ∧
      ∃ n, GET_NODE s'.dict key = some n ∧ s'.first = some n ∧
        (s'.heap n).value = value ∧ (s'.heap n).size = size := by
  obtain ⟨s', j, hs', hw', hj1, hj, habs, _, _⟩ := set_accounted hw ha key value size h0 hm
  have hi' := hw'.inv
  have hent : entries s' = ((key, value, size) :: remKey key (entries s)).take j :=
    congrArg Abs.entries habs
  obtain ⟨j', rfl⟩ : ∃ j', j = j' + 1 := ⟨j - 1, by omega⟩
  rw [List.take_succ_cons] at hent
  have hfind : findKey key (entries s') = some (key, value, size) := by
    rw [hent, findKey_cons]; simp
  have hpeek : LRU_peek_first_item s' = some (key, value) := by
    rw [hi'.peek_first_eq, hent]; rfl
  have hcont : LRU_contains_key s' key = true := by
    rw [hi'.contains_eq, hfind]; rfl
  refine ⟨s', hs', hcont, hpeek, ?_⟩
  rw [hi'.findKey_eq] at hfind
  cases hg : GET_NODE s'.dict key with
  | none => rw [hg] at hfind; cases hfind
  | some n =>
    rw [hg] at hfind
    simp only [Option.map_some', Option.some.injEq, get_entry, Prod.mk.injEq] at hfind
    refine ⟨n, rfl, ?_, hfind.2.1, hfind.2.2⟩
    -- the head of the list is the node of the first entry
    have hfe := hi'.entries_eq
    rw [hent] at hfe
    rw [hi'.list.first_eq]
    cases hc : chain s' with
    | nil => rw [hc] at hfe; cases hfe
    | cons p r =>
      rw [hc] at hfe
      simp only [List.map_cons, List.cons.injEq, get_entry, Prod.mk.injEq] at hfe
      have hp : p ∈ chain s' := by rw [hc]; exact List.mem_cons_self _ _
      have hgp := hi'.getNode_eq hp
      rw [← hfe.1.1, hg] at hgp
      simp only [List.head?_cons]
      exact hgp.symm

theorem C3_set_keeps_new_entry_witness :
    WF demoAB ∧ Accounted demoAB ∧ (0 : Int) ≤ 9 ∧ (9 : Int) ≤ demoAB.size ∧
      ∃ s', LRU_set demoAB "a" 5 9 = .ok s' ∧ LRU_contains_key s' "a" = true ∧
        LRU_peek_first_item s' = some ("a", 5) ∧
        ∃ n, GET_NODE s'.dict "a" = some n ∧ s'.first = some n ∧
          (s'.heap n).value = 5 ∧ (s'.heap n).size = 9 :=
  ⟨by decide, by decide, by decide, by decide,
    C3_set_keeps_new_entry demoAB "a" 5 9 (by decide) (by decide) (by decide) (by decide)⟩

/-- After a `set` with `0 ≤ size ≤ capacity` on a well-formed accounted state
the field `memory` is within the field `size`. -/
theorem set_restores_bound [DecidableEq K] (s : LRU K V) (key : K) (value : V) (size : Int)
    (hw : WF s) (ha : Accounted s) (h0 : 0 ≤ size) (hm : size ≤ s.size) :
    ∃ s', LRU_set s key value size = .ok s' ∧ s'.memory ≤ s'.size := by
  obtain ⟨s', j, hs', _, _, _, habs, htot, _⟩ := set_accounted hw ha key value size h0 hm
  refine ⟨s', hs', ?_⟩
  have h1 : s'.memory = total (((key, value, size) :: remKey key (entries s)).take j) :=
    congrArg Abs.memory habs
  have h2 : s'.size = s.size := congrArg Abs.size habs
  rw [h1, h2]; exact htot

/-- C5 fails on the code: in the cache built by `LRU(2147483648)`, a well-formed
accounted state, `set('a', 1, 1)` leaves the field `memory` (1) within the field
`size` (2147483648), but `get_size()` converts the field with the format `i` and
answers -2147483648, so `get_memory() ≤ get_size()` does not hold. -/
theorem C5_get_size_below_memory :
    ∃ s0 s1, LRU_init_args (K := String) (V := Nat) 2147483648 none = .ok s0 ∧
      WF s0 ∧ Accounted s0 ∧ (0 : Int) ≤ 1 ∧ (1 : Int) ≤ s0.size ∧
      LRU_set s0 "a" 1 1 = .ok s1 ∧
      s1.memory = 1 ∧ s1.size = 2147483648 ∧
      LRU_memory s1 = 1 ∧ LRU_get_size s1 = -2147483648 ∧
      ¬ LRU_memory s1 ≤ LRU_get_size s1 :=
  ⟨_, _, rfl, by decide, by decide, by decide, by decide, rfl, by decide, by decide, by decide,
    by decide, by decide⟩

theorem Inv.keys_eq {s : LRU K V} {l : List Ptr} (hi : Inv s l) :
    LRU_keys s = (entries s).map Prod.fst := by
  unfold LRU_keys
  rw [hi.collect_eq, hi.entries_eq, List.map_map]
  rfl

theorem remKey_map_fst [DecidableEq K] (k : K) (es : List (K × V × Int))
    (hnd : (es.map Prod.fst).Nodup) :
    (remKey k es).map Prod.fst = (es.map Prod.fst).erase k := by
  rw [List.Nodup.erase_eq_filter hnd]
  unfold remKey
  rw [List.filter_map]
  congr 1
  apply List.filter_congr
  intro e _
  by_cases h : e.1 = k <;> simp [h]

/-- Lookup keeps a state accounted. -/
theorem accounted_lookup [DecidableEq K] {s : LRU K V} (hw : WF s) (ha : Accounted s) (key : K) :
    Accounted (lru_subscript s key).1 := by
  have hi := hw.inv
  obtain ⟨_, habs, _⟩ := sim_lookup hw key
  have hent : entries (lru_subscript s key).1 = (Abs.lookup (absOf s) key).1.entries :=
    congrArg Abs.entries habs
  have hmem : (lru_subscript s key).1.memory = (Abs.lookup (absOf s) key).1.memory :=
    congrArg Abs.memory habs
  unfold Abs.lookup at hent hmem
  simp only [absOf_entries] at hent hmem
  unfold Accounted
  cases hf : findKey key (entries s) with
  | none =>
    rw [hf] at hent hmem
    rw [hent, hmem]
    exact ha
  | some e =>
    rw [hf] at hent hmem
    have hperm := (remKey_split key (entries s) hi.entries_keys_nodup).2.2 e hf
    have htot := (remKey_split key (entries s) hi.entries_keys_nodup).1
    rw [hf] at htot
    rw [hent, hmem]
    refine ⟨?_, ?_⟩
    · show s.memory = total (e :: remKey key (entries s))
      rw [total_cons, ha.1, htot]; ring
    · intro x hx
      exact ha.2 x (hperm.mem_iff.mp hx)

/-- C7 (amended): a lookup of a present key returns the stored value, adds one
hit, leaves misses, evictions, memory, capacity and the collection of entries
as they were, and moves the key to the head, the other keys keeping their
order.  A `set` of another key that follows immediately (accounted state,
`0 ≤ size ≤ capacity`) evicts the promoted key only after every other old
entry: if the promoted key is gone afterwards, the newly set entry is the only
one left. -/
theorem C7_lookup_promotes [DecidableEq K] (s : LRU K V) (key : K) (hw : WF s)
    (hc : LRU_contains_key s key = true) :
    (∃ e, findKey key (entries s) = some e ∧ (lru_subscript s key).2 = .ok e.2.1 ∧
      entries (lru_subscript s key).1 = e :: remKey key (entries s)) ∧
    (lru_subscript s key).1.hits = s.hits + 1 ∧
    (lru_subscript s key).1.misses = s.misses ∧
    (lru_subscript s key).1.clean = s.clean ∧
    (lru_subscript s key).1.memory = s.memory ∧
    (lru_subscript s key).1.size = s.size ∧
    (entries (lru_subscript s key).1).Perm (entries s) ∧
    LRU_keys (lru_subscript s key).1 = key :: (LRU_keys s).erase key ∧
    (∀ (key2 : K) (value : V) (size : Int), Accounted s → key2 ≠ key → 0 ≤ size →
      size ≤ s.size →
      ∃ s2, LRU_set (lru_subscript s key).1 key2 value size = .ok s2 ∧
        (LRU_contains_key s2 key = false → entries s2 = [(key2, value, size)])) := by
  have hi := hw.inv
  obtain ⟨hw1, habs, hret⟩ := sim_lookup hw key
  have hi1 := hw1.inv
  rw [hi.contains_eq] at hc
  obtain ⟨e, hf⟩ := Option.isSome_iff_exists.mp hc
  have hek : e.1 = key := (findKey_some_key hf).1
  have hlk : Abs.lookup (absOf s) key =
      ({ absOf s with entries := e :: remKey key (entries s), hits := s.hits + 1 }, .ok e.2.1) := by
    unfold Abs.lookup
    simp only [absOf_entries, hf]
    rfl
  rw [hlk] at habs hret
  have hent : entries (lru_subscript s key).1 = e :: remKey key (entries s) :=
    congrArg Abs.entries habs
  have hperm := (remKey_split key (entries s) hi.entries_keys_nodup).2.2 e hf
  refine ⟨⟨e, hf, hret, hent⟩, congrArg Abs.hits habs, congrArg Abs.misses habs,
    congrArg Abs.clean habs, congrArg Abs.memory habs, congrArg Abs.size habs, ?_, ?_, ?_⟩
  · rw [hent]; exact hperm
  · rw [hi1.keys_eq, hi.keys_eq, hent, List.map_cons, hek,
      remKey_map_fst key _ hi.entries_keys_nodup]
  · intro key2 value size ha hne h0 hm
    have ha1 := accounted_lookup hw ha key
    have hsz : (lru_subscript s key).1.size = s.size := congrArg Abs.size habs
    obtain ⟨s2, j, hs2, hw2, hj1, hj, habs2, _, _⟩ :=
      set_accounted hw1 ha1 key2 value size h0 (by rw [hsz]; exact hm)
    refine ⟨s2, hs2, ?_⟩
    have hent2 : entries s2 =
        ((key2, value, size) :: remKey key2 (entries (lru_subscript s key).1)).take j :=
      congrArg Abs.entries habs2
    rw [hent, remKey_cons, if_neg (by rw [hek]; exact Ne.symm hne)] at hent2
    intro hgone
    rw [hw2.inv.contains_eq, hent2] at hgone
    rcases Nat.lt_or_ge j 2 with hlt | hge
    · have : j = 1 := by omega
      rw [hent2, this]; rfl
    · exfalso
      obtain ⟨j', rfl⟩ : ∃ j', j = j' + 2 := ⟨j - 2, by omega⟩
      rw [List.take_succ_cons, List.take_succ_cons, findKey_cons, if_neg hne, findKey_cons,
        if_pos hek] at hgone
      cases hgone

theorem C7_lookup_promotes_witness :
    WF demoAB ∧ LRU_contains_key demoAB "a" = true ∧ Accounted demoAB ∧ "c" ≠ "a" ∧
      (0 : Int) ≤ 9 ∧ (9 : Int) ≤ demoAB.size ∧
      LRU_keys (lru_subscript demoAB "a").1 = "a" :: (LRU_keys demoAB).erase "a" ∧
      ∃ s2, LRU_set (lru_subscript demoAB "a").1 "c" 3 9 = .ok s2 ∧
        (LRU_contains_key s2 "a" = false → entries s2 = [("c", 3, 9)]) :=
  ⟨by decide, by decide, by decide, by decide, by decide, by decide,
    (C7_lookup_promotes demoAB "a" (by decide) (by decide)).2.2.2.2.2.2.2.1,
    (C7_lookup_promotes demoAB "a" (by decide) (by decide)).2.2.2.2.2.2.2.2 "c" 3 9
      (by decide) (by decide) (by decide) (by decide)⟩

/-- C7 as stated fails: in a cache of capacity 10 holding only `a` (size 6), a
lookup of `a` followed by `set('b', 2, 6)` evicts one entry, and that entry is
the key just promoted. -/
theorem C7_promoted_key_can_be_evicted :
    WF demoA ∧ Accounted demoA ∧ LRU_contains_key demoA "a" = true ∧ "b" ≠ "a" ∧
      ∃ s2, LRU_set (lru_subscript demoA "a").1 "b" 2 6 = .ok s2 ∧
        s2.clean = (lru_subscript demoA "a").1.clean + 1 ∧
        LRU_contains_key s2 "a" = false ∧ LRU_keys s2 = ["b"] :=
  ⟨by decide, by decide, by decide, by decide, _, rfl, by decide, by decide, by decide⟩

/-- C8 as stated fails for the subscript: in a well-formed cache that does not
hold `z`, the lookup `L['z']` does not return an absent indicator but raises
`KeyError`. -/
theorem C8_subscript_miss_raises :
    WF demoAB ∧ LRU_contains_key demoAB "z" = false ∧
      (lru_subscript demoAB "z").2 = .error PyErr.KeyError ∧
      ¬ ∃ v, (lru_subscript demoAB "z").2 = .ok v :=
  ⟨by decide, by decide, rfl, fun h => h.elim (fun _ hv => by cases hv)⟩

/-- C8 (amended): for a key that is not in the cache, `get(key, instead)` does
not raise and answers `instead` (`none`, that is `Py_None`, when it was
omitted), while the subscript `L[key]` raises `KeyError`; either way one is
added to `misses` and nothing else changes: hits, evictions, memory, capacity,
the entry sequence and the callback record are as before. -/
theorem C8_get_miss [DecidableEq K] (s : LRU K V) (key : K) (instead : Option V)
    (h : LRU_contains_key s key = false) :
    LRU_get s key instead = ({ s with misses := s.misses + 1 }, instead) ∧
    lru_subscript s key = ({ s with misses := s.misses + 1 }, .error PyErr.KeyError) ∧
    (lru_subscript s key).1 = (LRU_get s key instead).1 ∧
    (LRU_get s key instead).1.misses = s.misses + 1 ∧
    (LRU_get s key instead).1.hits = s.hits ∧
    (LRU_get s key instead).1.clean = s.clean ∧
    (LRU_get s key instead).1.memory = s.memory ∧
    (LRU_get s key instead).1.size = s.size ∧
    (LRU_get s key instead).1.calls = s.calls ∧
    entries (LRU_get s key instead).1 = entries s := by
  have hg : GET_NODE s.dict key = none := by
    unfold LRU_contains_key at h
    cases hg : GET_NODE s.dict key with
    | none => rfl
    | some n => rw [hg] at h; cases h
  have h1 : lru_subscript s key =
      ({ s with misses := s.misses + 1 }, .error PyErr.KeyError) := by
    unfold lru_subscript
    rw [hg]
  have h2 : LRU_get s key instead = ({ s with misses := s.misses + 1 }, instead) := by
    unfold LRU_get
    rw [h1]
  rw [h2, h1]
  exact ⟨rfl, rfl, rfl, rfl, rfl, rfl, rfl, rfl, rfl, rfl⟩

theorem C8_get_miss_witness :
    LRU_contains_key demoAB "z" = false ∧
      LRU_get demoAB "z" (some 9) = ({ demoAB with misses := demoAB.misses + 1 }, some 9) ∧
      lru_subscript demoAB "z" =
        ({ demoAB with misses := demoAB.misses + 1 }, .error PyErr.KeyError) ∧
      (lru_subscript demoAB "z").1 = (LRU_get demoAB "z" (some 9)).1 ∧
      (LRU_get demoAB "z" (some 9)).1.misses = demoAB.misses + 1 ∧
      (LRU_get demoAB "z" (some 9)).1.hits = demoAB.hits ∧
      (LRU_get demoAB "z" (some 9)).1.clean = demoAB.clean ∧
      (LRU_get demoAB "z" (some 9)).1.memory = demoAB.memory ∧
      (LRU_get demoAB "z" (some 9)).1.size = demoAB.size ∧
      (LRU_get demoAB "z" (some 9)).1.calls = demoAB.calls ∧
      entries (LRU_get demoAB "z" (some 9)).1 = entries demoAB :=
  ⟨by decide, C8_get_miss demoAB "z" (some 9) (by decide)⟩

/-! ## Sequences of sets on a fresh cache -/

theorem latest_snoc [DecidableEq K] (ops : List (K × V × Int)) (op : K × V × Int) :
    latest (ops ++ [op]) = op :: remKey op.1 (latest ops) := by
  unfold latest
  rw [List.foldl_append]
  rfl

theorem findKey_remKey_ne [DecidableEq K] (k k' : K) (hne : k ≠ k') (es : List (K × V × Int)) :
    findKey k (remKey k' es) = findKey k es := by
  induction es with
  | nil => rfl
  | cons a r ih =>
    rw [remKey_cons, findKey_cons]
    by_cases h1 : a.1 = k'
    · have : a.1 ≠ k := fun e => hne (e.symm.trans h1)
      rw [if_pos h1, if_neg this, ih]
    · rw [if_neg h1, findKey_cons, ih]

theorem findKey_latest [DecidableEq K] (k : K) (ops : List (K × V × Int)) :
    findKey k (latest ops) = lastSet k ops := by
  induction ops using List.reverseRecOn with
  | nil => rfl
  | append_singleton ops op ih =>
    unfold lastSet at *
    rw [latest_snoc, List.reverse_append, List.reverse_singleton, List.singleton_append,
      findKey_cons, findKey_cons]
    by_cases h : op.1 = k
    · rw [if_pos h, if_pos h]
    · rw [if_neg h, if_neg h, findKey_remKey_ne k op.1 (Ne.symm h), ih]

theorem latest_keys_nodup [DecidableEq K] (ops : List (K × V × Int)) :
    ((latest ops).map Prod.fst).Nodup := by
  induction ops using List.reverseRecOn with
  | nil => simp [latest]
  | append_singleton ops op ih =>
    rw [latest_snoc, List.map_cons, List.nodup_cons]
    refine ⟨?_, remKey_keys_nodup _ _ ih⟩
    intro hm
    obtain ⟨e, he, hk⟩ := List.mem_map.mp hm
    exact ((mem_remKey _ _ _).mp he).2 hk

theorem mem_latest [DecidableEq K] (ops : List (K × V × Int)) (e : K × V × Int)
    (he : e ∈ latest ops) : e ∈ ops := by
  induction ops using List.reverseRecOn with
  | nil => simp [latest] at he
  | append_singleton ops op ih =>
    rw [latest_snoc] at he
    rcases List.mem_cons.mp he with rfl | h
    · simp
    · exact List.mem_append_left _ (ih ((mem_remKey _ _ _).mp h).1)

theorem mem_keys_iff_findKey [DecidableEq K] (k : K) (es : List (K × V × Int)) :
    k ∈ es.map Prod.fst ↔ (findKey k es).isSome = true := by
  constructor
  · intro hm
    cases hf : findKey k es with
    | some e => rfl
    | none =>
      exfalso
      unfold findKey at hf
      rw [List.find?_eq_none] at hf
      obtain ⟨e, he, hk⟩ := List.mem_map.mp hm
      exact hf e he (by simpa using hk)
  · intro h
    obtain ⟨e, he⟩ := Option.isSome_iff_exists.mp h
    have := findKey_some_key he
    exact List.mem_map.mpr ⟨e, this.2, this.1⟩

theorem findKey_self [DecidableEq K] (es : List (K × V × Int)) (hnd : (es.map Prod.fst).Nodup)
    (e : K × V × Int) (he : e ∈ es) : findKey e.1 es = some e := by
  induction es with
  | nil => cases he
  | cons a r ih =>
    have hnd' := List.nodup_cons.mp (by simpa using hnd : (a.1 :: r.map Prod.fst).Nodup)
    rw [findKey_cons]
    rcases List.mem_cons.mp he with rfl | h
    · rw [if_pos rfl]
    · have : a.1 ≠ e.1 := fun hk => hnd'.1 (hk ▸ List.mem_map.mpr ⟨e, h, rfl⟩)
      rw [if_neg this]
      exact ih hnd'.2 h

theorem currentTotal_eq [DecidableEq K] (ops : List (K × V × Int)) :
    currentTotal ops = total (latest ops) := by
  unfold currentTotal total
  have hperm : ((latest ops).map Prod.fst).Perm ((ops.map Prod.fst).dedup) := by
    refine (List.perm_ext_iff_of_nodup (latest_keys_nodup ops) (List.nodup_dedup _)).mpr ?_
    intro k
    rw [List.mem_dedup, mem_keys_iff_findKey, findKey_latest]
    unfold lastSet
    rw [← mem_keys_iff_findKey, List.map_reverse, List.mem_reverse]
  rw [← (hperm.map _).sum_eq, List.map_map]
  congr 1
  apply List.map_congr_left
  intro e he
  have := findKey_self _ (latest_keys_nodup ops) e he
  rw [findKey_latest] at this
  simp [this]

theorem total_nonneg (es : List (K × V × Int)) (h : ∀ e ∈ es, 0 ≤ e.2.2) : 0 ≤ total es := by
  induction es with
  | nil => simp [total]
  | cons a r ih =>
    rw [total_cons]
    have h1 := h a (List.mem_cons_self _ _)
    have h2 := ih (fun e he => h e (List.mem_cons_of_mem _ he))
    omega

theorem setAll_snoc [DecidableEq K] (s : LRU K V) (ops : List (K × V × Int))
    (op : K × V × Int) :
    setAll s (ops ++ [op]) =
      match setAll s ops with
      | .ok s' => LRU_set s' op.1 op.2.1 op.2.2
      | .error e => .error e := by
  induction ops generalizing s with
  | nil =>
    obtain ⟨k, v, m⟩ := op
    simp only [List.nil_append, setAll]
    cases LRU_set s k v m <;> rfl
  | cons a r ih =>
    obtain ⟨k, v, m⟩ := a
    simp only [List.cons_append, setAll]
    cases LRU_set s k v m with
    | ok s' => exact ih s'
    | error e => rfl

/-- A `set` whose adjusted aggregate fits the capacity: no eviction. -/
theorem set_fits [DecidableEq K] {s : LRU K V} (hw : WF s) (key : K) (value : V) (size : Int)
    (hm : size ≤ s.size)
    (hfit : s.memory - (match findKey key (entries s) with
        | some e => e.2.2
        | none => 0) + size ≤ s.size) :
    ∃ s', LRU_set s key value size = .ok s' ∧ WF s' ∧
      absOf s' = { absOf s with
        entries := (key, value, size) :: remKey key (entries s)
        memory := s.memory - (match findKey key (entries s) with
          | some e => e.2.2
          | none => 0) + size } := by
  have hsim := sim_set hw key value size
  rw [Abs.assign_eq (absOf s) key value size hm, Abs.vacuum_of_le _ hfit] at hsim
  exact sim_ok hsim

/-- Sets whose running totals fit the capacity build the bindings in force. -/
theorem setAll_fits [DecidableEq K] (s0 : LRU K V) (hw : WF s0) (he : entries s0 = [])
    (hmem : s0.memory = 0) (ops : List (K × V × Int)) (hnn : ∀ op ∈ ops, 0 ≤ op.2.2)
    (hfit : ∀ i, i ≤ ops.length → total (latest (ops.take i)) ≤ s0.size) :
    ∃ s', setAll s0 ops = .ok s' ∧ WF s' ∧
      absOf s' = { absOf s0 with entries := latest ops, memory := total (latest ops) } := by
  induction ops using List.reverseRecOn with
  | nil =>
    refine ⟨s0, rfl, hw, ?_⟩
    exact absOf_eq he hmem rfl rfl rfl rfl rfl rfl
  | append_singleton ops op ih =>
    obtain ⟨s1, hs1, hw1, habs1⟩ := ih
      (fun o ho => hnn o (List.mem_append_left _ ho))
      (fun i hi => by
        have := hfit i (by simp; omega)
        rwa [List.take_append_of_le_length hi] at this)
    have hent1 : entries s1 = latest ops := congrArg Abs.entries habs1
    have hmem1 : s1.memory = total (latest ops) := congrArg Abs.memory habs1
    have hsz1 : s1.size = s0.size := congrArg Abs.size habs1
    have hlast := hfit (ops ++ [op]).length (le_refl _)
    rw [List.take_length, latest_snoc, total_cons] at hlast
    have hsplit := (remKey_split op.1 (latest ops) (latest_keys_nodup ops)).1
    have hrem_nn : 0 ≤ total (remKey op.1 (latest ops)) :=
      total_nonneg _ (fun e he =>
        hnn e (List.mem_append_left _ (mem_latest ops e ((mem_remKey _ _ _).mp he).1)))
    obtain ⟨s2, hs2, hw2, habs2⟩ := set_fits hw1 op.1 op.2.1 op.2.2
      (by rw [hsz1]; omega)
      (by rw [hsz1, hmem1, hent1, hsplit]; omega)
    refine ⟨s2, ?_, hw2, ?_⟩
    · rw [setAll_snoc, hs1]; exact hs2
    · rw [habs2, habs1, latest_snoc, total_cons, hent1, hmem1, hsplit]
      simp only [Abs.mk.injEq, and_true, true_and]
      ring

/-- A successful construction yields an empty, well-formed cache with zeroed counters. -/
theorem LRU_init_ok [Inhabited K] [Inhabited V] [DecidableEq K] (c : Int)
    (cb : Option CallbackArg) (hc : 0 < c) (hcb : cb ≠ some CallbackArg.notCallable) :
    ∃ s0 : LRU K V, LRU_init c cb = .ok s0 ∧ WF s0 ∧ entries s0 = [] ∧ s0.memory = 0 ∧
      s0.size = c ∧ s0.hits = 0 ∧ s0.misses = 0 ∧ s0.clean = 0 ∧ s0.calls = [] := by
  unfold LRU_init
  rw [if_neg hcb, if_neg (not_le.mpr hc)]
  refine ⟨_, rfl, ?_, rfl, rfl, rfl, rfl, rfl, rfl, rfl⟩
  apply Inv.wf (l := [])
  refine ⟨⟨rfl, rfl, trivial, List.nodup_nil⟩, List.nodup_nil, ?_, ?_, ?_⟩ <;> intro x hx <;>
    cases hx

theorem assignAll_eq_setAll [DecidableEq K] (s : LRU K V) (kvs : List (K × V)) :
    assignAll s kvs = setAll s (kvs.map (fun kv => (kv.1, kv.2, (0 : Int)))) := by
  induction kvs generalizing s with
  | nil => rfl
  | cons a r ih =>
    obtain ⟨k, v⟩ := a
    simp only [List.map_cons, assignAll, setAll, lru_ass_sub, LRU_set]
    cases _lru_ass_sub s k (some v) 0 with
    | ok p => exact ih p.1
    | error e => rfl

theorem latest_of_nodup [DecidableEq K] (ops : List (K × V × Int))
    (hnd : (ops.map Prod.fst).Nodup) : latest ops = ops.reverse := by
  induction ops using List.reverseRecOn with
  | nil => rfl
  | append_singleton ops op ih =>
    rw [List.map_append, List.nodup_append] at hnd
    have hk : op.1 ∉ (latest ops).map Prod.fst := by
      intro hm
      obtain ⟨e, he, hek⟩ := List.mem_map.mp hm
      exact hnd.2.2 (List.mem_map.mpr ⟨e, mem_latest ops e he, hek⟩) (by simp)
    rw [latest_snoc, remKey_of_findKey_none _ _ (findKey_none_of_not_mem _ _ hk), ih hnd.1,
      List.reverse_append, List.reverse_singleton, List.singleton_append]

/-- C6: on a fresh cache of capacity `c > 0`, sized sets with non-negative sizes
whose running sum of current sizes never exceeds `c` all succeed without any
eviction: after every prefix the eviction counter is 0, and at the end every
key set is present and a lookup returns the value of its last set. -/
theorem C6_fitting_sets_never_evict [DecidableEq K] [Inhabited K] [Inhabited V] (c : Int)
    (cb : Option CallbackArg) (ops : List (K × V × Int)) (hc : 0 < c)
    (hcb : cb ≠ some CallbackArg.notCallable) (hnn : ∀ op ∈ ops, 0 ≤ op.2.2)
    (hfit : ∀ i, i ≤ ops.length → currentTotal (ops.take i) ≤ c) :
    ∃ s0 s', LRU_init c cb = .ok s0 ∧ setAll s0 ops = .ok s' ∧
      (∀ i, i ≤ ops.length → ∃ si, setAll s0 (ops.take i) = .ok si ∧ si.clean = 0) ∧
      s'.clean = 0 ∧
      ∀ k ∈ ops.map Prod.fst, LRU_contains_key s' k = true ∧
        ∃ e, lastSet k ops = some e ∧ (lru_subscript s' k).2 = .ok e.2.1 := by
  obtain ⟨s0, hs0, hw0, he0, hm0, hz0, _, _, hcl0, _⟩ := LRU_init_ok (K := K) (V := V) c cb hc hcb
  have hfit' : ∀ i, i ≤ ops.length → total (latest (ops.take i)) ≤ s0.size := by
    intro i hi
    rw [hz0, ← currentTotal_eq]
    exact hfit i hi
  obtain ⟨s', hs', hw', habs'⟩ := setAll_fits s0 hw0 he0 hm0 ops hnn hfit'
  have hent : entries s' = latest ops := congrArg Abs.entries habs'
  have hclean : s'.clean = 0 := (congrArg Abs.clean habs').trans hcl0
  refine ⟨s0, s', hs0, hs', ?_, hclean, ?_⟩
  · intro i hi
    obtain ⟨si, hsi, _, habsi⟩ := setAll_fits s0 hw0 he0 hm0 (ops.take i)
      (fun o ho => hnn o (List.mem_of_mem_take ho))
      (fun j _ => by
        rw [List.take_take]
        exact hfit' (min j i) (le_trans (min_le_right _ _) hi))
    exact ⟨si, hsi, (congrArg Abs.clean habsi).trans hcl0⟩
  · intro k hk
    have hi' := hw'.inv
    have hfk : findKey k (entries s') = lastSet k ops := by rw [hent, findKey_latest]
    have hsome : (lastSet k ops).isSome = true := by
      unfold lastSet
      rw [← mem_keys_iff_findKey, List.map_reverse, List.mem_reverse]
      exact hk
    obtain ⟨e, he⟩ := Option.isSome_iff_exists.mp hsome
    refine ⟨by rw [hi'.contains_eq, hfk]; exact hsome, e, he, ?_⟩
    rw [(sim_lookup hw' k).2.2]
    unfold Abs.lookup
    rw [absOf_entries, hfk, he]

theorem C6_fitting_sets_never_evict_witness :
    (0 : Int) < 10 ∧ (none : Option CallbackArg) ≠ some CallbackArg.notCallable ∧
      (∀ op ∈ [("a", 1, (4 : Int)), ("b", 2, 4), ("a", 3, 6)], 0 ≤ op.2.2) ∧
      (∀ i, i ≤ [("a", 1, (4 : Int)), ("b", 2, 4), ("a", 3, 6)].length →
        currentTotal ([("a", 1, (4 : Int)), ("b", 2, 4), ("a", 3, 6)].take i) ≤ 10) ∧
      ∃ s0 s', LRU_init (K := String) (V := Nat) 10 none = .ok s0 ∧
        setAll s0 [("a", 1, 4), ("b", 2, 4), ("a", 3, 6)] = .ok s' ∧
        (∀ i, i ≤ [("a", 1, (4 : Int)), ("b", 2, 4), ("a", 3, 6)].length →
          ∃ si, setAll s0 ([("a", 1, 4), ("b", 2, 4), ("a", 3, 6)].take i) = .ok si ∧
            si.clean = 0) ∧
        s'.clean = 0 ∧
        ∀ k ∈ [("a", 1, (4 : Int)), ("b", 2, 4), ("a", 3, 6)].map Prod.fst,
          LRU_contains_key s' k = true ∧
          ∃ e, lastSet k [("a", 1, (4 : Int)), ("b", 2, 4), ("a", 3, 6)] = some e ∧
            (lru_subscript s' k).2 = .ok e.2.1 :=
  ⟨by decide, by decide, by decide, by decide,
    C6_fitting_sets_never_evict 10 none [("a", 1, 4), ("b", 2, 4), ("a", 3, 6)] (by decide)
      (by decide) (by decide) (by decide)⟩

/-- C9 fails on the code: in a cache built as `LRU(3)`, the dict-style
assignments `l[0] .. l[4]` leave all five keys in the cache and evict nothing. -/
theorem C9_implicit_sets_exceed_capacity :
    ∃ s0 s', LRU_init (K := Nat) (V := String) 3 none = .ok s0 ∧
      assignAll s0 [(0, "0"), (1, "1"), (2, "2"), (3, "3"), (4, "4")] = .ok s' ∧
      LRU_keys s' = [4, 3, 2, 1, 0] ∧ lru_length s' = 5 ∧ LRU_get_size s' = 3 ∧
      LRU_get_stats s' = (0, 0, 0) :=
  ⟨_, _, rfl, rfl, by decide, by decide, by decide, by decide⟩

/-- C10: dict-style assignment is `_lru_ass_sub` with size 0, and it never
evicts: on a fresh cache of any capacity `c > 0`, assigning any number of
distinct keys leaves all of them present (most recent first), with memory 0
and eviction counter 0. -/
theorem C10_implicit_sets_never_evict [DecidableEq K] [Inhabited K] [Inhabited V] (c : Int)
    (cb : Option CallbackArg) (kvs : List (K × V)) (hc : 0 < c)
    (hcb : cb ≠ some CallbackArg.notCallable) (hd : (kvs.map Prod.fst).Nodup) :
    (∀ (s : LRU K V) (k : K) (v : Option V), lru_ass_sub s k v = _lru_ass_sub s k v 0) ∧
    ∃ s0 s', LRU_init c cb = .ok s0 ∧ assignAll s0 kvs = .ok s' ∧
      (∀ k ∈ kvs.map Prod.fst, LRU_contains_key s' k = true) ∧
      lru_length s' = kvs.length ∧ LRU_keys s' = (kvs.map Prod.fst).reverse ∧
      LRU_memory s' = 0 ∧ s'.clean = 0 := by
  refine ⟨fun _ _ _ => rfl, ?_⟩
  obtain ⟨s0, hs0, hw0, he0, hm0, hz0, _, _, hcl0, _⟩ := LRU_init_ok (K := K) (V := V) c cb hc hcb
  have hzero : ∀ (ops : List (K × V × Int)), (∀ op ∈ ops, op.2.2 = 0) → total (latest ops) = 0 := by
    intro ops h0
    have : ∀ (es : List (K × V × Int)), (∀ e ∈ es, e.2.2 = 0) → total es = 0 := by
      intro es
      induction es with
      | nil => intro _; rfl
      | cons a r ih =>
        intro h
        rw [total_cons, h a (List.mem_cons_self _ _),
          ih (fun e he => h e (List.mem_cons_of_mem _ he))]
        rfl
    exact this _ (fun e he => h0 e (mem_latest ops e he))
  have hsz : ∀ op ∈ kvs.map (fun kv => (kv.1, kv.2, (0 : Int))), op.2.2 = 0 := by
    intro op hop
    obtain ⟨kv, _, rfl⟩ := List.mem_map.mp hop
    rfl
  obtain ⟨s', hs', hw', habs'⟩ := setAll_fits s0 hw0 he0 hm0
    (kvs.map (fun kv => (kv.1, kv.2, (0 : Int))))
    (fun op hop => le_of_eq (hsz op hop).symm)
    (fun i _ => by
      rw [hzero _ (fun op hop => hsz op (List.mem_of_mem_take hop)), hz0]
      exact le_of_lt hc)
  have hkeys : (kvs.map (fun kv => (kv.1, kv.2, (0 : Int)))).map Prod.fst = kvs.map Prod.fst := by
    rw [List.map_map]; rfl
  have hent : entries s' = (kvs.map (fun kv => (kv.1, kv.2, (0 : Int)))).reverse := by
    rw [← latest_of_nodup _ (by rw [hkeys]; exact hd)]
    exact congrArg Abs.entries habs'
  have hi' := hw'.inv
  have hk' : LRU_keys s' = (kvs.map Prod.fst).reverse := by
    rw [hi'.keys_eq, hent, List.map_reverse, hkeys]
  refine ⟨s0, s', hs0, ?_, ?_, ?_, hk', ?_, (congrArg Abs.clean habs').trans hcl0⟩
  · rw [assignAll_eq_setAll]; exact hs'
  · intro k hk
    rw [hi'.contains_eq, ← mem_keys_iff_findKey, ← hi'.keys_eq, hk', List.mem_reverse]
    exact hk
  · unfold lru_length
    rw [← hi'.length_eq, ← List.length_map (chain s') (fun p => get_entry (s'.heap p)),
      ← hi'.entries_eq, hent]
    simp
  · unfold LRU_memory
    exact (congrArg Abs.memory habs').trans (hzero _ hsz)

theorem C10_implicit_sets_never_evict_witness :
    (0 : Int) < 3 ∧ (none : Option CallbackArg) ≠ some CallbackArg.notCallable ∧
      ([(0, "0"), (1, "1"), (2, "2"), (3, "3"), (4, "4")].map Prod.fst).Nodup ∧
      (∀ (s : LRU Nat String) (k : Nat) (v : Option String),
        lru_ass_sub s k v = _lru_ass_sub s k v 0) ∧
      ∃ s0 s', LRU_init (K := Nat) (V := String) 3 none = .ok s0 ∧
        assignAll s0 [(0, "0"), (1, "1"), (2, "2"), (3, "3"), (4, "4")] = .ok s' ∧
        (∀ k ∈ [(0, "0"), (1, "1"), (2, "2"), (3, "3"), (4, "4")].map Prod.fst,
          LRU_contains_key s' k = true) ∧
        lru_length s' = [(0, "0"), (1, "1"), (2, "2"), (3, "3"), (4, "4")].length ∧
        LRU_keys s' = ([(0, "0"), (1, "1"), (2, "2"), (3, "3"), (4, "4")].map Prod.fst).reverse ∧
        LRU_memory s' = 0 ∧ s'.clean = 0 :=
  ⟨by decide, by decide, by decide,
    C10_implicit_sets_never_evict 3 none [(0, "0"), (1, "1"), (2, "2"), (3, "3"), (4, "4")]
      (by decide) (by decide) (by decide)⟩

/-! ## Removal of a node together with its dict entry -/

theorem inv_unlink [DecidableEq K] {s : LRU K V} {l : List Ptr} (hi : Inv s l) {n : Ptr}
    (hn : n ∈ l) :
    Inv { s with
          dict := dictDel s.dict (s.heap n).key
          first := if s.first = some n then (s.heap n).next else s.first
          last := if s.last = some n then (s.heap n).prev else s.last
          heap := removeHeap s.heap n } (l.erase n) := by
  have hsd : SameData s.heap (removeHeap s.heap n) := removeHeap_sameData _ _
  have hmem : ∀ p, p ∈ l.erase n ↔ p ≠ n ∧ p ∈ l :=
    fun p => List.Nodup.mem_erase_iff hi.list.nodup
  refine ⟨isList_remove _ _ _ _ n hi.list hn, dictDel_keys_nodup _ _ hi.keys_nodup, ?_, ?_, ?_⟩
  · intro kp hkp
    have hkp' := (mem_dictDel _ _ _).mp hkp
    have h1 := hi.dict_sub kp hkp'.1
    refine ⟨(hmem _).mpr ⟨?_, h1.1⟩, (hsd kp.2).1.trans h1.2⟩
    intro e
    rw [e] at h1
    exact hkp'.2 h1.2.symm
  · intro p hp
    have hp' := (hmem p).mp hp
    refine (mem_dictDel _ _ _).mpr ⟨?_, ?_⟩
    · show ((removeHeap s.heap n p).key, p) ∈ s.dict
      rw [(hsd p).1]; exact hi.list_sub p hp'.2
    · show (removeHeap s.heap n p).key ≠ (s.heap n).key
      rw [(hsd p).1]
      intro hk
      exact hp'.1 (hi.key_inj hp'.2 hn hk)
  · intro p hp
    exact hi.lt_brk p ((hmem p).mp hp).2

theorem entries_unlink [DecidableEq K] {s s' : LRU K V} {l : List Ptr} (hi : Inv s l) {n : Ptr}
    (hn : n ∈ l) (hi' : Inv s' (l.erase n)) (hsd : SameData s.heap s'.heap) :
    entries s' = remKey (s.heap n).key (entries s) := by
  rw [hi'.entries_eq, hi.entries_eq,
    ← erase_map_unique (fun p => get_entry (s.heap p)) (s.heap n).key n l hi.list.nodup]
  · apply List.map_congr_left
    intro q _
    exact get_entry_sameData hsd q
  · intro q hq
    constructor
    · intro hk
      exact hi.key_inj hq hn hk
    · intro e
      rw [e]; rfl

/-- The delete branch of `_lru_ass_sub` on a key held by the cache. -/
theorem remove_present_spec [DecidableEq K] {s : LRU K V} (hw : WF s) (key : K) (n : Ptr)
    (hsz : 0 ≤ s.size) (hg : GET_NODE s.dict key = some n) :
    ∃ s', lru_ass_sub s key none = .ok (s', 0) ∧ WF s' ∧
      absOf s' = { absOf s with
        entries := remKey key (entries s)
        memory := s.memory - (s.heap n).size } := by
  have hi := hw.inv
  have hn : n ∈ chain s ∧ (s.heap n).key = key :=
    hi.dict_sub _ ((getNode_eq_some_iff _ _ _ hi.keys_nodup).mp hg)
  have hi1 := inv_unlink hi hn.1
  rw [hn.2] at hi1
  have hrun : lru_ass_sub s key none = .ok
      ({ s with
          dict := dictDel s.dict key
          first := if s.first = some n then (s.heap n).next else s.first
          last := if s.last = some n then (s.heap n).prev else s.last
          heap := removeHeap s.heap n
          memory := s.memory - (s.heap n).size }, 0) := by
    unfold lru_ass_sub _lru_ass_sub
    simp [not_lt.mpr hsz, PUT_NODE, hg, lru_remove_node_eq]
  have hi2 : Inv ({ s with
          dict := dictDel s.dict key
          first := if s.first = some n then (s.heap n).next else s.first
          last := if s.last = some n then (s.heap n).prev else s.last
          heap := removeHeap s.heap n
          memory := s.memory - (s.heap n).size } : LRU K V) ((chain s).erase n) :=
    hi1.of_eq rfl rfl rfl rfl rfl
  refine ⟨_, hrun, hi2.wf, ?_⟩
  have he := entries_unlink hi hn.1 hi2 (removeHeap_sameData _ _)
  rw [hn.2] at he
  exact absOf_eq he rfl rfl rfl rfl rfl rfl rfl

/-- The delete branch of `_lru_ass_sub` on a key that is not in the cache. -/
theorem remove_absent_spec [DecidableEq K] (s : LRU K V) (key : K)
    (hg : GET_NODE s.dict key = none) (hsz : 0 ≤ s.size) :
    lru_ass_sub s key none = .ok (s, -1) := by
  unfold lru_ass_sub _lru_ass_sub
  simp [not_lt.mpr hsz, PUT_NODE, hg]

/-! ## `set_size` -/

theorem set_size_loop_spec [DecidableEq K] (newSize : Int) (h0 : 0 ≤ newSize) :
    ∀ (fuel : Nat) (s : LRU K V) (l : List Ptr), Inv s l → l.length ≤ fuel →
      ∃ s', LRU_set_size_loop fuel s newSize = .ok s' ∧ Inv s' (l.take newSize.toNat) ∧
        SameData s.heap s'.heap ∧ s'.memory = s.memory ∧ s'.size = s.size ∧
        s'.hits = s.hits ∧ s'.clean = s.clean ∧ s'.misses = s.misses ∧
        s'.callback = s.callback ∧
        s'.calls = s.calls ++
          (if s.callback then
            ((l.drop newSize.toNat).reverse.map (fun p => ((s.heap p).key, (s.heap p).value)))
            else []) := by
  intro fuel
  induction fuel with
  | zero =>
    intro s l hi hlen
    have hl : l = [] := List.length_eq_zero.mp (Nat.le_zero.mp hlen)
    subst hl
    have hlen0 : lru_length s = 0 := by unfold lru_length; rw [← hi.length_eq]; rfl
    refine ⟨s, ?_, by simpa using hi, sameData_refl _, rfl, rfl, rfl, rfl, rfl, rfl, by simp⟩
    unfold LRU_set_size_loop
    rw [hlen0, if_neg (by simpa using h0)]
  | succ fuel ih =>
    intro s l hi hlen
    have hll : lru_length s = l.length := by unfold lru_length; rw [hi.length_eq]
    unfold LRU_set_size_loop
    by_cases hgt : (lru_length s : Int) > newSize
    · rw [if_pos hgt]
      rw [hll] at hgt
      have hlt : newSize.toNat < l.length := by omega
      have hne : l ≠ [] := by
        intro e
        rw [e] at hlt
        exact absurd hlt (Nat.not_lt_zero _)
      obtain ⟨l', x, hl⟩ : ∃ l' x, l = l' ++ [x] := by
        rcases List.eq_nil_or_concat l with h | ⟨l', x, h⟩
        · exact absurd h hne
        · exact ⟨l', x, by rw [h, List.concat_eq_append]⟩
      subst hl
      have hx : s.last = some x := by rw [hi.list.last_eq]; exact List.getLast?_concat _
      have hxl : x ∈ l' ++ [x] := by simp
      have hget := hi.getNode_eq hxl
      have hi1 := inv_delete_last hi hx
      rw [List.dropLast_concat] at hi1
      have hlen1 : l'.length ≤ fuel := by simpa using hlen
      have hle : newSize.toNat ≤ l'.length := by simp at hlt; omega
      obtain ⟨s', hrun, hi', hsd, f1, f2, f3, f4, f5, f6, f7⟩ := ih (lru_delete_last s) l' hi1 hlen1
      have heq := lru_delete_last_eq s x hx hget
      have hsd1 : SameData s.heap (lru_delete_last s).heap := by
        rw [heq]; exact removeHeap_sameData _ _
      refine ⟨s', hrun, ?_, sameData_trans hsd1 hsd, ?_, ?_, ?_, ?_, ?_, ?_, ?_⟩
      · rw [List.take_append_of_le_length hle]; exact hi'
      · rw [f1, heq]
      · rw [f2, heq]
      · rw [f3, heq]
      · rw [f4, heq]
      · rw [f5, heq]
      · rw [f6, heq]
      · rw [f7, List.drop_append_of_le_length hle]
        have hcb : (lru_delete_last s).callback = s.callback := by rw [heq]
        have hcalls : (lru_delete_last s).calls =
            if s.callback then s.calls ++ [((s.heap x).key, (s.heap x).value)] else s.calls := by
          rw [heq]
        rw [hcb, hcalls]
        by_cases hc : s.callback = true
        · simp only [hc, if_true, List.reverse_append, List.reverse_singleton,
            List.singleton_append, List.map_cons, List.append_assoc]
          congr 2
          apply List.map_congr_left
          intro q _
          rw [(hsd1 q).1, (hsd1 q).2.1]
        · simp [hc]
    · rw [if_neg hgt]
      rw [hll] at hgt
      have hle : l.length ≤ newSize.toNat := by omega
      refine ⟨s, rfl, ?_, sameData_refl _, rfl, rfl, rfl, rfl, rfl, rfl, ?_⟩
      · rw [List.take_of_length_le hle]; exact hi
      · rw [List.drop_of_length_le hle]; simp

/-- A `set_size` with a positive argument on a well-formed state. -/
theorem set_size_spec [DecidableEq K] {s : LRU K V} (hw : WF s) (newSize : Int)
    (hpos : 0 < newSize) :
    ∃ s', LRU_set_size s newSize = .ok (s', none) ∧ WF s' ∧
      absOf s' = { absOf s with
        entries := (entries s).take newSize.toNat
        size := newSize
        calls := s.calls ++
          (if s.callback then
            (((entries s).drop newSize.toNat).reverse.map (fun e => (e.1, e.2.1)))
            else []) } := by
  have hi := hw.inv
  obtain ⟨s1, hrun, hi1, hsd, f1, f2, f3, f4, f5, f6, f7⟩ :=
    set_size_loop_spec newSize (le_of_lt hpos) (lru_length s) s (chain s) hi
      (le_of_eq hi.length_eq)
  have hi2 : Inv ({ s1 with size := newSize } : LRU K V) ((chain s).take newSize.toNat) :=
    hi1.of_eq rfl rfl rfl rfl rfl
  refine ⟨{ s1 with size := newSize }, ?_, hi2.wf, ?_⟩
  · unfold LRU_set_size
    rw [if_neg (not_le.mpr hpos), hrun]
  · have he : entries ({ s1 with size := newSize } : LRU K V) = (entries s).take newSize.toNat := by
      rw [hi2.entries_eq, hi.entries_eq, ← List.map_take]
      apply List.map_congr_left
      intro q _
      exact get_entry_sameData hsd q
    refine absOf_eq he f1 rfl f3 f4 f5 f6 ?_
    show s1.calls = _
    rw [f7, hi.entries_eq, ← List.map_drop, ← List.map_reverse, List.map_map]
    rfl

/-! ## `clear` -/

theorem clear_loop_none (fuel : Nat) (s : LRU K V) : LRU_clear_loop fuel s none = .ok s := by
  cases fuel <;> rfl

theorem clear_loop_spec :
    ∀ (fuel : Nat) (s : LRU K V) (l : List Ptr), IsList s.heap s.first s.last l →
      l.length ≤ fuel →
      ∃ s', LRU_clear_loop fuel s l.head? = .ok s' ∧ s'.first = none ∧ s'.last = none ∧
        s'.dict = s.dict ∧ s'.memory = s.memory ∧ s'.size = s.size ∧ s'.hits = s.hits ∧
        s'.clean = s.clean ∧ s'.misses = s.misses ∧ s'.callback = s.callback ∧
        s'.brk = s.brk ∧ s'.calls = s.calls := by
  intro fuel
  induction fuel with
  | zero =>
    intro s l hl hlen
    have : l = [] := List.length_eq_zero.mp (Nat.le_zero.mp hlen)
    subst this
    exact ⟨s, rfl, hl.first_eq, hl.last_eq, rfl, rfl, rfl, rfl, rfl, rfl, rfl, rfl, rfl⟩
  | succ fuel ih =>
    intro s l hl hlen
    cases l with
    | nil =>
      exact ⟨s, clear_loop_none _ _, hl.first_eq, hl.last_eq, rfl, rfl, rfl, rfl, rfl, rfl, rfl,
        rfl, rfl⟩
    | cons n r =>
      have hnext : (s.heap n).next = r.head? := hl.seg.2.1
      have hrm := isList_remove _ _ _ _ n hl (List.mem_cons_self _ _)
      rw [List.erase_cons_head, ← lru_remove_node_heap, ← lru_remove_node_first,
        ← lru_remove_node_last] at hrm
      obtain ⟨s', hrun, g1, g2, g3, g4, g5, g6, g7, g8, g9, g10, g11⟩ :=
        ih (lru_remove_node s n) r hrm (by simpa using hlen)
      refine ⟨s', ?_, g1, g2, ?_, ?_, ?_, ?_, ?_, ?_, ?_, ?_, ?_⟩
      · simp only [List.head?_cons, LRU_clear_loop]
        rw [hnext]; exact hrun
      · rw [g3]; simp
      · rw [g4]; simp
      · rw [g5]; simp
      · rw [g6]; simp
      · rw [g7]; simp
      · rw [g8]; simp
      · rw [g9]; simp
      · rw [g10]; simp
      · rw [g11]; simp

/-- `clear` on a well-formed state. -/
theorem clear_spec [DecidableEq K] {s : LRU K V} (hw : WF s) :
    ∃ s', LRU_clear s = .ok s' ∧ WF s' ∧ s'.first = none ∧ s'.last = none ∧ s'.dict = [] ∧
      absOf s' = { absOf s with entries := [], memory := 0, hits := 0, misses := 0 } := by
  have hi := hw.inv
  obtain ⟨s1, hrun, g1, g2, g3, g4, g5, g6, g7, g8, g9, g10, g11⟩ :=
    clear_loop_spec (lru_length s) s (chain s) hi.list (le_of_eq hi.length_eq)
  rw [← hi.list.first_eq] at hrun
  have hi2 : Inv ({ s1 with dict := [], hits := 0, misses := 0, memory := 0 } : LRU K V) [] := by
    refine ⟨⟨g1, g2, trivial, List.nodup_nil⟩, List.nodup_nil, ?_, ?_, ?_⟩ <;> intro x hx <;>
      cases hx
  refine ⟨{ s1 with dict := [], hits := 0, misses := 0, memory := 0 }, ?_, hi2.wf, g1, g2, rfl, ?_⟩
  · unfold LRU_clear
    rw [hrun]
  · exact absOf_eq (by rw [hi2.entries_eq]; rfl) rfl g5 rfl g7 rfl g9 g11

/-! ## Operations keep states well formed -/

theorem sim_wf [DecidableEq K] {s' : LRU K V} {ra : Except Fault (Abs K V)}
    (h : Sim (.ok s') ra) : WF s' := by
  cases ra with
  | ok a => exact h.1
  | error e => exact absurd h (by simp [Sim])

theorem LRU_get_fst [DecidableEq K] (s : LRU K V) (key : K) (instead : Option V) :
    (LRU_get s key instead).1 = (lru_subscript s key).1 := by
  unfold LRU_get
  simp only []
  cases h : (lru_subscript s key).2 <;> rfl

theorem step_wf [DecidableEq K] {s s' : LRU K V} (hw : WF s) (op : Op K V)
    (h : step s op = .ok s') : WF s' := by
  cases op with
  | set key value size =>
    have hsim := sim_set hw key value size
    simp only [step] at h
    rw [h] at hsim
    exact sim_wf hsim
  | assign key value =>
    have hsim := sim_set hw key value 0
    have : LRU_set s key value 0 = .ok s' := by
      simp only [step, lru_ass_sub] at h
      exact h
    rw [this] at hsim
    exact sim_wf hsim
  | remove key =>
    simp only [step] at h
    by_cases hsz : 0 ≤ s.size
    · cases hg : GET_NODE s.dict key with
      | none =>
        rw [remove_absent_spec s key hg hsz] at h
        cases h
        exact hw
      | some n =>
        obtain ⟨s1, hs1, hw1, _⟩ := remove_present_spec hw key n hsz hg
        rw [hs1] at h
        cases h
        exact hw1
    · have : lru_ass_sub s key none = .ok (s, 0) := by
        unfold lru_ass_sub _lru_ass_sub
        rw [if_pos (not_le.mp hsz)]
      rw [this] at h
      cases h
      exact hw
  | lookup key =>
    simp only [step] at h
    cases h
    exact (sim_lookup hw key).1
  | get key instead =>
    simp only [step] at h
    cases h
    rw [LRU_get_fst]
    exact (sim_lookup hw key).1
  | set_size newSize =>
    simp only [step] at h
    by_cases hpos : 0 < newSize
    · obtain ⟨s1, hs1, hw1, _⟩ := set_size_spec hw newSize hpos
      rw [hs1] at h
      cases h
      exact hw1
    · have : LRU_set_size s newSize = .ok (s, some PyErr.ValueError) := by
        unfold LRU_set_size
        rw [if_pos (not_lt.mp hpos)]
      rw [this] at h
      cases h
      exact hw
  | clear =>
    simp only [step] at h
    obtain ⟨s1, hs1, hw1, _⟩ := clear_spec hw
    rw [hs1] at h
    cases h
    exact hw1

theorem run_wf [DecidableEq K] (ops : List (Op K V)) :
    ∀ {s s' : LRU K V}, WF s → run s ops = .ok s' → WF s' := by
  induction ops with
  | nil =>
    intro s s' hw h
    simp only [run] at h
    cases h
    exact hw
  | cons op rest ih =>
    intro s s' hw h
    simp only [run] at h
    cases hst : step s op with
    | ok s1 =>
      rw [hst] at h
      exact ih (step_wf hw op hst) h
    | error e =>
      rw [hst] at h
      cases h

/-! ## The readers on well-formed states -/

theorem Inv.items_eq {s : LRU K V} {l : List Ptr} (hi : Inv s l) :
    LRU_items s = (entries s).map (fun e => (e.1, e.2.1)) := by
  unfold LRU_items
  rw [hi.collect_eq, hi.entries_eq, List.map_map]
  rfl

theorem Inv.values_eq {s : LRU K V} {l : List Ptr} (hi : Inv s l) :
    LRU_values s = (entries s).map (fun e => e.2.1) := by
  unfold LRU_values
  rw [hi.collect_eq, hi.entries_eq, List.map_map]
  rfl

theorem Inv.length_entries {s : LRU K V} {l : List Ptr} (hi : Inv s l) :
    (entries s).length = lru_length s := by
  unfold lru_length
  rw [hi.entries_eq, List.length_map, hi.length_eq]

theorem Inv.peek_last_eq {s : LRU K V} {l : List Ptr} (hi : Inv s l) :
    LRU_peek_last_item s = (entries s).getLast?.map (fun e => (e.1, e.2.1)) := by
  rw [hi.getLast_entries]
  unfold LRU_peek_last_item
  cases s.last <;> rfl

/-! ## The claims on `set_size`, `clear`, removal, readers and construction -/

/-- C11 as stated fails: `set_size(9223372036854775808)`, a positive capacity,
does not succeed on a well-formed cache: the argument does not fit a C `long`,
`OverflowError` is raised and the cache is unchanged. -/
theorem C11_set_size_refuses_beyond_long :
    WF demoAB ∧ (0 : Int) < 9223372036854775808 ∧
      LRU_set_size_args demoAB 9223372036854775808 =
        .ok (demoAB, some PyErr.OverflowError) ∧
      ¬ ∃ s', LRU_set_size_args demoAB 9223372036854775808 = .ok (s', none) :=
  ⟨by decide, by decide, rfl, fun h => h.elim (fun _ hs => by cases hs)⟩

/-- C11 (amended): on a well-formed state, `set_size(newSize)` with
`0 < newSize ≤ LONG_MAX` returns `None`, makes the capacity field `newSize`
(and `get_size()` answers `newSize` when `newSize < 2147483648`), and keeps
exactly the first `min(entry count, newSize)` items in their order: only tail
entries are evicted, and none when the entry count already fits.  With
`newSize > LONG_MAX` it raises `OverflowError` and changes nothing. -/
theorem C11_set_size_keeps_head_items [DecidableEq K] (s : LRU K V) (newSize : Int)
    (hw : WF s) (hpos : 0 < newSize) :
    (newSize ≤ LONG_MAX →
      ∃ s', LRU_set_size_args s newSize = .ok (s', none) ∧ s'.size = newSize ∧
        (newSize < 2147483648 → LRU_get_size s' = newSize) ∧
        lru_length s' = min (lru_length s) newSize.toNat ∧
        LRU_items s' = (LRU_items s).take (min (lru_length s) newSize.toNat) ∧
        ((lru_length s : Int) ≤ newSize → LRU_items s' = LRU_items s)) ∧
    (LONG_MAX < newSize →
      LRU_set_size_args s newSize = .ok (s, some PyErr.OverflowError)) := by
  constructor
  · intro hmax
    have hparse : PyArg_Parse_l newSize = .ok newSize := by
      unfold PyArg_Parse_l
      rw [if_pos ⟨by unfold LONG_MIN; omega, hmax⟩]
    have hi := hw.inv
    obtain ⟨s', hrun, hw', habs⟩ := set_size_spec hw newSize hpos
    have hi' := hw'.inv
    have hent : entries s' = (entries s).take newSize.toNat := congrArg Abs.entries habs
    have hsz : s'.size = newSize := congrArg Abs.size habs
    have hlen := hi.length_entries
    have htake : ∀ (xs : List (K × V)), xs.length = lru_length s →
        xs.take (min (lru_length s) newSize.toNat) = xs.take newSize.toNat := by
      intro xs hx
      rcases Nat.le_total (lru_length s) newSize.toNat with h | h
      · rw [Nat.min_eq_left h, List.take_of_length_le (le_of_eq hx),
          List.take_of_length_le (hx ▸ h)]
      · rw [Nat.min_eq_right h]
    have hitems : LRU_items s' = (LRU_items s).take newSize.toNat := by
      rw [hi'.items_eq, hi.items_eq, hent, List.map_take]
    have hrun' : LRU_set_size_args s newSize = .ok (s', none) := by
      unfold LRU_set_size_args
      rw [hparse]
      exact hrun
    refine ⟨s', hrun', hsz, ?_, ?_, ?_, ?_⟩
    · intro hsmall
      unfold LRU_get_size Py_BuildValue_i
      rw [hsz]
      omega
    · rw [← hi'.length_entries, hent, List.length_take, hlen, Nat.min_comm]
    · rw [hitems, htake _ (by rw [hi.items_eq, List.length_map, hlen])]
    · intro hfit
      rw [hitems]
      apply List.take_of_length_le
      rw [hi.items_eq, List.length_map, hlen]
      omega
  · intro hbig
    unfold LRU_set_size_args PyArg_Parse_l
    rw [if_neg (fun h => absurd h.2 (not_le.mpr hbig))]

theorem C11_set_size_keeps_head_items_witness :
    WF demoAB ∧ (0 : Int) < 1 ∧ (1 : Int) ≤ LONG_MAX ∧
      ∃ s', LRU_set_size_args demoAB 1 = .ok (s', none) ∧ s'.size = 1 ∧
        ((1 : Int) < 2147483648 → LRU_get_size s' = 1) ∧
        lru_length s' = min (lru_length demoAB) (1 : Int).toNat ∧
        LRU_items s' = (LRU_items demoAB).take (min (lru_length demoAB) (1 : Int).toNat) ∧
        ((lru_length demoAB : Int) ≤ 1 → LRU_items s' = LRU_items demoAB) :=
  ⟨by decide, by decide, by decide,
    (C11_set_size_keeps_head_items demoAB 1 (by decide) (by decide)).1 (by decide)⟩

/-- C12: `set_size(newSize)` with `newSize ≤ 0` raises ValueError and returns
the very same state: capacity, entries, memory, counters and the record of
callback invocations are as before. -/
theorem C12_set_size_rejects_nonpositive [DecidableEq K] (s : LRU K V) (newSize : Int)
    (h : newSize ≤ 0) : LRU_set_size s newSize = .ok (s, some PyErr.ValueError) := by
  unfold LRU_set_size
  rw [if_pos h]

theorem C12_set_size_rejects_nonpositive_witness :
    (0 : Int) ≤ 0 ∧ LRU_set_size demoAB 0 = .ok (demoAB, some PyErr.ValueError) :=
  ⟨by decide, C12_set_size_rejects_nonpositive demoAB 0 (by decide)⟩

/-- C13: on a well-formed state, `clear()` leaves no entries (`keys()`,
`values()`, `items()` empty, both peeks `None`), sets memory, hits and misses to
0, and leaves the eviction counter, the capacity and the record of callback
invocations as they were. -/
theorem C13_clear_empties [DecidableEq K] (s : LRU K V) (hw : WF s) :
    ∃ s', LRU_clear s = .ok s' ∧ LRU_keys s' = [] ∧ LRU_values s' = [] ∧ LRU_items s' = [] ∧
      lru_length s' = 0 ∧ LRU_peek_first_item s' = none ∧ LRU_peek_last_item s' = none ∧
      LRU_memory s' = 0 ∧ s'.hits = 0 ∧ s'.misses = 0 ∧ s'.clean = s.clean ∧
      s'.size = s.size ∧ s'.calls = s.calls := by
  obtain ⟨s', hrun, hw', hf, hl, hd, habs⟩ := clear_spec hw
  have hi' := hw'.inv
  have hent : entries s' = [] := congrArg Abs.entries habs
  refine ⟨s', hrun, ?_, ?_, ?_, ?_, ?_, ?_, congrArg Abs.memory habs, congrArg Abs.hits habs,
    congrArg Abs.misses habs, congrArg Abs.clean habs, congrArg Abs.size habs,
    congrArg Abs.calls habs⟩
  · rw [hi'.keys_eq, hent]; rfl
  · rw [hi'.values_eq, hent]; rfl
  · rw [hi'.items_eq, hent]; rfl
  · unfold lru_length; rw [hd]; rfl
  · unfold LRU_peek_first_item; rw [hf]
  · unfold LRU_peek_last_item; rw [hl]

theorem C13_clear_empties_witness :
    WF demoAB ∧
      ∃ s', LRU_clear demoAB = .ok s' ∧ LRU_keys s' = [] ∧ LRU_values s' = [] ∧
        LRU_items s' = [] ∧ lru_length s' = 0 ∧ LRU_peek_first_item s' = none ∧
        LRU_peek_last_item s' = none ∧ LRU_memory s' = 0 ∧ s'.hits = 0 ∧ s'.misses = 0 ∧
        s'.clean = demoAB.clean ∧ s'.size = demoAB.size ∧ s'.calls = demoAB.calls :=
  ⟨by decide, C13_clear_empties demoAB (by decide)⟩

/-- C15: on a well-formed state `keys()`, `values()` and `items()` have as many
elements as the dict has keys and list the nodes met from `first` to `last`,
`items()` pairs `keys()` with `values()`, `peek_first_item()` and
`peek_last_item()` are the first and the last element of `items()`, and each is
`None` exactly when the cache has no entries.  The five readers are functions of
the state that return no state: they change nothing. -/
theorem C15_readers_agree [DecidableEq K] (s : LRU K V) (hw : WF s) :
    (LRU_keys s).length = lru_length s ∧ (LRU_values s).length = lru_length s ∧
    (LRU_items s).length = lru_length s ∧
    LRU_keys s = (chain s).map (fun p => (s.heap p).key) ∧
    LRU_values s = (chain s).map (fun p => (s.heap p).value) ∧
    (chain s).head? = s.first ∧ (chain s).getLast? = s.last ∧
    LRU_items s = (LRU_keys s).zip (LRU_values s) ∧
    LRU_peek_first_item s = (LRU_items s).head? ∧
    LRU_peek_last_item s = (LRU_items s).getLast? ∧
    (LRU_peek_first_item s = none ↔ lru_length s = 0) ∧
    (LRU_peek_last_item s = none ↔ lru_length s = 0) := by
  have hi := hw.inv
  have hk : LRU_keys s = (chain s).map (fun p => (s.heap p).key) := hi.collect_eq get_key
  have hv : LRU_values s = (chain s).map (fun p => (s.heap p).value) := hi.collect_eq get_value
  have hit : LRU_items s = (chain s).map (fun p => ((s.heap p).key, (s.heap p).value)) :=
    hi.collect_eq get_item
  have hlen : (chain s).length = lru_length s := hi.length_eq
  have hpf : LRU_peek_first_item s = (LRU_items s).head? := by
    rw [hit]
    unfold LRU_peek_first_item
    rw [hi.list.first_eq]
    cases chain s <;> rfl
  have hpl : LRU_peek_last_item s = (LRU_items s).getLast? := by
    rw [hit, List.getLast?_map]
    unfold LRU_peek_last_item
    rw [hi.list.last_eq]
    cases (chain s).getLast? <;> rfl
  have hnil : LRU_items s = [] ↔ lru_length s = 0 := by
    rw [← hlen, hit, List.map_eq_nil_iff, List.length_eq_zero]
  refine ⟨by rw [hk, List.length_map, hlen], by rw [hv, List.length_map, hlen],
    by rw [hit, List.length_map, hlen], hk, hv, hi.list.first_eq.symm, hi.list.last_eq.symm, ?_,
    hpf, hpl, ?_, ?_⟩
  · rw [hk, hv, hit]
    generalize chain s = l
    induction l with
    | nil => rfl
    | cons a r ih => simp only [List.map_cons, List.zip_cons_cons, ih]
  · rw [hpf, ← hnil]
    cases LRU_items s <;> simp
  · rw [hpl, ← hnil, List.getLast?_eq_none_iff]

theorem C15_readers_agree_witness :
    WF demoAB ∧ LRU_items demoAB = [("b", 2), ("a", 1)] ∧
      LRU_items demoAB = (LRU_keys demoAB).zip (LRU_values demoAB) ∧
      LRU_peek_first_item demoAB = (LRU_items demoAB).head? ∧
      LRU_peek_last_item demoAB = (LRU_items demoAB).getLast? :=
  ⟨by decide, by decide, (C15_readers_agree demoAB (by decide)).2.2.2.2.2.2.2.1,
    (C15_readers_agree demoAB (by decide)).2.2.2.2.2.2.2.2.1,
    (C15_readers_agree demoAB (by decide)).2.2.2.2.2.2.2.2.2.1⟩

/-- C16 as stated fails: `LRU(9223372036854775808)`, a positive capacity, yields
no cache: the argument does not fit a C `long` and `OverflowError` is raised. -/
theorem C16_construct_refuses_beyond_long :
    (0 : Int) < 9223372036854775808 ∧
      LRU_init_args (K := String) (V := Nat) 9223372036854775808 none =
        .error PyErr.OverflowError ∧
      ¬ ∃ s : LRU String Nat, LRU_init_args 9223372036854775808 none = .ok s :=
  ⟨by decide, rfl, fun h => h.elim (fun _ hs => by cases hs)⟩

/-- C16 (amended): the constructor raises for every capacity `≤ 0` (ValueError
when the capacity fits a C `long` and the callback argument is acceptable) and
raises `OverflowError` for every capacity above `LONG_MAX`; for
`0 < capacity ≤ LONG_MAX` it yields a cache whose capacity field is `capacity`
(and `get_size()` answers `capacity` when `capacity < 2147483648`), with no
entries, memory 0 and statistics `(0, 0, 0)`. -/
theorem C16_construct [DecidableEq K] [Inhabited K] [Inhabited V] (capacity : Int)
    (cb : Option CallbackArg) :
    (capacity ≤ 0 →
      ∃ e, LRU_init_args (K := K) (V := V) capacity cb = .error e ∧
        (LONG_MIN ≤ capacity → cb ≠ some CallbackArg.notCallable → e = PyErr.ValueError)) ∧
    (LONG_MAX < capacity →
      LRU_init_args (K := K) (V := V) capacity cb = .error PyErr.OverflowError) ∧
    (0 < capacity → capacity ≤ LONG_MAX → cb ≠ some CallbackArg.notCallable →
      ∃ s : LRU K V, LRU_init_args capacity cb = .ok s ∧ s.size = capacity ∧
        (capacity < 2147483648 → LRU_get_size s = capacity) ∧
        lru_length s = 0 ∧ LRU_keys s = [] ∧ LRU_values s = [] ∧ LRU_items s = [] ∧
        LRU_peek_first_item s = none ∧ LRU_peek_last_item s = none ∧
        LRU_memory s = 0 ∧ LRU_get_stats s = (0, 0, 0)) := by
  refine ⟨?_, ?_, ?_⟩
  · intro hle
    unfold LRU_init_args PyArg_Parse_l
    by_cases hr : LONG_MIN ≤ capacity ∧ capacity ≤ LONG_MAX
    · rw [if_pos hr]
      show ∃ e, LRU_init capacity cb = .error e ∧ _
      unfold LRU_init
      by_cases hcb : cb = some CallbackArg.notCallable
      · rw [if_pos hcb]
        exact ⟨_, rfl, fun _ h => absurd hcb h⟩
      · rw [if_neg hcb, if_pos hle]
        exact ⟨_, rfl, fun _ _ => rfl⟩
    · rw [if_neg hr]
      refine ⟨_, rfl, fun hmin _ => ?_⟩
      exact absurd ⟨hmin, by unfold LONG_MAX; omega⟩ hr
  · intro hbig
    unfold LRU_init_args PyArg_Parse_l
    rw [if_neg (fun h => absurd h.2 (not_le.mpr hbig))]
  · intro hpos hmax hcb
    unfold LRU_init_args PyArg_Parse_l
    rw [if_pos ⟨by unfold LONG_MIN; omega, hmax⟩]
    show ∃ s : LRU K V, LRU_init capacity cb = .ok s ∧ _
    unfold LRU_init
    rw [if_neg hcb, if_neg (not_le.mpr hpos)]
    refine ⟨_, rfl, rfl, ?_, rfl, rfl, rfl, rfl, rfl, rfl, rfl, rfl⟩
    intro hsmall
    unfold LRU_get_size Py_BuildValue_i
    show (capacity + 2147483648) % 4294967296 - 2147483648 = capacity
    omega

theorem C16_construct_witness :
    (0 : Int) ≤ 0 ∧ (0 : Int) < 10 ∧ (10 : Int) ≤ LONG_MAX ∧
      (none : Option CallbackArg) ≠ some CallbackArg.notCallable ∧
      (∃ e, LRU_init_args (K := String) (V := Nat) 0 none = .error e ∧
        (LONG_MIN ≤ 0 → (none : Option CallbackArg) ≠ some CallbackArg.notCallable →
          e = PyErr.ValueError)) ∧
      ∃ s : LRU String Nat, LRU_init_args 10 none = .ok s ∧ s.size = 10 ∧
        ((10 : Int) < 2147483648 → LRU_get_size s = 10) ∧
        lru_length s = 0 ∧ LRU_keys s = [] ∧ LRU_values s = [] ∧ LRU_items s = [] ∧
        LRU_peek_first_item s = none ∧ LRU_peek_last_item s = none ∧
        LRU_memory s = 0 ∧ LRU_get_stats s = (0, 0, 0) :=
  ⟨by decide, by decide, by decide, by decide,
    (C16_construct (K := String) (V := Nat) 0 none).1 (by decide),
    (C16_construct (K := String) (V := Nat) 10 none).2.2 (by decide) (by decide) (by decide)⟩

/-! ## Reachable states -/

theorem LRU_init_wf [DecidableEq K] [Inhabited K] [Inhabited V] {c : Int}
    {cb : Option CallbackArg} {s0 : LRU K V} (h0 : LRU_init c cb = .ok s0) : WF s0 := by
  by_cases hcb : cb = some CallbackArg.notCallable
  · unfold LRU_init at h0
    rw [if_pos hcb] at h0
    cases h0
  · by_cases hc : c ≤ 0
    · unfold LRU_init at h0
      rw [if_neg hcb, if_pos hc] at h0
      cases h0
    · obtain ⟨s1, hs1, hw1, _⟩ := LRU_init_ok (K := K) (V := V) c cb (not_le.mp hc) hcb
      rw [hs1] at h0
      cases h0
      exact hw1

/-- C17 fails on the code: after `LRU(10)`, `set('a', 1, 5)`, `set('b', 2, 5)` and
`set_size(1)` the only live entry has size 5 while the accounted memory is
still 10. -/
theorem C17_set_size_leaves_memory_stale :
    ∃ s0 s, LRU_init (K := String) (V := Nat) 10 none = .ok s0 ∧
      (∀ op ∈ [Op.set "a" 1 5, Op.set "b" 2 5, Op.set_size 1], op.valid) ∧
      run s0 [Op.set "a" 1 5, Op.set "b" 2 5, Op.set_size 1] = .ok s ∧
      entries s = [("b", 2, 5)] ∧ total (entries s) = 5 ∧ LRU_memory s = 10 :=
  ⟨_, _, rfl, by decide, rfl, by decide, by decide, by decide⟩

/-- C18 fails on the code: in the cache built by `LRU(10)`, `set('a', 1, 5)`,
`set('b', 2, 5)`, the call `set_size(1)` evicts one of the two entries and the
eviction counter of `get_stats()` stays 0. -/
theorem C18_set_size_eviction_not_counted :
    ∃ s0 s1 s2, LRU_init (K := String) (V := Nat) 10 none = .ok s0 ∧
      run s0 [Op.set "a" 1 5, Op.set "b" 2 5] = .ok s1 ∧
      LRU_set_size s1 1 = .ok (s2, none) ∧
      LRU_keys s1 = ["b", "a"] ∧ LRU_keys s2 = ["b"] ∧
      LRU_get_stats s1 = (0, 0, 0) ∧ LRU_get_stats s2 = (0, 0, 0) :=
  ⟨_, _, _, rfl, rfl, rfl, by decide, by decide, by decide, by decide⟩

/-- C19: in every state reached from a fresh cache by the public operations,
the dict and the linked list agree: a key is in the dict exactly when it is
met on the walk from `first`, the walk meets no node and no key twice, the dict
maps each key to the node of the walk that carries it, and both have the same
number of elements. -/
theorem C19_index_and_list_agree [DecidableEq K] [Inhabited K] [Inhabited V] (c : Int)
    (cb : Option CallbackArg) (ops : List (Op K V)) (s0 s : LRU K V)
    (h0 : LRU_init c cb = .ok s0) (hrun : run s0 ops = .ok s) :
    WF s ∧ (∀ k, LRU_contains_key s k = true ↔ k ∈ LRU_keys s) ∧
      (LRU_keys s).Nodup ∧ (chain s).Nodup ∧
      (∀ k p, GET_NODE s.dict k = some p → p ∈ chain s ∧ (s.heap p).key = k) ∧
      (∀ p ∈ chain s, GET_NODE s.dict (s.heap p).key = some p) ∧
      lru_length s = (chain s).length ∧
      (chain s).head? = s.first ∧ (chain s).getLast? = s.last := by
  have hw : WF s := run_wf ops (LRU_init_wf h0) hrun
  have hi := hw.inv
  refine ⟨hw, ?_, ?_, hi.list.nodup, ?_, ?_, hi.length_eq.symm, hi.list.first_eq.symm,
    hi.list.last_eq.symm⟩
  · intro k
    rw [hi.contains_eq, hi.keys_eq, mem_keys_iff_findKey]
  · rw [hi.keys_eq]; exact hi.entries_keys_nodup
  · intro k p hg
    exact hi.dict_sub _ ((getNode_eq_some_iff _ _ _ hi.keys_nodup).mp hg)
  · intro p hp
    exact hi.getNode_eq hp

theorem C19_index_and_list_agree_witness :
    ∃ s0 s, LRU_init (K := String) (V := Nat) 10 none = .ok s0 ∧
      run s0 demoOps = .ok s ∧
      WF s ∧ (∀ k, LRU_contains_key s k = true ↔ k ∈ LRU_keys s) ∧
      (LRU_keys s).Nodup ∧ (chain s).Nodup ∧
      (∀ k p, GET_NODE s.dict k = some p → p ∈ chain s ∧ (s.heap p).key = k) ∧
      (∀ p ∈ chain s, GET_NODE s.dict (s.heap p).key = some p) ∧
      lru_length s = (chain s).length ∧
      (chain s).head? = s.first ∧ (chain s).getLast? = s.last :=
  ⟨_, _, rfl, rfl, C19_index_and_list_agree 10 none demoOps _ _ rfl rfl⟩

/-- C20 fails on the code: the state reached by `LRU(10)`, `set('a', 1, 5)`,
`set('b', 2, 5)`, `set_size(1)` is well formed, and `set('c', 3, 1)` on it drives
the vacuum loop to read `self->last->size` with `last == NULL`. -/
theorem C20_vacuum_reads_null_last :
    ∃ s0 s, LRU_init (K := String) (V := Nat) 10 none = .ok s0 ∧
      (∀ op ∈ [Op.set "a" 1 5, Op.set "b" 2 5, Op.set_size 1], op.valid) ∧
      run s0 [Op.set "a" 1 5, Op.set "b" 2 5, Op.set_size 1] = .ok s ∧ WF s ∧
      (0 : Int) ≤ 1 ∧ LRU_set s "c" 3 1 = .error Fault.nullDeref :=
  ⟨_, _, rfl, by decide, rfl, by decide, by decide, rfl⟩

/-! ## Well-linked lists in pointer terms -/

theorem seg_of_links (h : Ptr → Node K V) :
    ∀ (l : List Ptr) (pv : Option Ptr),
      (∀ xy ∈ l.zip l.tail, (h xy.1).next = some xy.2) →
      (∀ x ∈ l.getLast?, (h x).next = none) →
      (∀ x ∈ l.head?, (h x).prev = pv) →
      (∀ x ∈ l, ∀ y ∈ (h x).next, (h y).prev = some x) → Seg h pv l := by
  intro l
  induction l with
  | nil => intro pv _ _ _ _; trivial
  | cons p rest ih =>
    intro pv hz hlast hhead hback
    have hp : (h p).prev = pv := hhead p rfl
    cases rest with
    | nil =>
      exact ⟨hp, hlast p rfl, trivial⟩
    | cons q r =>
      have hpq : (h p).next = some q := hz (p, q) (by simp)
      refine ⟨hp, hpq, ih (some p) ?_ ?_ ?_ ?_⟩
      · intro xy hxy
        exact hz xy (by
          simp only [List.tail_cons, List.zip_cons_cons] at hxy ⊢
          exact List.mem_cons_of_mem _ hxy)
      · intro x hx
        exact hlast x (by rw [List.getLast?_cons_cons]; exact hx)
      · intro x hx
        simp only [List.head?_cons, Option.mem_def, Option.some.injEq] at hx
        subst hx
        exact hback p (List.mem_cons_self _ _) q hpq
      · intro x hx
        exact hback x (List.mem_cons_of_mem _ hx)

theorem links_of_seg (h : Ptr → Node K V) :
    ∀ (l : List Ptr) (pv : Option Ptr), Seg h pv l →
      (∀ xy ∈ l.zip l.tail, (h xy.1).next = some xy.2) ∧
      (∀ x ∈ l.getLast?, (h x).next = none) ∧
      (∀ x ∈ l.head?, (h x).prev = pv) ∧
      (∀ x ∈ l, ∀ y ∈ (h x).next, (h y).prev = some x) := by
  intro l
  induction l with
  | nil =>
    intro pv _
    refine ⟨?_, ?_, ?_, ?_⟩ <;> intro x hx <;> simp at hx
  | cons p rest ih =>
    intro pv hs
    obtain ⟨h1, h2, h3⟩ := hs
    obtain ⟨i1, i2, i3, i4⟩ := ih (some p) h3
    cases rest with
    | nil =>
      refine ⟨?_, ?_, ?_, ?_⟩
      · intro xy hxy; simp at hxy
      · intro x hx
        simp only [List.getLast?_singleton, Option.mem_def, Option.some.injEq] at hx
        subst hx; exact h2
      · intro x hx
        simp only [List.head?_cons, Option.mem_def, Option.some.injEq] at hx
        subst hx; exact h1
      · intro x hx y hy
        simp only [List.mem_singleton] at hx
        subst hx
        rw [h2] at hy
        simp at hy
    | cons q r =>
      have hpq : (h p).next = some q := h2
      refine ⟨?_, ?_, ?_, ?_⟩
      · intro xy hxy
        simp only [List.tail_cons, List.zip_cons_cons, List.mem_cons] at hxy
        rcases hxy with e | hm
        · subst e; exact hpq
        · exact i1 xy (by simpa using hm)
      · intro x hx
        rw [List.getLast?_cons_cons] at hx
        exact i2 x hx
      · intro x hx
        simp only [List.head?_cons, Option.mem_def, Option.some.injEq] at hx
        subst hx; exact h1
      · intro x hx y hy
        rcases List.mem_cons.mp hx with e | hm
        · subst e
          rw [hpq] at hy
          simp only [Option.mem_def, Option.some.injEq] at hy
          subst hy
          exact i3 q rfl
        · exact i4 x hm y hy

/-- The pointer-level wording and the recursive one describe the same lists. -/
theorem wellLinked_iff_isList (h : Ptr → Node K V) (first last : Option Ptr) (l : List Ptr) :
    WellLinked h first last l ↔ IsList h first last l := by
  constructor
  · rintro ⟨hnd, hf, hl, hz, hlast, hfirst, hback⟩
    refine ⟨hf, hl, seg_of_links h l none hz ?_ ?_ hback, hnd⟩
    · rw [← hl]; exact hlast
    · rw [← hf]; exact hfirst
  · intro hi
    obtain ⟨i1, i2, i3, i4⟩ := links_of_seg h l none hi.seg
    refine ⟨hi.nodup, hi.first_eq, hi.last_eq, i1, ?_, ?_, i4⟩
    · rw [hi.last_eq]; exact i2
    · rw [hi.first_eq]; exact i3

/-- C23: on a well-linked list with head-to-tail sequence `l`,
`lru_remove_node` of a node of `l` yields a well-linked list whose sequence is
`l.erase node` and leaves the node with `prev == next == NULL`, and
`lru_add_node_at_head` of a node outside `l` yields a well-linked list whose
sequence is `node :: l`, with `last` unchanged unless `l` was empty; both leave
the key, value and size of every node alone. -/
theorem C23_list_helpers_refine (s : LRU K V) (l : List Ptr) (node : Ptr)
    (hl : WellLinked s.heap s.first s.last l) :
    (node ∈ l →
      WellLinked (lru_remove_node s node).heap (lru_remove_node s node).first
        (lru_remove_node s node).last (l.erase node) ∧
      walk (lru_remove_node s node).heap (l.erase node).length (lru_remove_node s node).first =
        l.erase node ∧
      ((lru_remove_node s node).heap node).prev = none ∧
      ((lru_remove_node s node).heap node).next = none ∧
      SameData s.heap (lru_remove_node s node).heap) ∧
    (node ∉ l →
      WellLinked (lru_add_node_at_head s node).heap (lru_add_node_at_head s node).first
        (lru_add_node_at_head s node).last (node :: l) ∧
      walk (lru_add_node_at_head s node).heap (node :: l).length
        (lru_add_node_at_head s node).first = node :: l ∧
      (l ≠ [] → (lru_add_node_at_head s node).last = s.last) ∧
      (l = [] → (lru_add_node_at_head s node).last = some node) ∧
      SameData s.heap (lru_add_node_at_head s node).heap) := by
  have hi := (wellLinked_iff_isList _ _ _ _).mp hl
  constructor
  · intro hn
    have hr : IsList (lru_remove_node s node).heap (lru_remove_node s node).first
        (lru_remove_node s node).last (l.erase node) := by
      rw [lru_remove_node_heap, lru_remove_node_first, lru_remove_node_last]
      exact isList_remove _ _ _ _ node hi hn
    refine ⟨(wellLinked_iff_isList _ _ _ _).mpr hr, ?_, ?_, ?_, ?_⟩
    · rw [hr.first_eq]
      exact walk_of_seg _ _ none _ hr.seg (le_refl _)
    · rw [lru_remove_node_heap]; exact (removeHeap_self _ _).1
    · rw [lru_remove_node_heap]; exact (removeHeap_self _ _).2
    · rw [lru_remove_node_heap]; exact removeHeap_sameData _ _
  · intro hn
    have ha : IsList (lru_add_node_at_head s node).heap (lru_add_node_at_head s node).first
        (lru_add_node_at_head s node).last (node :: l) := by
      rw [lru_add_node_at_head_heap, lru_add_node_at_head_first, lru_add_node_at_head_last]
      exact isList_add _ _ _ _ node hi hn
    refine ⟨(wellLinked_iff_isList _ _ _ _).mpr ha, ?_, ?_, ?_, ?_⟩
    · rw [ha.first_eq]
      exact walk_of_seg _ _ none _ ha.seg (le_refl _)
    · intro hne
      rw [lru_add_node_at_head_last, hi.first_eq]
      cases l with
      | nil => exact absurd rfl hne
      | cons a r => simp
    · intro he
      rw [lru_add_node_at_head_last, hi.first_eq, he]
      simp
    · rw [lru_add_node_at_head_heap]; exact addHeap_sameData _ _ _

theorem C23_list_helpers_refine_witness :
    WellLinked demoAB.heap demoAB.first demoAB.last [1, 0] ∧ 0 ∈ [1, 0] ∧ 5 ∉ [1, 0] ∧
      (WellLinked (lru_remove_node demoAB 0).heap (lru_remove_node demoAB 0).first
          (lru_remove_node demoAB 0).last ([1, 0].erase 0) ∧
        walk (lru_remove_node demoAB 0).heap ([1, 0].erase 0).length
          (lru_remove_node demoAB 0).first = [1, 0].erase 0 ∧
        ((lru_remove_node demoAB 0).heap 0).prev = none ∧
        ((lru_remove_node demoAB 0).heap 0).next = none ∧
        SameData demoAB.heap (lru_remove_node demoAB 0).heap) ∧
      (WellLinked (lru_add_node_at_head demoAB 5).heap (lru_add_node_at_head demoAB 5).first
          (lru_add_node_at_head demoAB 5).last (5 :: [1, 0]) ∧
        walk (lru_add_node_at_head demoAB 5).heap (5 :: [1, 0]).length
          (lru_add_node_at_head demoAB 5).first = 5 :: [1, 0] ∧
        ([1, 0] ≠ [] → (lru_add_node_at_head demoAB 5).last = demoAB.last) ∧
        ([1, 0] = [] → (lru_add_node_at_head demoAB 5).last = some 5) ∧
        SameData demoAB.heap (lru_add_node_at_head demoAB 5).heap) :=
  ⟨by decide, by decide, by decide,
    (C23_list_helpers_refine demoAB [1, 0] 0 (by decide)).1 (by decide),
    (C23_list_helpers_refine demoAB [1, 0] 5 (by decide)).2 (by decide)⟩

/-- C22: on a well-formed state `contains(key)` is true exactly when the key
occurs in `keys()`, for each of the three entry points (`__contains__`,
`has_key`, `key in L`); the query returns its answer only, so no field of the
cache changes: no promotion, no counter update. -/
theorem C22_contains_is_membership [DecidableEq K] (s : LRU K V) (key : K) (hw : WF s) :
    (LRU_contains_key s key = true ↔ key ∈ LRU_keys s) ∧
    LRU_contains s key = LRU_contains_key s key ∧
    (LRU_seq_contains s key = 1 ↔ key ∈ LRU_keys s) ∧
    (LRU_seq_contains s key = 0 ↔ key ∉ LRU_keys s) := by
  have hi := hw.inv
  have h1 : LRU_contains_key s key = true ↔ key ∈ LRU_keys s := by
    rw [hi.contains_eq, hi.keys_eq, mem_keys_iff_findKey]
  have h2 : (GET_NODE s.dict key).isSome = LRU_contains_key s key := rfl
  refine ⟨h1, rfl, ?_, ?_⟩
  · unfold LRU_seq_contains
    rw [h2, ← h1]
    cases LRU_contains_key s key <;> simp
  · unfold LRU_seq_contains
    rw [h2, ← h1]
    cases LRU_contains_key s key <;> simp

theorem C22_contains_is_membership_witness :
    WF demoAB ∧ LRU_contains_key demoAB "a" = true ∧ LRU_contains_key demoAB "z" = false ∧
      (LRU_contains_key demoAB "a" = true ↔ "a" ∈ LRU_keys demoAB) ∧
      LRU_contains demoAB "a" = LRU_contains_key demoAB "a" ∧
      (LRU_seq_contains demoAB "a" = 1 ↔ "a" ∈ LRU_keys demoAB) ∧
      (LRU_seq_contains demoAB "a" = 0 ↔ "a" ∉ LRU_keys demoAB) :=
  ⟨by decide, by decide, by decide, C22_contains_is_membership demoAB "a" (by decide)⟩

/-! ## The callback record -/

theorem Py_ssize_t_eq (x : Int) (h1 : LONG_MIN ≤ x) (h2 : x ≤ LONG_MAX) : Py_ssize_t x = x := by
  unfold Py_ssize_t
  unfold LONG_MIN at h1
  unfold LONG_MAX at h2
  omega

theorem lru_delete_last_clean [DecidableEq K] (s : LRU K V) :
    (lru_delete_last s).clean = s.clean := by
  unfold lru_delete_last
  cases s.last with
  | none => rfl
  | some n =>
    by_cases hc : s.callback = true
    · simp [hc]
    · simp [hc]

theorem ssize_vacuum_body_eq [DecidableEq K] (s : LRU K V) (x : Ptr)
    (h1 : Py_ssize_t (s.memory - (s.heap x).size) = s.memory - (s.heap x).size)
    (h2 : Py_ssize_t (s.clean + 1) = s.clean + 1) :
    Ssize.lru_vacuum_body s x = lru_vacuum_body s x := by
  unfold Ssize.lru_vacuum_body lru_vacuum_body
  simp only [h1, lru_delete_last_clean, h2]

theorem total_dropLast (es : List (K × V × Int)) (e : K × V × Int)
    (h : es.getLast? = some e) : total es = total es.dropLast + e.2.2 := by
  obtain ⟨l, rfl⟩ := List.getLast?_eq_some_iff.mp h
  rw [List.dropLast_concat, total_append, total_cons, total_nil, add_zero]

/-- In an accounted state whose counters are in range, the vacuum never leaves
the range of `Py_ssize_t`: it is the vacuum on mathematical integers. -/
theorem ssize_vacuum_loop_eq [DecidableEq K] :
    ∀ (fuel : Nat) (s : LRU K V), WF s → Accounted s → s.memory ≤ LONG_MAX →
      LONG_MIN ≤ s.clean → s.clean + ((entries s).length : Int) ≤ LONG_MAX →
      Ssize.lru_vacuum_loop fuel s = lru_vacuum_loop fuel s := by
  intro fuel
  induction fuel with
  | zero => intro s _ _ _ _ _; rfl
  | succ n ih =>
    intro s hw ha hmem hc0 hc1
    have hi := hw.inv
    unfold Ssize.lru_vacuum_loop lru_vacuum_loop
    by_cases hm : s.memory > s.size
    · simp only [hm, if_true]
      cases hx : s.last with
      | none => rfl
      | some x =>
        simp only []
        obtain ⟨hi1, habs⟩ := vacuum_body_spec hi hx
        have hlast : (entries s).getLast? = some (get_entry (s.heap x)) := by
          rw [hi.getLast_entries, hx]; rfl
        have htot := total_dropLast _ _ hlast
        have hent : entries (lru_vacuum_body s x) = (entries s).dropLast :=
          congrArg Abs.entries habs
        have hmem1 : (lru_vacuum_body s x).memory = s.memory - (s.heap x).size :=
          congrArg Abs.memory habs
        have hcl1 : (lru_vacuum_body s x).clean = s.clean + 1 := congrArg Abs.clean habs
        have hnn1 : ∀ e ∈ (entries s).dropLast, 0 ≤ e.2.2 :=
          fun e he => ha.2 e (List.mem_of_mem_dropLast he)
        have hsz : 0 ≤ (s.heap x).size := ha.2 _ (List.mem_of_mem_getLast? hlast)
        have hrest := total_nonneg _ hnn1
        have hlen : 1 ≤ (entries s).length := by
          cases hes : entries s with
          | nil => rw [hes] at hlast; cases hlast
          | cons a r => simp
        have hsize : (get_entry (s.heap x)).2.2 = (s.heap x).size := rfl
        have hmemtot := ha.1
        have hb1 : Py_ssize_t (s.memory - (s.heap x).size) = s.memory - (s.heap x).size := by
          apply Py_ssize_t_eq
          · unfold LONG_MIN; omega
          · omega
        have hb2 : Py_ssize_t (s.clean + 1) = s.clean + 1 := by
          apply Py_ssize_t_eq
          · unfold LONG_MIN at hc0 ⊢; omega
          · omega
        rw [ssize_vacuum_body_eq s x hb1 hb2]
        apply ih _ hi1.wf
        · refine ⟨?_, ?_⟩
          · rw [hmem1, hent]; omega
          · rw [hent]; exact hnn1
        · rw [hmem1]; omega
        · rw [hcl1]; omega
        · rw [hcl1, hent, List.length_dropLast]
          omega
    · simp only [hm, if_false]

theorem ssize_vacuum_eq [DecidableEq K] (s : LRU K V) (hw : WF s) (ha : Accounted s)
    (hmem : s.memory ≤ LONG_MAX) (hc0 : LONG_MIN ≤ s.clean)
    (hc1 : s.clean + ((entries s).length : Int) ≤ LONG_MAX) :
    Ssize.lru_vacuum s = lru_vacuum s := by
  unfold Ssize.lru_vacuum lru_vacuum
  exact ssize_vacuum_loop_eq _ s hw ha hmem hc0 hc1

/-- An accepted `set` whose sum and eviction count stay within `Py_ssize_t`
computes at the width of `Py_ssize_t` what it computes on mathematical integers. -/
theorem ssize_set_eq [DecidableEq K] (s : LRU K V) (hw : WF s) (ha : Accounted s) (key : K)
    (value : V) (m : Int) (h0 : 0 ≤ m) (hsum : setMem s key m ≤ LONG_MAX)
    (hc0 : LONG_MIN ≤ s.clean)
    (hc1 : s.clean + ((setSeq s key value m).length : Int) ≤ LONG_MAX) :
    Ssize.LRU_set s key value m = LRU_set s key value m := by
  have hi := hw.inv
  have hsplit := (remKey_split key (entries s) hi.entries_keys_nodup).1
  have hnnr : ∀ e ∈ remKey key (entries s), 0 ≤ e.2.2 :=
    fun e he => ha.2 e ((mem_remKey _ _ _).mp he).1
  have hrest := total_nonneg _ hnnr
  have hfk := hi.findKey_eq key
  unfold setMem at hsum
  unfold setSeq at hc1
  unfold Ssize.LRU_set LRU_set Ssize._lru_ass_sub _lru_ass_sub
  by_cases hm : m > s.size
  · simp only [hm, if_true]
  · simp only [hm, if_false]
    cases hg : GET_NODE s.dict key with
    | some n =>
      have hn : n ∈ chain s ∧ (s.heap n).key = key :=
        hi.dict_sub _ ((getNode_eq_some_iff _ _ _ hi.keys_nodup).mp hg)
      rw [hg] at hfk
      simp only [Option.map_some'] at hfk
      rw [hfk] at hsum hsplit
      have hsz : (get_entry (s.heap n)).2.2 = (s.heap n).size := rfl
      simp only [hsz] at hsum hsplit
      have hmemtot := ha.1
      have hb : Py_ssize_t (s.memory - (s.heap n).size + m) = s.memory - (s.heap n).size + m := by
        apply Py_ssize_t_eq
        · unfold LONG_MIN; omega
        · exact hsum
      obtain ⟨h5, ha5⟩ := assign_existing_spec hi hn.1 value m (s.memory - (s.heap n).size + m)
      rw [hn.2] at ha5
      have hent := congrArg Abs.entries ha5
      have hmem5 := congrArg Abs.memory ha5
      have hcl5 := congrArg Abs.clean ha5
      simp only [absOf_entries, absOf_memory, absOf_clean] at hent hmem5 hcl5
      simp only [setValue_size, hb]
      rw [ssize_vacuum_eq _ h5.wf ?_ ?_ ?_ ?_]
      · refine ⟨?_, ?_⟩
        · rw [hmem5, hent, total_cons]
          show _ = m + _
          omega
        · rw [hent]
          intro e he
          rcases List.mem_cons.mp he with rfl | h
          · exact h0
          · exact hnnr e h
      · rw [hmem5]; exact hsum
      · rw [hcl5]; exact hc0
      · rw [hcl5, hent]; exact hc1
    | none =>
      rw [hg] at hfk
      simp only [Option.map_none'] at hfk
      rw [hfk] at hsum
      simp only [sub_zero] at hsum
      rw [remKey_of_findKey_none key _ hfk] at hc1
      have hmemtot := ha.1
      have htot := total_nonneg _ ha.2
      have hb : Py_ssize_t (s.memory + m) = s.memory + m := by
        apply Py_ssize_t_eq
        · unfold LONG_MIN; omega
        · exact hsum
      obtain ⟨h4, ha4⟩ := assign_new_spec hi key hg value m (s.memory + m)
      have hent := congrArg Abs.entries ha4
      have hmem4 := congrArg Abs.memory ha4
      have hcl4 := congrArg Abs.clean ha4
      simp only [absOf_entries, absOf_memory, absOf_clean] at hent hmem4 hcl4
      simp only [hb]
      rw [ssize_vacuum_eq _ h4.wf ?_ ?_ ?_ ?_]
      · refine ⟨?_, ?_⟩
        · rw [hmem4, hent, total_cons]
          show _ = m + _
          omega
        · rw [hent]
          intro e he
          rcases List.mem_cons.mp he with rfl | h
          · exact h0
          · exact ha.2 e h
      · rw [hmem4]; exact hsum
      · rw [hcl4]; exact hc0
      · rw [hcl4, hent]; exact hc1

/-- C2 as stated fails where a sum leaves the range of `Py_ssize_t`.  In the cache
built by `LRU(9223372036854775807)` and `set('a', 1, 9223372036854775807)`, a
well-formed accounted state, `set('b', 2, 1)` wraps `memory` to
-9223372036854775808 and evicts nothing, although only the prefix `b` fits the
capacity.  And in the two-entry sample cache with the eviction counter at
`LONG_MAX`, `set('c', 3, 4)` evicts `a` and the counter wraps instead of growing
by one. -/
theorem C2_sum_beyond_long_evicts_nothing :
    (∃ s0 s1 s2, LRU_init_args (K := String) (V := Nat) 9223372036854775807 none = .ok s0 ∧
      Ssize.LRU_set s0 "a" 1 9223372036854775807 = .ok s1 ∧
      WF s1 ∧ Accounted s1 ∧ (0 : Int) ≤ 1 ∧ (1 : Int) ≤ s1.size ∧
      Ssize.LRU_set s1 "b" 2 1 = .ok s2 ∧
      entries s2 = [("b", 2, 1), ("a", 1, 9223372036854775807)] ∧
      s2.clean = s1.clean ∧ s2.memory = -9223372036854775808 ∧
      total (((("b", 2, 1) : String × Nat × Int) :: remKey "b" (entries s1)).take 1) ≤ s1.size ∧
      ¬ total (entries s2) ≤ s1.size) ∧
    (∃ s2, WF { demoAB with clean := 9223372036854775807 } ∧
      Accounted { demoAB with clean := 9223372036854775807 } ∧
      Ssize.LRU_set { demoAB with clean := 9223372036854775807 } "c" 3 4 = .ok s2 ∧
      entries s2 = [("c", 3, 4), ("b", 2, 4)] ∧
      s2.clean = -9223372036854775808 ∧
      s2.clean ≠ 9223372036854775807 + 1) :=
  ⟨⟨_, _, _, rfl, rfl, by decide, by decide, by decide, by decide, rfl, by decide, by decide,
      by decide, by decide, by decide⟩,
    ⟨_, by decide, by decide, rfl, by decide, by decide, by decide⟩⟩

/-- C2 (amended): in a well-formed accounted state, `set(key, value, size)` with
`0 ≤ size ≤ capacity`, computed at the width of `Py_ssize_t`, leaves exactly the
longest prefix of `L = (key, value, size) :: (old entries without key)` whose
total size fits the capacity, and the eviction counter grows by the number of
entries dropped, provided the sum `memory - old size + size` does not exceed
`LONG_MAX` and the eviction counter stays within `Py_ssize_t`; on a fresh cache
of capacity 10 the sets `a`, `b`, `c` of size 4 leave keys `c, b` and memory 8. -/
theorem C2_set_keeps_longest_fit :
    (∀ (K V : Type) [DecidableEq K] (s : LRU K V) (key : K) (value : V) (size : Int),
      WF s → Accounted s → 0 ≤ size → size ≤ s.size →
      setMem s key size ≤ LONG_MAX → LONG_MIN ≤ s.clean →
      s.clean + ((((key, value, size) :: remKey key (entries s)).length : Nat) : Int) ≤ LONG_MAX →
      ∃ s' j, Ssize.LRU_set s key value size = .ok s' ∧
        j ≤ ((key, value, size) :: remKey key (entries s)).length ∧
        entries s' = ((key, value, size) :: remKey key (entries s)).take j ∧
        total (((key, value, size) :: remKey key (entries s)).take j) ≤ s.size ∧
        (∀ i, i ≤ ((key, value, size) :: remKey key (entries s)).length →
          total (((key, value, size) :: remKey key (entries s)).take i) ≤ s.size → i ≤ j) ∧
        s'.clean = s.clean +
          ((((key, value, size) :: remKey key (entries s)).length - j : Nat) : Int) ∧
        s'.size = s.size) ∧
    (∀ va vb vc : Nat, ∃ s0 s1 s2 s3,
      LRU_init_args (K := String) (V := Nat) 10 none = .ok s0 ∧
      Ssize.LRU_set s0 "a" va 4 = .ok s1 ∧ Ssize.LRU_set s1 "b" vb 4 = .ok s2 ∧
      Ssize.LRU_set s2 "c" vc 4 = .ok s3 ∧
      LRU_keys s3 = ["c", "b"] ∧ LRU_memory s3 = 8) := by
  constructor
  · intro K V _ s key value size hw ha h0 hm hsum hc0 hc1
    rw [ssize_set_eq s hw ha key value size h0 hsum hc0 hc1]
    obtain ⟨s', j, hs', _, _, hj, habs, htot, hmax⟩ := set_accounted hw ha key value size h0 hm
    refine ⟨s', j, hs', hj, ?_, htot, hmax, ?_, ?_⟩
    · exact congrArg Abs.entries habs
    · exact congrArg Abs.clean habs
    · exact congrArg Abs.size habs
  · intro va vb vc
    exact ⟨_, _, _, _, rfl, rfl, rfl, rfl, rfl, rfl⟩

theorem C2_set_keeps_longest_fit_witness :
    WF demoAB ∧ Accounted demoAB ∧ (0 : Int) ≤ 4 ∧ (4 : Int) ≤ demoAB.size ∧
      setMem demoAB "c" 4 ≤ LONG_MAX ∧ LONG_MIN ≤ demoAB.clean ∧
      demoAB.clean + ((((("c", 3, 4) : String × Nat × Int) ::
        remKey "c" (entries demoAB)).length : Nat) : Int) ≤ LONG_MAX ∧
      ∃ s' j, Ssize.LRU_set demoAB "c" 3 4 = .ok s' ∧
        j ≤ (("c", 3, 4) :: remKey "c" (entries demoAB)).length ∧
        entries s' = (("c", 3, 4) :: remKey "c" (entries demoAB)).take j ∧
        total ((("c", 3, 4) :: remKey "c" (entries demoAB)).take j) ≤ demoAB.size ∧
        (∀ i, i ≤ (("c", 3, 4) :: remKey "c" (entries demoAB)).length →
          total ((("c", 3, 4) :: remKey "c" (entries demoAB)).take i) ≤ demoAB.size → i ≤ j) ∧
        s'.clean = demoAB.clean +
          (((("c", 3, 4) :: remKey "c" (entries demoAB)).length - j : Nat) : Int) ∧
        s'.size = demoAB.size :=
  ⟨by decide, by decide, by decide, by decide, by decide, by decide, by decide,
    C2_set_keeps_longest_fit.1 String Nat demoAB "c" 3 4 (by decide) (by decide) (by decide)
      (by decide) (by decide) (by decide) (by decide)⟩

end Lru
